import Mathlib

/-!
Verification of the nflibs configuration-data library
(`nf_string_table.c`, `nf_config_data.c`, `nf_json_parser.c`).

The C code is shallowly embedded.  Conventions used throughout:

* C strings are `List Nat` of their bytes, without the terminating NUL;
  a byte value `0` inside the list marks the place where the C string ends.
* Byte memory (the arena's data section, the string table's string block)
  is a function `Nat → Nat` from byte offsets to byte values.
* 32-bit unsigned C arithmetic is `Nat` arithmetic reduced `% 4294967296`
  at the operations where wrap-around matters.
* C `float` arithmetic, which the code uses only to size the hash table
  (the `HASH_FACTOR` fill check and the slot-count heuristics), is
  idealised as exact arithmetic and written in the equivalent integer
  form, documented at each definition; float rounding only deviates from
  the exact value for table sizes far beyond the `int` ranges involved.
* Loops whose termination depends on the heap state take an explicit
  fuel argument and return `none`/`.out` when the fuel runs out, so a
  `some _` result of the model corresponds to a terminating C execution.
-/

namespace NF

/-! ## Byte-memory helpers -/

/-- Update one byte of a byte memory. -/
def updB (m : Nat → Nat) (a v : Nat) : Nat → Nat :=
  fun i => if i = a then v else m i

/-- `memcpy(m + a, bs, bs.length)`: write the bytes `bs` at offset `a`. -/
def writeBytes (m : Nat → Nat) : Nat → List Nat → (Nat → Nat)
  | _, [] => m
  | a, b :: bs => writeBytes (updB m a b) (a + 1) bs

/-- Little-endian decoding of a 32-bit value at offset `a`. -/
def readU32 (m : Nat → Nat) (a : Nat) : Nat :=
  m a % 256 + 256 * (m (a + 1) % 256) + 65536 * (m (a + 2) % 256) +
    16777216 * (m (a + 3) % 256)

/-- Little-endian encoding of a 32-bit value. -/
def encodeU32 (v : Nat) : List Nat :=
  [v % 256, v / 256 % 256, v / 65536 % 256, v / 16777216 % 256]

/-- Write a 32-bit value at offset `a` (little endian). -/
def writeU32 (m : Nat → Nat) (a v : Nat) : Nat → Nat :=
  writeBytes m a (encodeU32 v)

/-- Read `n` raw bytes starting at offset `a`. -/
def readBytes (m : Nat → Nat) (a n : Nat) : List Nat :=
  (List.range n).map fun i => m (a + i)

/-! ## String table (`nf_string_table.c`)

The table state keeps the header fields of `struct nfst_StringTable`
together with the hash-slot array (a function from slot index to the
stored string offset) and the string block (a byte memory indexed from
the start of the block).  `sizeof(struct nfst_StringTable) = 20` (five
`int` fields).  The 16-bit and the 32-bit hash-slot representations only
differ in how many bytes a slot occupies and in the truncation applied
when a slot is written; both are modelled by the same `slots` function,
with the truncation applied at the writes. -/

structure StrTab where
  allocated_bytes : Nat
  count : Nat
  uses16 : Bool
  num_hash_slots : Nat
  slots : Nat → Nat
  string_bytes : Nat
  strs : Nat → Nat

/-- One step of the Lua string hash used by `hash_and_length`:
`h ^= (h<<5) + (h>>2) + byte` in 32-bit unsigned arithmetic. -/
def hashStep (h b : Nat) : Nat := h ^^^ ((h * 32 + h / 4 + b) % 4294967296)

/-- The hash of `hash_and_length`, folded over the bytes of the string. -/
def strHash (s : List Nat) : Nat := s.foldl hashStep 0

/-- `strcmp(s, strs + off) == 0`: the C string stored at `off` equals the
C string whose bytes are `s` (a `0` inside `s` ends it early). -/
def strcmpEq (strs : Nat → Nat) : Nat → List Nat → Bool
  | off, [] => strs off == 0
  | off, b :: bs =>
    if b = 0 then strs off == 0
    else strs off == b && strcmpEq strs (off + 1) bs

/-- Read the C string stored at `off`, examining at most `fuel` bytes. -/
def readCStr (strs : Nat → Nat) : Nat → Nat → List Nat
  | _, 0 => []
  | off, fuel + 1 => if strs off = 0 then [] else strs off :: readCStr strs (off + 1) fuel

/-- `available_string_bytes`: bytes available for string data
(may be negative for degenerate headers, hence `Int`). -/
def availStringBytes (st : StrTab) : Int :=
  (st.allocated_bytes : Int) - 20 - st.num_hash_slots * (if st.uses16 then 2 else 4)

/-- Result of `nfst_to_symbol`: either `NFST_STRING_TABLE_FULL` or a symbol. -/
inductive SymRes where
  | full
  | sym (n : Nat)
deriving DecidableEq

/-- The probe loop of `nfst_to_symbol` / `nfst_to_symbol_const`:
from slot `i`, while the slot is occupied, return its symbol if the
stored string equals `s`, else step to `(i+1) % n`.  Returns the
matching symbol, or the first empty slot index.  `none` means the loop
ran past `fuel` probes (with fuel `n` this only happens when every slot
is occupied and none matches, in which case the C loop never ends). -/
def probeLoop (slots : Nat → Nat) (n : Nat) (strs : Nat → Nat) (s : List Nat) :
    Nat → Nat → Option (Sum Nat Nat)
  | _, 0 => none
  | i, fuel + 1 =>
    if slots i = 0 then some (Sum.inr i)
    else if strcmpEq strs (slots i) s then some (Sum.inl (slots i))
    else probeLoop slots n strs s ((i + 1) % n) fuel

/-- The table state after `nfst_to_symbol` appends the string `s` to the
string block and records slot value `slotVal` (the symbol, possibly
truncated by the 16-bit store) in slot `i`. -/
def insertStr (st : StrTab) (i slotVal : Nat) (s : List Nat) : StrTab :=
  { st with
    slots := updB st.slots i slotVal
    count := st.count + 1
    strs := writeBytes st.strs st.string_bytes (s ++ [0])
    string_bytes := st.string_bytes + (s.length + 1) }

/-- `nfst_to_symbol`.  `none` models the non-terminating probe loop;
`some (st, .full)` is `NFST_STRING_TABLE_FULL` with the table unchanged;
`some (st', .sym v)` returns symbol `v`. -/
def nfstToSymbol (st : StrTab) (s : List Nat) : Option (StrTab × SymRes) :=
  if s.headD 0 = 0 then some (st, .sym 0)
  else
    match probeLoop st.slots st.num_hash_slots st.strs s
        (strHash s % st.num_hash_slots) st.num_hash_slots with
    | none => none
    | some (.inl v) => some (st, .sym v)
    | some (.inr i) =>
      if st.count + 1 ≥ st.num_hash_slots then some (st, .full)
      -- `(float)num_hash_slots / (float)(count+1) < HASH_FACTOR` with
      -- `HASH_FACTOR = 2.0f`; in exact arithmetic `n/(c+1) < 2 ↔ n < 2*(c+1)`.
      else if st.num_hash_slots < 2 * (st.count + 1) then some (st, .full)
      else if (st.string_bytes : Int) + s.length + 1 > availStringBytes st then
        some (st, .full)
      else
        if st.uses16 then
          if st.string_bytes > 65536 then some (st, .full)
          else some (insertStr st i (st.string_bytes % 65536) s, .sym st.string_bytes)
        else some (insertStr st i (st.string_bytes % 4294967296) s, .sym st.string_bytes)

/-- `nfst_to_symbol_const`: look up without inserting.  `none` models the
non-terminating probe loop; `some none` is `NFST_STRING_TABLE_FULL`. -/
def nfstToSymbolConst (st : StrTab) (s : List Nat) : Option (Option Nat) :=
  if s.headD 0 = 0 then some (some 0)
  else
    match probeLoop st.slots st.num_hash_slots st.strs s
        (strHash s % st.num_hash_slots) st.num_hash_slots with
    | none => none
    | some (.inl v) => some (some v)
    | some (.inr _) => some none

/-- `nfst_to_string`: the C string stored at offset `symbol` in the string
block (reads stay inside the `string_bytes` used bytes, which is where
every string interned by `nfst_to_symbol` lies). -/
def nfstToString (st : StrTab) (symbol : Nat) : List Nat :=
  readCStr st.strs symbol (st.string_bytes - symbol)

/-- Slot count chosen by `nfst_init`: `MAX(num_strings * HASH_FACTOR, 1)`
with `num_strings = (bytes - sizeof header) / (avg + 1 + 2 * HASH_FACTOR)`
and `HASH_FACTOR = 2.0f`.  In exact arithmetic the truncated value
`(int)(num_strings * 2)` equals `2 * (bytes - 20) / (avg + 5)` in `Nat`
division (and for `bytes < 20` the negative float is below the `MAX(·, 1)`
clamp either way). -/
def nfstNumSlotsInit (bytes avg : Nat) : Nat :=
  max (2 * (bytes - 20) / (avg + 1 + 2 * 2)) 1

/-- `nfst_init` over a buffer of `bytes` bytes.  The string block starts
zeroed (the code only writes the NUL of the reserved empty string at
offset 0; uninitialised bytes are modelled as 0). -/
def nfstInit (bytes avg : Nat) : StrTab :=
  let n := nfstNumSlotsInit bytes avg
  { allocated_bytes := bytes
    count := 0
    uses16 := decide ((bytes : Int) - 20 - 4 * n ≤ 65536)
    num_hash_slots := n
    slots := fun _ => 0
    string_bytes := 1
    strs := fun _ => 0 }

/-- The probe of `rebuild_hash_table`: advance from slot `i` to the first
empty slot. -/
def findEmpty (slots : Nat → Nat) (n : Nat) : Nat → Nat → Option Nat
  | _, 0 => none
  | i, fuel + 1 => if slots i = 0 then some i else findEmpty slots n ((i + 1) % n) fuel

/-- The walk of `rebuild_hash_table`: starting at offset 1, read each
NUL-terminated string of the block, hash it, and store its offset in the
first empty slot of the probe sequence (16-bit slots truncate the stored
offset exactly like the `uint16_t` assignment does). -/
def rebuildWalk (strs : Nat → Nat) (sb n : Nat) (uses16 : Bool) :
    Nat → (Nat → Nat) → Nat → Option (Nat → Nat)
  | _, _, 0 => none
  | pos, slots, fuel + 1 =>
    if pos < sb then
      let str := readCStr strs pos (sb - pos)
      match findEmpty slots n (strHash str % n) n with
      | none => none
      | some i =>
        rebuildWalk strs sb n uses16 (pos + (str.length + 1))
          (updB slots i (if uses16 then pos % 65536 else pos % 4294967296)) fuel
    else some slots

/-- `rebuild_hash_table`: zero the slots, then re-insert the offset of
every string found in the block. -/
def rebuildHashTable (st : StrTab) : Option StrTab :=
  (rebuildWalk st.strs st.string_bytes st.num_hash_slots st.uses16 1 (fun _ => 0)
      (st.string_bytes + 1)).map
    fun slots => { st with slots := slots }

/-- Slot count chosen by `nfst_grow` (same float heuristic as `nfst_init`,
with the measured average string length, and never shrinking).  With
`avg = string_bytes / count` the exact value of
`(int)((bytes - 20) / (avg + 5) * 2)` is
`2 * (bytes - 20) * count / (string_bytes + 5 * count)` in `Nat` division. -/
def nfstNumSlotsGrow (st : StrTab) (bytes : Nat) : Nat :=
  if st.count > 0 then
    max (2 * (bytes - 20) * st.count / (st.string_bytes + 5 * st.count)) st.num_hash_slots
  else
    max (2 * (bytes - 20) / 20) st.num_hash_slots

/-- `nfst_grow`: recompute slot count and width, keep the string block
(the `memmove` relocates it inside the buffer; offsets into the block,
which is all the model stores, are unchanged), rebuild the hash table. -/
def nfstGrow (st : StrTab) (bytes : Nat) : Option StrTab :=
  let n := nfstNumSlotsGrow st bytes
  rebuildHashTable
    { st with
      allocated_bytes := bytes
      num_hash_slots := n
      uses16 := decide ((bytes : Int) - 20 - 4 * n ≤ 65536) }

/-- Well-formedness of a string-table state.  `nfst_init` establishes it
and every operation preserves it: the table has at least one hash slot,
the string block starts with the reserved empty string and ends with a
NUL, and every occupied hash slot points inside the used string block. -/
structure WF (st : StrTab) : Prop where
  nslots_pos : 1 ≤ st.num_hash_slots
  sb_pos : 1 ≤ st.string_bytes
  zero0 : st.strs 0 = 0
  lastNul : st.strs (st.string_bytes - 1) = 0
  slotsLt : ∀ i < st.num_hash_slots, st.slots i ≠ 0 → st.slots i < st.string_bytes

/-! ### The 16-bit slot boundary

A 16-bit table whose string block has grown to exactly 65536 used bytes.
Such a state is reachable: e.g. `nfcd_make(realloc, ud, 0, 90000)` builds
a 16-bit table (`bytes_for_strings_32 ≈ 53980 ≤ 64 KiB`) with about
8998 hash slots and about 71980 bytes available for strings, and interning
strings until `string_bytes == 65536` stays far below the 50% fill cap.
Below, the 65530 block bytes standing for those previously interned
strings are abbreviated to three short strings plus zero padding, and
`count`/`slots` record only the three; none of this is read on the
evaluated path, which probes the empty slot 8 directly. -/

/-- A reachable-shape 16-bit table state at the 64 KiB string boundary. -/
def stBoundary : StrTab :=
  { allocated_bytes := 65600
    count := 3
    uses16 := true
    num_hash_slots := 16
    slots := fun i => if i = 1 then 1 else if i = 2 then 3 else if i = 3 then 5 else 0
    string_bytes := 65536
    strs := fun i => if i = 1 then 97 else if i = 3 then 98 else if i = 5 then 99 else 0 }

/-! ## Config data arena (`nf_config_data.c`) -/

/-- `struct nfcd_ConfigData`.  The header fields are record fields; `mem`
is the byte content of the buffer's data section, addressed by absolute
byte offsets (`sizeof(struct nfcd_ConfigData) = 32` on x86-64, so the
first datum sits at offset 32 = initial `used_bytes`).  The string table
lives at the tail of the same buffer (`STRINGTABLE(cd)`) and is kept in
structured form in `st`; the allocator callback and its user data play no
role in the model, where allocation always succeeds. -/
structure Arena where
  total_bytes : Nat
  allocated_bytes : Nat
  used_bytes : Nat
  root : Nat
  mem : Nat → Nat
  st : StrTab

/-- `MAKE_LOC(type, offset) = type | offset << NFCD_TYPE_BITS`. -/
def makeLoc (ty off : Nat) : Nat := ty + 8 * off

/-- `LOC_TYPE(loc) = loc & NFCD_TYPE_MASK`. -/
def locType (loc : Nat) : Nat := loc % 8

/-- `LOC_OFFSET(loc) = loc >> NFCD_TYPE_BITS`. -/
def locOff (loc : Nat) : Nat := loc / 8

/-- The growth loop at the head of `write()`: double `allocated_bytes`
(the string-table bytes at the tail keep their size; the `memmove` that
relocates them is invisible to the structured `st` field) until `total`
more bytes fit in the data section.  The caller passes fuel
`used_bytes + total + 1`, which suffices whenever `allocated_bytes ≥ 1`;
a zero-sized data section would make the C loop run forever. -/
def dataGrow : Nat → Arena → Nat → Option Arena
  | fuel, cd, total =>
    if cd.used_bytes + total > cd.allocated_bytes then
      match fuel with
      | 0 => none
      | fuel + 1 =>
        dataGrow fuel
          { cd with
            allocated_bytes := cd.allocated_bytes * 2
            total_bytes := cd.allocated_bytes * 2 + (cd.total_bytes - cd.allocated_bytes) }
          total
    else some cd

/-- `write()`: grow if needed, then append `payload` followed by `zeroes`
zero bytes at `used_bytes`, returning the loc packing `ty` and the
offset. -/
def nfcdWrite (cd : Arena) (ty : Nat) (payload : List Nat) (zeroes : Nat) :
    Option (Arena × Nat) :=
  (dataGrow (cd.used_bytes + (payload.length + zeroes) + 1) cd
      (payload.length + zeroes)).map fun cd' =>
    ({ cd' with
        mem := writeBytes cd'.mem cd'.used_bytes (payload ++ List.replicate zeroes 0)
        used_bytes := cd'.used_bytes + (payload.length + zeroes) },
      makeLoc ty cd'.used_bytes)

/-- `nfcd_make`: one buffer of `config_size + stringtable_size` bytes
(8 KiB defaults), root `NFCD_TYPE_NULL`, a string table initialised with
`average_strlen = 15` at the tail. -/
def nfcdMake (config_size stringtable_size : Nat) : Arena :=
  let cs := if config_size = 0 then 8192 else config_size
  let ss := if stringtable_size = 0 then 8192 else stringtable_size
  { total_bytes := cs + ss
    allocated_bytes := cs
    used_bytes := 32
    root := 0
    mem := fun _ => 0
    st := nfstInit ss 15 }

/-- `nfcd_null()` = `MAKE_LOC(NFCD_TYPE_NULL, 0)`. -/
def nfcdNull : Nat := makeLoc 0 0

/-- `nfcd_false()`. -/
def nfcdFalse : Nat := makeLoc 1 0

/-- `nfcd_true()`. -/
def nfcdTrue : Nat := makeLoc 2 0

/-- `nfcd_type`. -/
def nfcdType (_cd : Arena) (loc : Nat) : Nat := locType loc

/-- `nfcd_root`. -/
def nfcdRoot (cd : Arena) : Nat := cd.root

/-- `nfcd_set_root`. -/
def nfcdSetRoot (cd : Arena) (loc : Nat) : Arena := { cd with root := loc }

/-- `nfcd_to_number` dereferences the 8-byte IEEE double at the loc's
offset; the model observes the raw 8 bytes (the bytes determine the
double). -/
def nfcdToNumber (cd : Arena) (loc : Nat) : List Nat :=
  readBytes cd.mem (locOff loc) 8

/-- `nfcd_to_string` = `nfst_to_string(STRINGTABLE(cd), LOC_OFFSET(loc))`. -/
def nfcdToString (cd : Arena) (loc : Nat) : List Nat :=
  nfstToString cd.st (locOff loc)

/-- `nfcd_add_number`: append the 8 bytes of the double (`sizeof(n) = 8`;
a short byte list is padded so exactly 8 bytes are written). -/
def nfcdAddNumber (cd : Arena) (n8 : List Nat) : Option (Arena × Nat) :=
  nfcdWrite cd 3 ((n8 ++ List.replicate 8 0).take 8) 0

/-- `nfcd_add_array`: append a `struct block` header
(`allocated_size = size`, `size = 0`, `next_block = 0`, three 32-bit
ints) followed by `size` zeroed `nfcd_loc` slots. -/
def nfcdAddArray (cd : Arena) (sz : Nat) : Option (Arena × Nat) :=
  nfcdWrite cd 5 (encodeU32 sz ++ encodeU32 0 ++ encodeU32 0) (sz * 4)

/-- `nfcd_add_object`: like `nfcd_add_array` with `(key, value)` slot
pairs (8 bytes per slot). -/
def nfcdAddObject (cd : Arena) (sz : Nat) : Option (Arena × Nat) :=
  nfcdWrite cd 6 (encodeU32 sz ++ encodeU32 0 ++ encodeU32 0) (sz * 8)

/-- `nfcd_add_string`: intern `s`; while the table reports FULL, double
the string-table bytes at the buffer tail, `nfst_grow`, retry.  `fuel`
bounds the number of retries. -/
def nfcdAddString (s : List Nat) : Nat → Arena → Option (Arena × Nat)
  | 0, _ => none
  | fuel + 1, cd =>
    match nfstToSymbol cd.st s with
    | none => none
    | some (st', .sym sym) => some ({ cd with st := st' }, makeLoc 4 sym)
    | some (_, .full) =>
      match nfstGrow cd.st ((cd.total_bytes - cd.allocated_bytes) * 2) with
      | none => none
      | some stg =>
        nfcdAddString s fuel
          { cd with
            total_bytes := cd.allocated_bytes + (cd.total_bytes - cd.allocated_bytes) * 2
            st := stg }

/-- `allocated_size` field of the block header at offset `off`. -/
def blockAlloc (cd : Arena) (off : Nat) : Nat := readU32 cd.mem off

/-- `size` field of the block header at offset `off`. -/
def blockSize (cd : Arena) (off : Nat) : Nat := readU32 cd.mem (off + 4)

/-- `next_block` field (a loc) of the block header at offset `off`. -/
def blockNext (cd : Arena) (off : Nat) : Nat := readU32 cd.mem (off + 8)

/-- The chain walk shared by `nfcd_array_size` and `nfcd_object_size`
(the two C functions are textually identical): sum `size` over the
blocks. -/
def chainSizeGo (cd : Arena) : Nat → Nat → Nat → Option Nat
  | 0, _, _ => none
  | fuel + 1, off, acc =>
    if blockNext cd off = 0 then some (acc + blockSize cd off)
    else chainSizeGo cd fuel (locOff (blockNext cd off)) (acc + blockSize cd off)

/-- `nfcd_array_size`. -/
def nfcdArraySize (cd : Arena) (arr : Nat) (fuel : Nat) : Option Nat :=
  chainSizeGo cd fuel (locOff arr) 0

/-- `nfcd_object_size`. -/
def nfcdObjectSize (cd : Arena) (obj : Nat) (fuel : Nat) : Option Nat :=
  chainSizeGo cd fuel (locOff obj) 0

/-- `nfcd_array_item`: walk past full earlier blocks, then either the
slot at index `i` or `nfcd_null()` when `i` is out of range. -/
def arrayItemGo (cd : Arena) : Nat → Nat → Nat → Option Nat
  | 0, _, _ => none
  | fuel + 1, off, i =>
    if blockNext cd off ≠ 0 ∧ blockSize cd off ≤ i then
      arrayItemGo cd fuel (locOff (blockNext cd off)) (i - blockSize cd off)
    else if blockSize cd off ≤ i then some nfcdNull
    else some (readU32 cd.mem (off + 12 + 4 * i))

/-- `nfcd_array_item`. -/
def nfcdArrayItem (cd : Arena) (arr i fuel : Nat) : Option Nat :=
  arrayItemGo cd fuel (locOff arr) i

/-- `object_item`: offset of the `i`-th `(key, value)` pair, `some none`
when `i` is out of range (the C `NULL` pointer). -/
def objectItemGo (cd : Arena) : Nat → Nat → Nat → Option (Option Nat)
  | 0, _, _ => none
  | fuel + 1, off, i =>
    if blockNext cd off ≠ 0 ∧ blockSize cd off ≤ i then
      objectItemGo cd fuel (locOff (blockNext cd off)) (i - blockSize cd off)
    else if blockSize cd off ≤ i then some none
    else some (some (off + 12 + 8 * i))

/-- `nfcd_object_keyloc` (`nfcd_null()` for an out-of-range index). -/
def nfcdObjectKeyloc (cd : Arena) (obj i fuel : Nat) : Option Nat :=
  (objectItemGo cd fuel (locOff obj) i).map fun it =>
    match it with
    | none => nfcdNull
    | some p => readU32 cd.mem p

/-- `nfcd_object_value`. -/
def nfcdObjectValue (cd : Arena) (obj i fuel : Nat) : Option Nat :=
  (objectItemGo cd fuel (locOff obj) i).map fun it =>
    match it with
    | none => nfcdNull
    | some p => readU32 cd.mem (p + 4)

/-- `nfcd_object_key` (`NULL` pointer, i.e. `none`, for out of range). -/
def nfcdObjectKey (cd : Arena) (obj i fuel : Nat) : Option (Option (List Nat)) :=
  (objectItemGo cd fuel (locOff obj) i).map fun it =>
    match it with
    | none => none
    | some p => some (nfcdToString cd (readU32 cd.mem p))

/-- The per-block scan of `nfcd_object_lookup`: compare `key_loc` with
the key of each of the `cnt` remaining items (`j` items already
scanned); return the value of the first match. -/
def lookupScan (cd : Arena) (off kloc : Nat) : Nat → Nat → Option Nat
  | _, 0 => none
  | j, cnt + 1 =>
    if readU32 cd.mem (off + 12 + 8 * j) = kloc then
      some (readU32 cd.mem (off + 12 + 8 * j + 4))
    else lookupScan cd off kloc (j + 1) cnt

/-- The block loop of `nfcd_object_lookup` (`some 0` is `nfcd_null()`,
`none` means the walk ran out of fuel). -/
def lookupGo (cd : Arena) (kloc : Nat) : Nat → Nat → Option Nat
  | 0, _ => none
  | fuel + 1, off =>
    match lookupScan cd off kloc 0 (blockSize cd off) with
    | some v => some v
    | none =>
      if blockNext cd off = 0 then some nfcdNull
      else lookupGo cd kloc fuel (locOff (blockNext cd off))

/-- `nfcd_object_lookup`.  The key is resolved with
`nfst_to_symbol_const`.  When that reports FULL, `MAKE_LOC` packs `-1`
into a loc equal to no stored key (keys written by the API are
non-negative), so the C scan finds nothing and returns `nfcd_null()`;
the model returns it directly. -/
def nfcdObjectLookup (cd : Arena) (obj : Nat) (key : List Nat) (fuel : Nat) :
    Option Nat :=
  match nfstToSymbolConst cd.st key with
  | none => none
  | some none => some nfcdNull
  | some (some sym) => lookupGo cd (makeLoc 4 sym) fuel (locOff obj)

/-- The block loop of `nfcd_push`: skip full blocks, linking a fresh
block of twice the capacity at the chain end if needed, then store the
item and bump `size`.  (When `nfcd_add_array` relocates the buffer the C
code writes `arr->next_block` through a stale pointer; the model's
position-independent memory performs the write in the current arena.) -/
def nfcdPushGo (item : Nat) : Nat → Arena → Nat → Option Arena
  | 0, _, _ => none
  | fuel + 1, cd, off =>
    if blockSize cd off = blockAlloc cd off then
      if blockNext cd off = 0 then
        match nfcdAddArray cd (blockAlloc cd off * 2) with
        | none => none
        | some (cd1, nloc) =>
          nfcdPushGo item fuel { cd1 with mem := writeU32 cd1.mem (off + 8) nloc }
            (locOff nloc)
      else nfcdPushGo item fuel cd (locOff (blockNext cd off))
    else
      some { cd with
        mem := writeU32 (writeU32 cd.mem (off + 12 + 4 * blockSize cd off) item)
          (off + 4) (blockSize cd off + 1) }

/-- `nfcd_push`. -/
def nfcdPush (cd : Arena) (arr item fuel : Nat) : Option Arena :=
  nfcdPushGo item fuel cd (locOff arr)

/-- The per-block scan of `nfcd_set_loc`: offset of the item whose key
equals `kloc`, if any. -/
def setLocScan (cd : Arena) (off kloc : Nat) : Nat → Nat → Option Nat
  | _, 0 => none
  | j, cnt + 1 =>
    if readU32 cd.mem (off + 12 + 8 * j) = kloc then some (off + 12 + 8 * j)
    else setLocScan cd off kloc (j + 1) cnt

/-- The block loop of `nfcd_set_loc`: overwrite the value if the key is
found in a block; otherwise append to the first non-full block, linking
a fresh block of twice the capacity at the chain end if needed. -/
def nfcdSetLocGo (key value : Nat) : Nat → Arena → Nat → Option Arena
  | 0, _, _ => none
  | fuel + 1, cd, off =>
    match setLocScan cd off key 0 (blockSize cd off) with
    | some p => some { cd with mem := writeU32 cd.mem (p + 4) value }
    | none =>
      if blockSize cd off < blockAlloc cd off then
        some { cd with
          mem := writeU32 (writeU32 (writeU32 cd.mem
              (off + 12 + 8 * blockSize cd off) key)
            (off + 12 + 8 * blockSize cd off + 4) value)
            (off + 4) (blockSize cd off + 1) }
      else if blockNext cd off = 0 then
        match nfcdAddObject cd (blockAlloc cd off * 2) with
        | none => none
        | some (cd1, nloc) =>
          nfcdSetLocGo key value fuel
            { cd1 with mem := writeU32 cd1.mem (off + 8) nloc } (locOff nloc)
      else nfcdSetLocGo key value fuel cd (locOff (blockNext cd off))

/-- `nfcd_set_loc`. -/
def nfcdSetLoc (cd : Arena) (obj key value fuel : Nat) : Option Arena :=
  nfcdSetLocGo key value fuel cd (locOff obj)

/-- `nfcd_set`: intern the key, then `nfcd_set_loc`. -/
def nfcdSet (cd : Arena) (obj : Nat) (key : List Nat) (value : Nat)
    (growFuel chainFuel : Nat) : Option Arena :=
  match nfcdAddString key growFuel cd with
  | none => none
  | some (cd1, kloc) => nfcdSetLoc cd1 obj kloc value chainFuel


/-- Validity of a block chain rooted at byte offset `off` (`fuel` bounds
the chain length; `slotBytes` is 4 for arrays, 8 for objects).  Each
block lies inside the used data section with `size ≤ allocated`;
successor blocks start past the current block's slots (the append-only
arena lays chains out at strictly increasing offsets) and every
non-terminal block is full (spec §3.2's chain invariant, maintained by
`nfcd_push`/`nfcd_set_loc`, which only grow the terminal block). -/
def validChain (cd : Arena) (slotBytes : Nat) : Nat → Nat → Bool
  | 0, _ => false
  | fuel + 1, off =>
    decide (blockSize cd off ≤ blockAlloc cd off) &&
    decide (off + 12 + slotBytes * blockAlloc cd off ≤ cd.used_bytes) &&
    (if blockNext cd off = 0 then true
     else decide (blockSize cd off = blockAlloc cd off) &&
       decide (off + 12 + slotBytes * blockAlloc cd off ≤ locOff (blockNext cd off)) &&
       validChain cd slotBytes fuel (locOff (blockNext cd off)))

/-- The `allocated` capacity of the terminal block of a chain. -/
def termAlloc (cd : Arena) : Nat → Nat → Option Nat
  | 0, _ => none
  | fuel + 1, off =>
    if blockNext cd off = 0 then some (blockAlloc cd off)
    else termAlloc cd fuel (locOff (blockNext cd off))

/-- The `(key, value)` pairs stored in one object block. -/
def blockItems (cd : Arena) (off : Nat) : List (Nat × Nat) :=
  (List.range (blockSize cd off)).map fun j =>
    (readU32 cd.mem (off + 12 + 8 * j), readU32 cd.mem (off + 12 + 8 * j + 4))

/-- All `(key, value)` pairs of an object chain, in chain order. -/
def objItems (cd : Arena) : Nat → Nat → Option (List (Nat × Nat))
  | 0, _ => none
  | fuel + 1, off =>
    if blockNext cd off = 0 then some (blockItems cd off)
    else (objItems cd fuel (locOff (blockNext cd off))).map (blockItems cd off ++ ·)

/-- The item locs stored in one array block. -/
def blockSlots (cd : Arena) (off : Nat) : List Nat :=
  (List.range (blockSize cd off)).map fun j => readU32 cd.mem (off + 12 + 4 * j)

/-- All item locs of an array chain, in chain order. -/
def arrItems (cd : Arena) : Nat → Nat → Option (List Nat)
  | 0, _ => none
  | fuel + 1, off =>
    if blockNext cd off = 0 then some (blockSlots cd off)
    else (arrItems cd fuel (locOff (blockNext cd off))).map (blockSlots cd off ++ ·)

/-- `nfcd_push(cd, arr, item)` never terminates: for every fuel bound
the fueled model is still inside the block walk. -/
def pushDiverges (cd : Arena) (arr item : Nat) : Prop :=
  ∀ fuel, nfcdPush cd arr item fuel = none

/-- The loc of the array block at offset 32 of `cdChain`. -/
def arrLocChain : Nat := makeLoc 5 32

/-- An arena holding the array chain
`[allocated 1, size 1, full] → [allocated 0, size 0]` (the first block
at offset 32 holds one item `7` and links to a zero-capacity terminal
block at offset 48).  The chain contains a block of positive allocated
capacity, but its terminal block has capacity 0. -/
def cdChain : Arena :=
  { total_bytes := 8192 + 8192
    allocated_bytes := 8192
    used_bytes := 60
    root := 0
    mem := writeBytes (fun _ => 0) 32
      (encodeU32 1 ++ encodeU32 1 ++ encodeU32 (makeLoc 5 48) ++ encodeU32 7 ++
        encodeU32 0 ++ encodeU32 0 ++ encodeU32 0)
    st := nfstInit 8192 15 }


/-- An arena holding a single array block `[allocated 1, size 0]` at
offset 32 (one empty slot), used to witness `nfcd_push` termination. -/
def cdOne : Arena :=
  { total_bytes := 8192 + 8192
    allocated_bytes := 8192
    used_bytes := 48
    root := 0
    mem := writeBytes (fun _ => 0) 32
      (encodeU32 1 ++ encodeU32 0 ++ encodeU32 0 ++ encodeU32 0)
    st := nfstInit 8192 15 }

/-- The result of `nfcd_add_array(cdOne, 0)`, used to witness the
divergence half of the `nfcd_push` termination theorem. -/
def c10run : Arena × Nat := (nfcdAddArray cdOne 0).getD (cdOne, 0)


/-! ### Spec-side list views of object chains -/

/-- Replace the value of the first item whose key is `k`. -/
def replaceFirstKey : List (Nat × Nat) → Nat → Nat → List (Nat × Nat)
  | [], _, _ => []
  | p :: rest, k, v => if p.1 = k then (k, v) :: rest else p :: replaceFirstKey rest k v

/-- Does some item carry key `k`? -/
def hasKey (items : List (Nat × Nat)) (k : Nat) : Bool :=
  items.any fun p => p.1 == k

/-- The effect of `nfcd_set_loc` on the item list: overwrite the first
occurrence of the key, or append a fresh `(key, value)` item. -/
def updateItems (items : List (Nat × Nat)) (k v : Nat) : List (Nat × Nat) :=
  if hasKey items k then replaceFirstKey items k v else items ++ [(k, v)]

/-- The value of the first item with key `k` (the answer of
`nfcd_object_lookup` when the key resolves to loc `k`). -/
def specLookup (items : List (Nat × Nat)) (k : Nat) : Option Nat :=
  (items.find? fun p => p.1 == k).map Prod.snd


/-- The items of one block starting at slot index `j`, `cnt` of them
(`blockTail cd off 0 (blockSize cd off) = blockItems cd off`). -/
def blockTail (cd : Arena) (off j cnt : Nat) : List (Nat × Nat) :=
  (List.range cnt).map fun t =>
    (readU32 cd.mem (off + 12 + 8 * (j + t)),
     readU32 cd.mem (off + 12 + 8 * (j + t) + 4))


/-- A small arena holding an empty 1-slot object block at offset 32
(`allocated_size 1, size 0, next 0`, one zeroed 8-byte slot), with a
fresh string table at the buffer tail. -/
def cdObj : Arena :=
  { total_bytes := 16384
    allocated_bytes := 8192
    used_bytes := 52
    root := 0
    mem := writeBytes (fun _ => 0) 32
      (encodeU32 1 ++ encodeU32 0 ++ encodeU32 0 ++ encodeU32 0 ++ encodeU32 0)
    st := nfstInit 8192 15 }

/-- The result of interning the key `"k"` (byte 107) in `cdObj`. -/
def c5run : Arena × Nat := (nfcdAddString [107] 5 cdObj).getD (cdObj, 0)

/-- `cdObj`'s object block, with the string table replaced by the
16-bit boundary state `stBoundary`. -/
def cdBoundary : Arena :=
  { total_bytes := 131200
    allocated_bytes := 65600
    used_bytes := 52
    root := 0
    mem := writeBytes (fun _ => 0) 32
      (encodeU32 1 ++ encodeU32 0 ++ encodeU32 0 ++ encodeU32 0 ++ encodeU32 0)
    st := stBoundary }

/-- The arena after `nfcd_set(cdBoundary, obj, "x", 7)`. -/
def c5bad : Arena := (nfcdSet cdBoundary (makeLoc 6 32) [120] 7 1 2).getD cdBoundary


/-- A byte-for-byte copy of `cdObj`'s buffer: the same header fields and
the same bytes below `total_bytes`, in a distinct memory function (it
differs beyond the buffer end). -/
def cdObjCopy : Arena :=
  { total_bytes := 16384
    allocated_bytes := 8192
    used_bytes := 52
    root := 0
    mem := updB cdObj.mem 20000 99
    st := nfstInit 8192 15 }


/-! ## JSON parser (`nf_json_parser.c`)

Input is the byte list before the terminating NUL (reading past the end
of the list yields 0, like the terminator).  Error messages are byte
lists; `error()`'s `sprintf`/`vsnprintf` pair is modelled by `mkErr`,
which prefixes the 1-based line number and truncates the formatted
message to the 80-byte error buffer.  Characters are unsigned bytes;
where the C code compares a plain (signed) `char`, the comparisons below
spell out the equivalent byte conditions. -/

structure JSettings where
  unquoted_keys : Bool
  c_comments : Bool
  implicit_root_object : Bool
  optional_commas : Bool
  equals_for_colon : Bool
  python_multiline_strings : Bool
  skip_escape_sequences : Bool
  allow_control_characters : Bool

/-- `nfjp_parse`'s zeroed settings. -/
def jsDefault : JSettings :=
  ⟨false, false, false, false, false, false, false, false⟩

/-- Settings with only `python_multiline_strings` set. -/
def jsMl : JSettings :=
  ⟨false, false, false, false, false, true, false, false⟩

/-- `isspace` on the ASCII bytes the parser can see. -/
def isspaceB (c : Nat) : Bool := c = 32 ∨ (9 ≤ c ∧ c ≤ 13)

def isDigitB (c : Nat) : Bool := 48 ≤ c ∧ c ≤ 57

/-- `isbareword`. -/
def isBareB (c : Nat) : Bool :=
  (97 ≤ c ∧ c ≤ 122) ∨ (65 ≤ c ∧ c ≤ 90) ∨ (48 ≤ c ∧ c ≤ 57) ∨ c = 95 ∨ c = 45

/-- Decimal digits of `n`, most significant first (`%i` of a nonnegative
int). -/
def natDigitsGo : Nat → Nat → List Nat
  | 0, _ => []
  | fuel + 1, n => if n = 0 then [] else natDigitsGo fuel (n / 10) ++ [48 + n % 10]

def natDigits (n : Nat) : List Nat :=
  if n = 0 then [48] else natDigitsGo n n

/-- `error()`: `sprintf(error, "%i: ", line)` followed by
`vsnprintf(error + n, 80 - n, ...)`, which keeps at most `80 - n - 1`
bytes of the formatted message. -/
def mkErr (line : Nat) (msg : List Nat) : List Nat :=
  let pre := natDigits line ++ [58, 32]
  pre ++ msg.take (80 - pre.length - 1)

/-- Two lowercase hex digits of a byte (`%02x`). -/
def hex2 (n : Nat) : List Nat :=
  let d := fun k => if k < 10 then 48 + k else 87 + k
  [d (n / 16 % 16), d (n % 16)]

/-- The bytes of `"Expected `c`, saw `d`"`. -/
def msgExpected (c d : Nat) : List Nat :=
  [69, 120, 112, 101, 99, 116, 101, 100, 32, 96, c, 96, 44, 32, 115, 97, 119, 32, 96,
    d, 96]

/-- The bytes of `"Expected `c`, saw `\xHH`"` (for a byte the signed
`char` comparison deems `< 32`; `%02x` of a sign-extended negative char
prints eight hex digits). -/
def msgExpectedHex (c d : Nat) : List Nat :=
  [69, 120, 112, 101, 99, 116, 101, 100, 32, 96, c, 96, 44, 32, 115, 97, 119, 32, 96,
    92, 120] ++
    (if d < 128 then hex2 d else [102, 102, 102, 102, 102, 102] ++ hex2 (d % 256)) ++
    [96]

/-- The bytes of `"Unexpected character `c`"`. -/
def msgUnexpected (c : Nat) : List Nat :=
  [85, 110, 101, 120, 112, 101, 99, 116, 101, 100, 32, 99, 104, 97, 114, 97, 99, 116,
    101, 114, 32, 96, c, 96]

/-- The bytes of `"Bad number format"`. -/
def msgBadNumber : List Nat :=
  [66, 97, 100, 32, 110, 117, 109, 98, 101, 114, 32, 102, 111, 114, 109, 97, 116]

/-- The bytes of `"Literal control character in string"`. -/
def msgControlChar : List Nat :=
  [76, 105, 116, 101, 114, 97, 108, 32, 99, 111, 110, 116, 114, 111, 108, 32, 99, 104,
    97, 114, 97, 99, 116, 101, 114, 32, 105, 110, 32, 115, 116, 114, 105, 110, 103]

/-- `skip_char(p, c)`: consume `c` or produce the error message (the
signed comparison `*p->s >= 32` fails for bytes over 127, which take the
hex branch). -/
def skipCharE (line c : Nat) (s : List Nat) : Sum (List Nat) (List Nat) :=
  let saw := s.headD 0
  if saw = c then .inr s.tail
  else if 32 ≤ saw ∧ saw ≤ 127 then .inl (mkErr line (msgExpected c saw))
  else .inl (mkErr line (msgExpectedHex c saw))

/-- Consume the characters `cs` in order with `skip_char`. -/
def skipChars (line : Nat) : List Nat → List Nat → Sum (List Nat) (List Nat)
  | [], s => .inr s
  | c :: cs, s =>
    match skipCharE line c s with
    | .inl e => .inl e
    | .inr r => skipChars line cs r

/-- The scan of a `/* */` comment body: stop at `*/` or at the end of
the input, counting newlines. -/
def cComScan : List Nat → Nat → (List Nat × Nat)
  | [], line => ([], line)
  | c :: rest, line =>
    if c = 42 ∧ rest.headD 0 = 47 then (c :: rest, line)
    else cComScan rest (if c = 10 then line + 1 else line)

/-- `skip_whitespace`: returns the remaining input and updated line
number, an error (a malformed C comment reaches `skip_char` at the end
of the input), or `none` when the fuel runs out. -/
def skipWs (stg : JSettings) : Nat → List Nat → Nat →
    Option (Sum (List Nat) (List Nat × Nat))
  | 0, _, _ => none
  | fuel + 1, s, line =>
    let c := s.headD 0
    if isspaceB c || c = 47 || c = 44 then
      if c = 10 then skipWs stg fuel s.tail (line + 1)
      else if isspaceB c then skipWs stg fuel s.tail line
      else if c = 47 && stg.c_comments then
        if s.tail.headD 0 = 47 then
          skipWs stg fuel (s.dropWhile fun b => ¬(b = 0 ∨ b = 10)).tail (line + 1)
        else if s.tail.headD 0 = 42 then
          match skipChars (cComScan s.tail.tail line).2 [42, 47]
              (cComScan s.tail.tail line).1 with
          | .inl e => some (.inl e)
          | .inr r2 => skipWs stg fuel r2 (cComScan s.tail.tail line).2
        else some (.inr (s, line))
      else if c = 44 && stg.optional_commas then skipWs stg fuel s.tail line
      else some (.inr (s, line))
    else some (.inr (s, line))


/-- Leading run of decimal digits and the rest. -/
def takeDigits : List Nat → (List Nat × List Nat)
  | [] => ([], [])
  | c :: rest =>
    if isDigitB c then
      let p := takeDigits rest
      (c :: p.1, p.2)
    else ([], c :: rest)

/-- Value of a digit run, as accumulated by the C loops
(`acc = 10*acc + (c - '0')` in an `int`): each step keeps the 32-bit
pattern of the accumulator, as a signed-overflow wraparound does. -/
def digitsVal (ds : List Nat) : Nat :=
  ds.foldl (fun a c => (10 * a + (c - 48)) % 4294967296) 0

/-- The `fracdiv` accumulator: one `fracdiv *= 10` per fraction digit,
again keeping the 32-bit pattern of the `int`. -/
def fracDivW : Nat → Nat
  | 0 => 1
  | k + 1 => (fracDivW k * 10) % 4294967296

/-- The value of a 32-bit pattern read back as a signed `int` (the
`(double)` conversions in `parse_number` convert the signed values). -/
def toInt32 (n : Nat) : Int :=
  if n < 2147483648 then (n : Int) else (n : Int) - 4294967296

/-- The fraction section of `parse_number` (`if (*p->s == '.') ...`):
the fraction value, the divisor `fracdiv` and the remaining input. -/
def numFracScan (line : Nat) (s2 : List Nat) :
    Sum (List Nat) (Nat × Nat × List Nat) :=
  if s2.headD 0 = 46 then
    if isDigitB (s2.tail.headD 0) then
      let p := takeDigits s2.tail
      .inr (digitsVal p.1, fracDivW p.1.length, p.2)
    else .inl (mkErr line msgBadNumber)
  else .inr (0, 1, s2)

/-- The exponent section of `parse_number` (`if (*p->s == 'e' ...) ...`):
the exponent sign, the exponent value and the remaining input. -/
def numExpScan (line : Nat) (s4 : List Nat) :
    Sum (List Nat) (Bool × Nat × List Nat) :=
  if s4.headD 0 = 101 ∨ s4.headD 0 = 69 then
    let ep := if s4.tail.headD 0 = 43 then (false, s4.tail.tail)
      else if s4.tail.headD 0 = 45 then (true, s4.tail.tail)
      else (false, s4.tail)
    if isDigitB (ep.2.headD 0) then
      let p := takeDigits ep.2
      .inr (ep.1, digitsVal p.1, p.2)
    else .inl (mkErr line msgBadNumber)
  else .inr (false, 0, s4)

/-- `parse_number`'s scan: sign, integer, fraction and exponent parts
(`(neg, intp, fracp, fracdiv, eneg, ep)`) and the remaining input.  The
C `int` accumulators are idealised as unbounded naturals. -/
def parseNumE (line : Nat) (s0 : List Nat) :
    Sum (List Nat) ((Bool × Nat × Nat × Nat × Bool × Nat) × List Nat) :=
  let sp := if s0.headD 0 = 45 then (true, s0.tail) else (false, s0)
  let neg := sp.1
  let s1 := sp.2
  let intRes : Sum (List Nat) (Nat × List Nat) :=
    if s1.headD 0 = 48 then .inr (0, s1.tail)
    else if isDigitB (s1.headD 0) then
      let p := takeDigits s1
      .inr (digitsVal p.1, p.2)
    else .inl (mkErr line msgBadNumber)
  match intRes with
  | .inl e => .inl e
  | .inr (intp, s2) =>
    match numFracScan line s2 with
    | .inl e => .inl e
    | .inr (fracp, fracdiv, s4) =>
      match numExpScan line s4 with
      | .inl e => .inl e
      | .inr (eneg, ep, s6) => .inr ((neg, intp, fracp, fracdiv, eneg, ep), s6)

/-- The value `(double)sign * ((double)intp + (double)fracp/(double)fracdiv)
* pow(10.0, (double)esign * (double)ep)` over ℚ: the accumulators hold
32-bit patterns and are converted as the signed `int`s they are. -/
def ratVal : Bool × Nat × Nat × Nat × Bool × Nat → ℚ
  | (neg, intp, fracp, fracdiv, eneg, ep) =>
    (if neg then -1 else 1) *
      ((toInt32 intp : ℚ) + (toInt32 fracp : ℚ) / (toInt32 fracdiv : ℚ)) *
      (10 : ℚ) ^ ((if eneg then (-1 : Int) else 1) * toInt32 ep)

/-- Hex digit value, as in `parse_codepoint`. -/
def hexVal (c : Nat) : Option Nat :=
  if 97 ≤ c ∧ c ≤ 102 then some (c - 97 + 10)
  else if 65 ≤ c ∧ c ≤ 70 then some (c - 65 + 10)
  else if 48 ≤ c ∧ c ≤ 57 then some (c - 48)
  else none

/-- `parse_codepoint`: four hex digits. -/
def parseCodepoint (line : Nat) (s : List Nat) : Sum (List Nat) (Nat × List Nat) :=
  match hexVal (s.headD 0) with
  | none => .inl (mkErr line (msgUnexpected (s.headD 0)))
  | some h1 =>
    match hexVal (s.tail.headD 0) with
    | none => .inl (mkErr line (msgUnexpected (s.tail.headD 0)))
    | some h2 =>
      match hexVal (s.tail.tail.headD 0) with
      | none => .inl (mkErr line (msgUnexpected (s.tail.tail.headD 0)))
      | some h3 =>
        match hexVal (s.tail.tail.tail.headD 0) with
        | none => .inl (mkErr line (msgUnexpected (s.tail.tail.tail.headD 0)))
        | some h4 => .inr (((h1 * 16 + h2) * 16 + h3) * 16 + h4, s.tail.tail.tail.tail)

/-- `cb_push_utf8_codepoint` (codepoints from the hex escape are at most
`0xffff`, so the `error` branch of the C function is unreachable). -/
def utf8Bytes (cp : Nat) : List Nat :=
  if cp ≤ 127 then [cp]
  else if cp ≤ 2047 then [192 + cp / 64 % 32, 128 + cp % 64]
  else if cp ≤ 65535 then [224 + cp / 4096 % 16, 128 + cp / 64 % 64, 128 + cp % 64]
  else [240 + cp / 262144 % 8, 128 + cp / 4096 % 64, 128 + cp / 64 % 64, 128 + cp % 64]

/-- The C string handed to `nfcd_add_string` from a char buffer: the
bytes before the first embedded NUL. -/
def cutNul (cb : List Nat) : List Nat := cb.takeWhile (· ≠ 0)

/-- The scan loop of an ordinary (non-multiline) string body: stops at
the closing quote or at the end of the input, interpreting escapes. -/
def strScan (stg : JSettings) : Nat → Nat → List Nat → List Nat →
    Option (Sum (List Nat) (List Nat × List Nat))
  | 0, _, _, _ => none
  | fuel + 1, line, s, cb =>
    let c := s.headD 0
    if c = 0 ∨ c = 34 then some (.inr (cb, s))
    else if ¬stg.allow_control_characters ∧ c < 32 then
      some (.inl (mkErr line msgControlChar))
    else if ¬stg.skip_escape_sequences ∧ c = 92 then
      let e := s.tail.headD 0
      let s2 := s.tail.tail
      if e = 34 ∨ e = 92 ∨ e = 47 then strScan stg fuel line s2 (cb ++ [e])
      else if e = 98 then strScan stg fuel line s2 (cb ++ [8])
      else if e = 102 then strScan stg fuel line s2 (cb ++ [12])
      else if e = 110 then strScan stg fuel line s2 (cb ++ [10])
      else if e = 114 then strScan stg fuel line s2 (cb ++ [13])
      else if e = 116 then strScan stg fuel line s2 (cb ++ [9])
      else if e = 117 then
        match parseCodepoint line s2 with
        | .inl err => some (.inl err)
        | .inr (cp, s3) => strScan stg fuel line s3 (cb ++ utf8Bytes cp)
      else some (.inl (mkErr line (msgUnexpected (s2.headD 0))))
    else strScan stg fuel line s.tail (cb ++ [c])

/-- The raw scan loop of a python multiline string: keep consuming while
the next three bytes exist and the terminator (three quote bytes not
followed by a fourth) has not been reached. -/
def mlScan : List Nat → List Nat → (List Nat × List Nat)
  | cb, [] => (cb, [])
  | cb, c :: rest =>
    if c ≠ 0 ∧ rest.headD 0 ≠ 0 ∧ rest.tail.headD 0 ≠ 0 ∧
        (c ≠ 34 ∨ rest.headD 0 ≠ 34 ∨ rest.tail.headD 0 ≠ 34 ∨
          rest.tail.tail.headD 0 = 34) then
      mlScan (cb ++ [c]) rest
    else (cb, c :: rest)

/-- The terminator rule of the claim, as a scan over a candidate raw
body (`t` is the input from the closing quotes on, for the lookahead):
no position of the body starts a run of three quote bytes that is not
followed by a fourth quote -- i.e. the first unfollowed `\x22\x22\x22`
of the input is the closing one. -/
def mlBody (t : List Nat) : List Nat → Bool
  | [] => true
  | c :: bs =>
    (decide ¬(c = 34 ∧ (bs ++ t).headD 0 = 34 ∧ (bs ++ t).tail.headD 0 = 34 ∧
        (bs ++ t).tail.tail.headD 0 ≠ 34)) && mlBody t bs

/-- The leading bareword of `parse_key` with `unquoted_keys`. -/
def takeBare : List Nat → (List Nat × List Nat)
  | [] => ([], [])
  | c :: rest =>
    if isBareB c then
      let p := takeBare rest
      (c :: p.1, p.2)
    else ([], c :: rest)


/-- Parser state: remaining input, 1-based line number, config data. -/
structure PSt where
  s : List Nat
  line : Nat
  cd : Arena

/-- Result of a parse function: a loc and the new state, an error (the
message and the arena at `longjmp` time), or fuel exhaustion (`out`
models the C running forever or the arena operations' fuel running
out). -/
inductive PRes where
  | ok (loc : Nat) (st : PSt)
  | perr (e : List Nat) (cd : Arena)
  | out

/-- The parse functions, as one fueled function over a tag
(`members`/`elements` carry the C loc-buffer accumulators). -/
inductive PK where
  | value
  | object
  | string
  | key
  | array
  | members (keys vals : List Nat)
  | elements (els : List Nat)

/-- The `nfcd_set_loc` loop after `parse_members` builds its object. -/
def setAllLocs (fuel : Nat) : Arena → Nat → List (Nat × Nat) → Option Arena
  | cd, _, [] => some cd
  | cd, obj, kv :: rest =>
    match nfcdSetLoc cd obj kv.1 kv.2 fuel with
    | none => none
    | some cd2 => setAllLocs fuel cd2 obj rest

/-- The `nfcd_push` loop after `parse_elements` builds its array. -/
def pushAll (fuel : Nat) : Arena → Nat → List Nat → Option Arena
  | cd, _, [] => some cd
  | cd, arr, l :: rest =>
    match nfcdPush cd arr l fuel with
    | none => none
    | some cd2 => pushAll fuel cd2 arr rest

/-- `parse_value` / `parse_object` / `parse_members` / `parse_key` /
`parse_array` / `parse_elements` / `parse_string` (and the leaf parsers
they call), as a single fueled function.  `enc` is the IEEE encoding of
a double into its 8 bytes, kept abstract. -/
def pfn (stg : JSettings) (enc : ℚ → List Nat) : Nat → PK → PSt → PRes
  | 0, _, _ => .out
  | fuel + 1, k, st =>
    match k with
    | .value =>
      let c := st.s.headD 0
      if c = 34 then pfn stg enc fuel .string st
      else if (48 ≤ c ∧ c ≤ 57) ∨ c = 45 then
        match parseNumE st.line st.s with
        | .inl e => .perr e st.cd
        | .inr (parts, rest) =>
          match nfcdAddNumber st.cd (enc (ratVal parts)) with
          | none => .out
          | some (cd2, loc) => .ok loc ⟨rest, st.line, cd2⟩
      else if c = 123 then pfn stg enc fuel .object st
      else if c = 91 then pfn stg enc fuel .array st
      else if c = 116 then
        match skipChars st.line [116, 114, 117, 101] st.s with
        | .inl e => .perr e st.cd
        | .inr r => .ok nfcdTrue ⟨r, st.line, st.cd⟩
      else if c = 102 then
        match skipChars st.line [102, 97, 108, 115, 101] st.s with
        | .inl e => .perr e st.cd
        | .inr r => .ok nfcdFalse ⟨r, st.line, st.cd⟩
      else if c = 110 then
        match skipChars st.line [110, 117, 108, 108] st.s with
        | .inl e => .perr e st.cd
        | .inr r => .ok nfcdNull ⟨r, st.line, st.cd⟩
      else .perr (mkErr st.line (msgUnexpected c)) st.cd
    | .string =>
      match skipCharE st.line 34 st.s with
      | .inl e => .perr e st.cd
      | .inr s1 =>
        if stg.python_multiline_strings ∧ s1.headD 0 = 34 ∧ s1.tail.headD 0 = 34 then
          match mlScan [] s1.tail.tail with
          | (cb, r) =>
            match skipChars st.line [34, 34, 34] r with
            | .inl e => .perr e st.cd
            | .inr r3 =>
              match nfcdAddString (cutNul cb) (fuel + 1) st.cd with
              | none => .out
              | some (cd2, loc) => .ok loc ⟨r3, st.line, cd2⟩
        else
          match strScan stg (fuel + 1) st.line s1 [] with
          | none => .out
          | some (.inl e) => .perr e st.cd
          | some (.inr (cb, r)) =>
            match skipCharE st.line 34 r with
            | .inl e => .perr e st.cd
            | .inr r2 =>
              match nfcdAddString (cutNul cb) (fuel + 1) st.cd with
              | none => .out
              | some (cd2, loc) => .ok loc ⟨r2, st.line, cd2⟩
    | .object =>
      match skipCharE st.line 123 st.s with
      | .inl e => .perr e st.cd
      | .inr s1 =>
        match skipWs stg (fuel + 1) s1 st.line with
        | none => .out
        | some (.inl e) => .perr e st.cd
        | some (.inr (s2, l2)) =>
          if s2.headD 0 = 125 then
            match nfcdAddObject st.cd 0 with
            | none => .out
            | some (cd2, obj) =>
              match skipCharE l2 125 s2 with
              | .inl e => .perr e cd2
              | .inr s3 => .ok obj ⟨s3, l2, cd2⟩
          else
            match pfn stg enc fuel (.members [] []) ⟨s2, l2, st.cd⟩ with
            | .out => .out
            | .perr e cd2 => .perr e cd2
            | .ok obj st2 =>
              match skipCharE st2.line 125 st2.s with
              | .inl e => .perr e st2.cd
              | .inr s3 => .ok obj ⟨s3, st2.line, st2.cd⟩
    | .key =>
      match skipWs stg (fuel + 1) st.s st.line with
      | none => .out
      | some (.inl e) => .perr e st.cd
      | some (.inr (s1, l1)) =>
        if stg.unquoted_keys ∧ isBareB (s1.headD 0) then
          match takeBare s1 with
          | (w, r) =>
            match nfcdAddString (cutNul w) (fuel + 1) st.cd with
            | none => .out
            | some (cd2, loc) => .ok loc ⟨r, l1, cd2⟩
        else pfn stg enc fuel .string ⟨s1, l1, st.cd⟩
    | .array =>
      match skipCharE st.line 91 st.s with
      | .inl e => .perr e st.cd
      | .inr s1 =>
        match skipWs stg (fuel + 1) s1 st.line with
        | none => .out
        | some (.inl e) => .perr e st.cd
        | some (.inr (s2, l2)) =>
          if s2.headD 0 = 93 then
            match skipCharE l2 93 s2 with
            | .inl e => .perr e st.cd
            | .inr s3 =>
              match nfcdAddArray st.cd 0 with
              | none => .out
              | some (cd2, arr) => .ok arr ⟨s3, l2, cd2⟩
          else pfn stg enc fuel (.elements []) ⟨s2, l2, st.cd⟩
    | .members keys vals =>
      match pfn stg enc fuel .key st with
      | .out => .out
      | .perr e cd2 => .perr e cd2
      | .ok key st1 =>
        match skipWs stg (fuel + 1) st1.s st1.line with
        | none => .out
        | some (.inl e) => .perr e st1.cd
        | some (.inr (s2, l2)) =>
          match (if stg.equals_for_colon ∧ s2.headD 0 = 61 then skipCharE l2 61 s2
            else skipCharE l2 58 s2) with
          | .inl e => .perr e st1.cd
          | .inr s3 =>
            match skipWs stg (fuel + 1) s3 l2 with
            | none => .out
            | some (.inl e) => .perr e st1.cd
            | some (.inr (s4, l4)) =>
              match pfn stg enc fuel .value ⟨s4, l4, st1.cd⟩ with
              | .out => .out
              | .perr e cd2 => .perr e cd2
              | .ok v st2 =>
                match skipWs stg (fuel + 1) st2.s st2.line with
                | none => .out
                | some (.inl e) => .perr e st2.cd
                | some (.inr (s5, l5)) =>
                  if s5.headD 0 = 125 ∨ s5.headD 0 = 0 then
                    match nfcdAddObject st2.cd (keys ++ [key]).length with
                    | none => .out
                    | some (cd1, obj) =>
                      match setAllLocs (fuel + 1) cd1 obj
                          ((keys ++ [key]).zip (vals ++ [v])) with
                      | none => .out
                      | some cd2 => .ok obj ⟨s5, l5, cd2⟩
                  else
                    match (if stg.optional_commas then Sum.inr s5
                      else skipCharE l5 44 s5) with
                    | .inl e => .perr e st2.cd
                    | .inr s6 =>
                      match skipWs stg (fuel + 1) s6 l5 with
                      | none => .out
                      | some (.inl e) => .perr e st2.cd
                      | some (.inr (s7, l7)) =>
                        pfn stg enc fuel (.members (keys ++ [key]) (vals ++ [v]))
                          ⟨s7, l7, st2.cd⟩
    | .elements els =>
      match skipWs stg (fuel + 1) st.s st.line with
      | none => .out
      | some (.inl e) => .perr e st.cd
      | some (.inr (s1, l1)) =>
        match pfn stg enc fuel .value ⟨s1, l1, st.cd⟩ with
        | .out => .out
        | .perr e cd2 => .perr e cd2
        | .ok v st1 =>
          match skipWs stg (fuel + 1) st1.s st1.line with
          | none => .out
          | some (.inl e) => .perr e st1.cd
          | some (.inr (s2, l2)) =>
            if s2.headD 0 = 93 then
              match skipCharE l2 93 s2 with
              | .inl e => .perr e st1.cd
              | .inr s3 =>
                match nfcdAddArray st1.cd (els ++ [v]).length with
                | none => .out
                | some (cd1, arr) =>
                  match pushAll (fuel + 1) cd1 arr (els ++ [v]) with
                  | none => .out
                  | some cd2 => .ok arr ⟨s3, l2, cd2⟩
            else
              match (if stg.optional_commas then Sum.inr s2
                else skipCharE l2 44 s2) with
              | .inl e => .perr e st1.cd
              | .inr s4 => pfn stg enc fuel (.elements (els ++ [v])) ⟨s4, l2, st1.cd⟩

/-- The error exit of `nfjp_parse_with_settings`: set the root to a
fresh empty object and return the message. -/
def errOut (e : List Nat) (cdE : Arena) : Option (Option (List Nat) × Arena) :=
  match nfcdAddObject cdE 0 with
  | none => none
  | some (cd1, root) => some (some e, nfcdSetRoot cd1 root)

/-- The root-level dispatch of `nfjp_parse_with_settings` after the
leading `skip_whitespace`: an implicit root object (fresh and empty on
empty input, otherwise parsed as members) or a plain value. -/
def runRoot (stg : JSettings) (enc : ℚ → List Nat) (fuel : Nat) (s1 : List Nat)
    (l1 : Nat) (cd : Arena) : PRes :=
  if stg.implicit_root_object ∧ s1.headD 0 ≠ 123 then
    if s1.headD 0 = 0 then
      match nfcdAddObject cd 0 with
      | none => PRes.out
      | some (cd1, root) => .ok root ⟨s1, l1, cd1⟩
    else pfn stg enc fuel (.members [] []) ⟨s1, l1, cd⟩
  else pfn stg enc fuel .value ⟨s1, l1, cd⟩

/-- The tail of `nfjp_parse_with_settings` after the root parse: check
that only whitespace follows, set the root, return `NULL` (modelled as
`none`); an error goes out through `errOut`. -/
def wrapTail (stg : JSettings) (fuel : Nat) (r : PRes) :
    Option (Option (List Nat) × Arena) :=
  match r with
  | .out => none
  | .perr e cdE => errOut e cdE
  | .ok root st2 =>
    match skipWs stg (fuel + 1) st2.s st2.line with
    | none => none
    | some (.inl e) => errOut e st2.cd
    | some (.inr (s2, l2)) =>
      if s2.headD 0 = 0 then some (none, nfcdSetRoot st2.cd root)
      else errOut (mkErr l2 (msgUnexpected (s2.headD 0))) st2.cd

/-- `nfjp_parse_with_settings`: `some (some msg, cd)` is a parse error
(message returned, root set to an empty object), `some (none, cd)` is
success (`NULL` returned, root set to the document), `none` means the
fuel ran out. -/
def nfjpParseWithSettings (stg : JSettings) (enc : ℚ → List Nat) (inp : List Nat)
    (cd : Arena) (fuel : Nat) : Option (Option (List Nat) × Arena) :=
  match skipWs stg (fuel + 1) inp 1 with
  | none => none
  | some (.inl e) => errOut e cd
  | some (.inr (s1, l1)) => wrapTail stg fuel (runRoot stg enc fuel s1 l1 cd)

/-- `nfjp_parse`: zeroed settings. -/
def nfjpParse (enc : ℚ → List Nat) (inp : List Nat) (cd : Arena) (fuel : Nat) :
    Option (Option (List Nat) × Arena) :=
  nfjpParseWithSettings jsDefault enc inp cd fuel

/-- A concrete double encoder for running the parser on inputs whose
numeric values do not matter (every number encodes to 8 zero bytes). -/
def encZ : ℚ → List Nat := fun _ => List.replicate 8 0

/-- The bytes of the misspelled literal `"fulse"`. -/
def c6inp : List Nat := [102, 117, 108, 115, 101]

/-- Result of a strict parse of `"fulse"` into the arena `cdObj`. -/
def c6res : Option (List Nat) × Arena :=
  (nfjpParse encZ c6inp cdObj 10).getD (none, cdObj)

/-- The error message of the `"fulse"` parse. -/
def c6msg : List Nat := c6res.1.getD []

/-- The arena after the failed `"fulse"` parse. -/
def c6cd : Arena := c6res.2

/-- The error message claim C7 quotes for the `"fulse"` parse: the line
prefix `"1: "` and `"Expected 'a', saw 'u'"` with the two characters
wrapped in apostrophes (byte 39). -/
def specQuoteMsg : List Nat :=
  [49, 58, 32, 69, 120, 112, 101, 99, 116, 101, 100, 32, 39, 97, 39, 44, 32, 115,
    97, 119, 32, 39, 117, 39]

/-- The claim C9 input: five quotes, `" x "`, five quotes. -/
def c9inp : List Nat := [34, 34, 34, 34, 34, 32, 120, 32, 34, 34, 34, 34, 34]

/-- Result of `parse_string` on `c9inp` with python multiline strings. -/
def c9run : PRes := pfn jsMl encZ 6 .string ⟨c9inp, 1, cdObj⟩

/-- The arena of the `c9inp` parse. -/
def c9cd : Arena := match c9run with | .ok _ st => st.cd | _ => cdObj

/-- The loc of the `c9inp` parse. -/
def c9loc : Nat := match c9run with | .ok l _ => l | _ => 0

/-- The intern run backing the C9 witness: the claim example's raw body
(two quotes, `" x "`, two quotes). -/
def c9wrun : Arena × Nat :=
  (nfcdAddString [34, 34, 32, 120, 32, 34, 34] 6 cdObj).getD (cdObj, 0)

/-- Arena of the C9 witness intern. -/
def c9wcd : Arena := c9wrun.1

/-- Loc of the C9 witness intern. -/
def c9wloc : Nat := c9wrun.2


/-- Shape of every parser error: the 1-based line number, a colon and a
space, then the message. -/
def errShape (e : List Nat) : Prop :=
  ∃ n msg, 1 ≤ n ∧ e = natDigits n ++ [58, 32] ++ msg


/-- Invariant of every parse-function result: an `ok` state keeps a
positive line number and a nonempty data section, an error message has
the line-prefixed shape and leaves a nonempty data section. -/
def resOK (r : PRes) : Prop :=
  (∀ v st2, r = .ok v st2 → 1 ≤ st2.line ∧ 1 ≤ st2.cd.allocated_bytes) ∧
  (∀ e cd2, r = .perr e cd2 → errShape e ∧ 1 ≤ cd2.allocated_bytes)

/-! # Theorems -/

/-! ## Byte-memory lemmas -/

theorem writeBytes_apply (bs : List Nat) (m : Nat → Nat) (a i : Nat) :
    writeBytes m a bs i =
      if a ≤ i ∧ i < a + bs.length then bs.getD (i - a) 0 else m i := by
  induction bs generalizing m a with
  | nil =>
    simp only [writeBytes, List.length_nil, Nat.add_zero]
    rw [if_neg (by omega)]
  | cons b bs ih =>
    simp only [writeBytes, ih, List.length_cons]
    rcases eq_or_ne i a with hia | hia
    · subst hia
      rw [if_neg (by omega), if_pos (by omega)]
      simp [updB]
    · by_cases h2 : a + 1 ≤ i ∧ i < a + 1 + bs.length
      · rw [if_pos h2, if_pos (by omega)]
        have h3 : i - a = (i - (a + 1)) + 1 := by omega
        rw [h3, List.getD_cons_succ]
      · rw [if_neg h2, if_neg (by omega)]
        simp only [updB, if_neg hia]

theorem writeBytes_apply_of_lt (bs : List Nat) (m : Nat → Nat) (a i : Nat)
    (h : i < a) : writeBytes m a bs i = m i := by
  rw [writeBytes_apply]; rw [if_neg]; omega

theorem writeBytes_apply_of_ge (bs : List Nat) (m : Nat → Nat) (a i : Nat)
    (h : a + bs.length ≤ i) : writeBytes m a bs i = m i := by
  rw [writeBytes_apply]; rw [if_neg]; omega


theorem writeBytes_append (m : Nat → Nat) (a : Nat) (bs cs : List Nat) :
    writeBytes m a (bs ++ cs) = writeBytes (writeBytes m a bs) (a + bs.length) cs := by
  induction bs generalizing m a with
  | nil => simp [writeBytes]
  | cons b bs ih =>
    show writeBytes (updB m a b) (a + 1) (bs ++ cs) = _
    rw [ih]
    have he : a + 1 + bs.length = a + (bs.length + 1) := by omega
    rw [he]
    rfl

theorem writeBytes_getD (m : Nat → Nat) (a : Nat) (bs : List Nat) (k : Nat)
    (h : k < bs.length) : writeBytes m a bs (a + k) = bs.getD k 0 := by
  rw [writeBytes_apply]
  rw [if_pos ⟨by omega, by omega⟩]
  simp

theorem readU32_writeU32_same (m : Nat → Nat) (a v : Nat) :
    readU32 (writeU32 m a v) a = v % 4294967296 := by
  have e0 : writeU32 m a v a = v % 256 := by
    have := writeBytes_getD m a (encodeU32 v) 0 (by simp [encodeU32])
    simpa [encodeU32] using this
  have e1 : writeU32 m a v (a + 1) = v / 256 % 256 :=
    writeBytes_getD m a (encodeU32 v) 1 (by simp [encodeU32])
  have e2 : writeU32 m a v (a + 2) = v / 65536 % 256 :=
    writeBytes_getD m a (encodeU32 v) 2 (by simp [encodeU32])
  have e3 : writeU32 m a v (a + 3) = v / 16777216 % 256 :=
    writeBytes_getD m a (encodeU32 v) 3 (by simp [encodeU32])
  unfold readU32
  rw [e0, e1, e2, e3]
  omega

theorem readU32_writeBytes_of_disjoint (m : Nat → Nat) (a : Nat) (bs : List Nat)
    (b : Nat) (h : b + 4 ≤ a ∨ a + bs.length ≤ b) :
    readU32 (writeBytes m a bs) b = readU32 m b := by
  unfold readU32
  rw [writeBytes_apply, writeBytes_apply, writeBytes_apply, writeBytes_apply]
  rw [if_neg (by omega), if_neg (by omega), if_neg (by omega), if_neg (by omega)]

theorem readU32_writeU32_of_disjoint (m : Nat → Nat) (a v b : Nat)
    (h : b + 4 ≤ a ∨ a + 4 ≤ b) :
    readU32 (writeU32 m a v) b = readU32 m b :=
  readU32_writeBytes_of_disjoint m a (encodeU32 v) b (by simp [encodeU32]; omega)

theorem readU32_writeBytes_zeros (m : Nat → Nat) (a z k : Nat) (h : k + 4 ≤ z) :
    readU32 (writeBytes m a (List.replicate z 0)) (a + k) = 0 := by
  have g : ∀ j, j < z → writeBytes m a (List.replicate z 0) (a + j) = 0 := by
    intro j hj
    rw [writeBytes_getD m a _ j (by simpa using hj)]
    simp [List.getD, List.getElem?_replicate, hj]
  unfold readU32
  have k1 : a + k + 1 = a + (k + 1) := by omega
  have k2 : a + k + 2 = a + (k + 2) := by omega
  have k3 : a + k + 3 = a + (k + 3) := by omega
  rw [k1, k2, k3, g k (by omega), g (k + 1) (by omega), g (k + 2) (by omega),
    g (k + 3) (by omega)]

/-! ## String-table lemmas -/

theorem strcmp_imp_nonzero {strs : Nat → Nat} {s : List Nat} {off : Nat}
    (h0 : (0 : Nat) ∉ s) (hc : strcmpEq strs off s = true) :
    ∀ j < s.length, strs (off + j) ≠ 0 := by
  induction s generalizing off with
  | nil => intro j hj; simp at hj
  | cons b bs ih =>
    have hb : b ≠ 0 := fun h => h0 (h ▸ List.mem_cons_self _ _)
    simp only [strcmpEq, if_neg hb, Bool.and_eq_true, beq_iff_eq] at hc
    intro j hj
    cases j with
    | zero => intro h; rw [Nat.add_zero, hc.1] at h; exact hb h
    | succ j =>
      have hr := ih (fun h => h0 (List.mem_cons_of_mem _ h)) hc.2 j
        (by simpa [Nat.succ_lt_succ_iff] using hj)
      have he : off + (j + 1) = off + 1 + j := by omega
      rw [he]
      exact hr

theorem readCStr_of_strcmp {strs : Nat → Nat} {s : List Nat} {off f : Nat}
    (h0 : (0 : Nat) ∉ s) (hc : strcmpEq strs off s = true)
    (hf : s.length ≤ f) : readCStr strs off f = s := by
  induction s generalizing off f with
  | nil =>
    cases f with
    | zero => rfl
    | succ f =>
      simp only [strcmpEq, beq_iff_eq] at hc
      simp [readCStr, hc]
  | cons b bs ih =>
    have hb : b ≠ 0 := fun h => h0 (h ▸ List.mem_cons_self _ _)
    simp only [strcmpEq, if_neg hb, Bool.and_eq_true, beq_iff_eq] at hc
    cases f with
    | zero => simp at hf
    | succ f =>
      simp only [readCStr, hc.1, if_neg hb]
      exact congrArg (b :: ·)
        (ih (fun h => h0 (List.mem_cons_of_mem _ h)) hc.2 (by simpa using hf))

theorem strcmp_len_lt {strs : Nat → Nat} {s : List Nat} {off sb : Nat}
    (h0 : (0 : Nat) ∉ s) (hc : strcmpEq strs off s = true)
    (hoff : off < sb) (hnul : strs (sb - 1) = 0) : off + s.length < sb := by
  by_contra h
  have hj : sb - 1 - off < s.length := by omega
  have hne := strcmp_imp_nonzero h0 hc (sb - 1 - off) hj
  have he : off + (sb - 1 - off) = sb - 1 := by omega
  rw [he] at hne
  exact hne hnul

theorem readCStr_writeBytes {s : List Nat} (h0 : (0 : Nat) ∉ s)
    (m : Nat → Nat) (off : Nat) :
    readCStr (writeBytes m off (s ++ [0])) off (s.length + 1) = s := by
  induction s generalizing m off with
  | nil =>
    have h : writeBytes m off [0] off = 0 := by
      rw [writeBytes_apply]
      simp
    simp [readCStr, h]
  | cons b bs ih =>
    have hb : b ≠ 0 := fun h => h0 (h ▸ List.mem_cons_self _ _)
    have hhead : writeBytes m off ((b :: bs) ++ [0]) off = b := by
      rw [writeBytes_apply]
      rw [if_pos (by simp)]
      simp
    simp only [List.length_cons, readCStr, hhead, if_neg hb]
    refine congrArg (b :: ·) ?_
    have hrw : writeBytes m off ((b :: bs) ++ [0]) =
        writeBytes (updB m off b) (off + 1) (bs ++ [0]) := rfl
    rw [hrw]
    exact ih (fun h => h0 (List.mem_cons_of_mem _ h)) _ _

theorem probeLoop_inl {slots : Nat → Nat} {n : Nat} {strs : Nat → Nat} {s : List Nat} :
    ∀ {fuel i v}, probeLoop slots n strs s i fuel = some (Sum.inl v) → i < n →
    ∃ j, j < n ∧ slots j = v ∧ slots j ≠ 0 ∧ strcmpEq strs v s = true := by
  intro fuel
  induction fuel with
  | zero => intro i v h _; simp [probeLoop] at h
  | succ fuel ih =>
    intro i v h hi
    simp only [probeLoop] at h
    by_cases h1 : slots i = 0
    · rw [if_pos h1] at h; simp at h
    · rw [if_neg h1] at h
      by_cases h2 : strcmpEq strs (slots i) s = true
      · rw [if_pos h2] at h
        injection h with h
        injection h with h
        exact ⟨i, hi, h, h ▸ h1, h ▸ h2⟩
      · rw [if_neg h2] at h
        exact ih h (Nat.mod_lt _ (by omega))

theorem probeLoop_inr {slots : Nat → Nat} {n : Nat} {strs : Nat → Nat} {s : List Nat} :
    ∀ {fuel i j}, probeLoop slots n strs s i fuel = some (Sum.inr j) → i < n →
    j < n ∧ slots j = 0 := by
  intro fuel
  induction fuel with
  | zero => intro i j h _; simp [probeLoop] at h
  | succ fuel ih =>
    intro i j h hi
    simp only [probeLoop] at h
    by_cases h1 : slots i = 0
    · rw [if_pos h1] at h
      injection h with h
      injection h with h
      exact ⟨h ▸ hi, h ▸ h1⟩
    · rw [if_neg h1] at h
      by_cases h2 : strcmpEq strs (slots i) s = true
      · rw [if_pos h2] at h; simp at h
      · rw [if_neg h2] at h
        exact ih h (Nat.mod_lt _ (by omega))

theorem headD_ne_zero {s : List Nat} (h0 : (0 : Nat) ∉ s) (hs : s ≠ []) :
    ¬ s.headD 0 = 0 := by
  cases s with
  | nil => exact absurd rfl hs
  | cons b bs =>
    intro h
    simp only [List.headD_cons] at h
    exact h0 (h ▸ List.mem_cons_self _ _)

/-- The string read back at a fresh insert position equals the inserted
string. -/
theorem insertStr_toString {st : StrTab} {i slotVal : Nat} {s : List Nat}
    (h0 : (0 : Nat) ∉ s) :
    nfstToString (insertStr st i slotVal s) st.string_bytes = s := by
  unfold nfstToString insertStr
  simp only
  have hf : st.string_bytes + (s.length + 1) - st.string_bytes = s.length + 1 := by
    omega
  rw [hf]
  exact readCStr_writeBytes h0 _ _

/-- After a successful `nfst_to_symbol`, `nfst_to_string` on the returned
symbol reads back exactly the interned string. -/
theorem nfstToSymbol_toString {st : StrTab} {s : List Nat} {st' : StrTab} {sym : Nat}
    (hwf : WF st) (h0 : (0 : Nat) ∉ s)
    (h : nfstToSymbol st s = some (st', .sym sym)) :
    nfstToString st' sym = s := by
  unfold nfstToSymbol at h
  split at h
  · -- empty-string fast path
    rename_i hh
    have hs : s = [] := by
      cases s with
      | nil => rfl
      | cons b bs => exact absurd hh (headD_ne_zero h0 (by simp))
    subst hs
    injection h with h'
    injection h' with ha hb
    injection hb with hv
    rw [← ha, ← hv]
    unfold nfstToString
    obtain ⟨k, hk⟩ : ∃ k, st.string_bytes - 0 = k + 1 :=
      ⟨st.string_bytes - 1, by have := hwf.sb_pos; omega⟩
    rw [hk]
    simp [readCStr, hwf.zero0]
  · rename_i hh
    have hn : 0 < st.num_hash_slots := hwf.nslots_pos
    have hi0 : strHash s % st.num_hash_slots < st.num_hash_slots := Nat.mod_lt _ hn
    split at h
    · exact absurd h (by simp)
    · -- probe found an equal stored string
      rename_i v hp
      injection h with h'
      injection h' with ha hb
      injection hb with hv
      rw [← ha, ← hv]
      obtain ⟨j, hj, hjv, hjnz, hcmp⟩ := probeLoop_inl hp hi0
      have hvlt : v < st.string_bytes := hjv ▸ hwf.slotsLt j hj hjnz
      have hlen := strcmp_len_lt h0 hcmp hvlt hwf.lastNul
      unfold nfstToString
      exact readCStr_of_strcmp h0 hcmp (by omega)
    · -- probe found an empty slot: capacity checks, then insert
      rename_i i hp
      split at h
      · injection h with h'
        exact absurd (congrArg Prod.snd h') (by simp)
      split at h
      · injection h with h'
        exact absurd (congrArg Prod.snd h') (by simp)
      split at h
      · injection h with h'
        exact absurd (congrArg Prod.snd h') (by simp)
      split at h
      · split at h
        · injection h with h'
          exact absurd (congrArg Prod.snd h') (by simp)
        · injection h with h'
          injection h' with ha hb
          injection hb with hv
          rw [← ha, ← hv]
          exact insertStr_toString h0
      · injection h with h'
        injection h' with ha hb
        injection hb with hv
        rw [← ha, ← hv]
        exact insertStr_toString h0

theorem insertStr_WF {st : StrTab} {i slotVal : Nat} {s : List Nat}
    (hwf : WF st) (hi : i < st.num_hash_slots) (hv : slotVal ≤ st.string_bytes) :
    WF (insertStr st i slotVal s) := by
  have hsb := hwf.sb_pos
  constructor
  · exact hwf.nslots_pos
  · show 1 ≤ st.string_bytes + (s.length + 1)
    omega
  · show writeBytes st.strs st.string_bytes (s ++ [0]) 0 = 0
    rw [writeBytes_apply_of_lt _ _ _ _ (by omega)]
    exact hwf.zero0
  · show writeBytes st.strs st.string_bytes (s ++ [0])
        (st.string_bytes + (s.length + 1) - 1) = 0
    rw [writeBytes_apply]
    rw [if_pos (by simp)]
    have he : st.string_bytes + (s.length + 1) - 1 - st.string_bytes = s.length := by
      omega
    rw [he, List.getD_append_right _ _ _ _ (Nat.le_refl _)]
    simp
  · intro j hj hnz
    have hnz' : updB st.slots i slotVal j ≠ 0 := hnz
    show updB st.slots i slotVal j < st.string_bytes + (s.length + 1)
    unfold updB at hnz' ⊢
    by_cases hji : j = i
    · rw [if_pos hji] at hnz' ⊢
      omega
    · rw [if_neg hji] at hnz' ⊢
      have hlt := hwf.slotsLt j hj hnz'
      omega

/-- `nfst_to_symbol` preserves well-formedness. -/
theorem nfstToSymbol_WF {st : StrTab} {s : List Nat} {st' : StrTab} {r : SymRes}
    (hwf : WF st) (h : nfstToSymbol st s = some (st', r)) : WF st' := by
  unfold nfstToSymbol at h
  split at h
  · have ha : st = st' := congrArg Prod.fst (Option.some.inj h)
    exact ha ▸ hwf
  · have hn : 0 < st.num_hash_slots := hwf.nslots_pos
    have hi0 : strHash s % st.num_hash_slots < st.num_hash_slots := Nat.mod_lt _ hn
    split at h
    · exact absurd h (by simp)
    · have ha : st = st' := congrArg Prod.fst (Option.some.inj h)
      exact ha ▸ hwf
    · rename_i i hp
      obtain ⟨hi, _⟩ := probeLoop_inr hp hi0
      split at h
      · have ha : st = st' := congrArg Prod.fst (Option.some.inj h)
        exact ha ▸ hwf
      split at h
      · have ha : st = st' := congrArg Prod.fst (Option.some.inj h)
        exact ha ▸ hwf
      split at h
      · have ha : st = st' := congrArg Prod.fst (Option.some.inj h)
        exact ha ▸ hwf
      split at h
      · split at h
        · have ha : st = st' := congrArg Prod.fst (Option.some.inj h)
          exact ha ▸ hwf
        · have ha : insertStr st i (st.string_bytes % 65536) s = st' :=
            congrArg Prod.fst (Option.some.inj h)
          exact ha ▸ insertStr_WF hwf hi (Nat.mod_le _ _)
      · have ha : insertStr st i (st.string_bytes % 4294967296) s = st' :=
          congrArg Prod.fst (Option.some.inj h)
        exact ha ▸ insertStr_WF hwf hi (Nat.mod_le _ _)

theorem findEmpty_lt {slots : Nat → Nat} {n : Nat} :
    ∀ {fuel i j}, findEmpty slots n i fuel = some j → i < n → j < n ∧ slots j = 0 := by
  intro fuel
  induction fuel with
  | zero => intro i j h _; simp [findEmpty] at h
  | succ fuel ih =>
    intro i j h hi
    simp only [findEmpty] at h
    by_cases h1 : slots i = 0
    · rw [if_pos h1] at h
      injection h with h
      exact ⟨h ▸ hi, h ▸ h1⟩
    · rw [if_neg h1] at h
      exact ih h (Nat.mod_lt _ (by omega))

theorem rebuildWalk_slotsLt {strs : Nat → Nat} {sb n : Nat} {u16 : Bool} :
    ∀ {fuel pos slots out}, rebuildWalk strs sb n u16 pos slots fuel = some out →
    0 < n → (∀ i < n, slots i ≠ 0 → slots i < sb) →
    ∀ i < n, out i ≠ 0 → out i < sb := by
  intro fuel
  induction fuel with
  | zero => intro pos slots out h _ _; simp [rebuildWalk] at h
  | succ fuel ih =>
    intro pos slots out h hn hinv
    simp only [rebuildWalk] at h
    by_cases hpos : pos < sb
    · rw [if_pos hpos] at h
      cases hf : findEmpty slots n
          (strHash (readCStr strs pos (sb - pos)) % n) n with
      | none => rw [hf] at h; simp at h
      | some i =>
        rw [hf] at h
        obtain ⟨hi, _⟩ := findEmpty_lt hf (Nat.mod_lt _ hn)
        refine ih h hn ?_
        intro j hj hnz
        by_cases hji : j = i
        · subst hji
          have hv : updB slots j (if u16 then pos % 65536 else pos % 4294967296) j =
              (if u16 then pos % 65536 else pos % 4294967296) := by
            simp [updB]
          rw [hv]
          cases u16 <;> simp <;> exact Nat.lt_of_le_of_lt (Nat.mod_le _ _) hpos
        · have hv : updB slots i (if u16 then pos % 65536 else pos % 4294967296) j =
              slots j := by
            simp [updB, hji]
          rw [hv] at hnz ⊢
          exact hinv j hj hnz
    · rw [if_neg hpos] at h
      injection h with h
      exact h ▸ hinv

/-- `nfst_grow` preserves well-formedness and does not change the string
block or its used size. -/
theorem nfstGrow_WF {st : StrTab} {bytes : Nat} {st' : StrTab}
    (hwf : WF st) (h : nfstGrow st bytes = some st') :
    WF st' ∧ st'.strs = st.strs ∧ st'.string_bytes = st.string_bytes := by
  have hle : st.num_hash_slots ≤ nfstNumSlotsGrow st bytes := by
    unfold nfstNumSlotsGrow
    split
    · exact le_max_right _ _
    · exact le_max_right _ _
  have hn : 1 ≤ nfstNumSlotsGrow st bytes := le_trans hwf.nslots_pos hle
  unfold nfstGrow rebuildHashTable at h
  simp only at h
  rw [Option.map_eq_some'] at h
  obtain ⟨slots, hw, hst⟩ := h
  subst hst
  refine ⟨⟨hn, hwf.sb_pos, hwf.zero0, hwf.lastNul, ?_⟩, rfl, rfl⟩
  have hn' : 0 < nfstNumSlotsGrow st bytes := hn
  exact rebuildWalk_slotsLt hw hn' (by intro i _ hnz; exact absurd rfl hnz)

theorem locType_makeLoc (ty off : Nat) (h : ty < 8) : locType (makeLoc ty off) = ty := by
  unfold locType makeLoc
  omega

theorem locOff_makeLoc (ty off : Nat) (h : ty < 8) : locOff (makeLoc ty off) = off := by
  unfold locOff makeLoc
  omega

/-! ## Claim C1 -/

/-- **C1.**  For every NUL-terminated string `s` (byte list without NUL),
interning `s` with `nfcd_add_string` on any well-formed arena state —
including executions in which the intern loops through string-table
growth and arena reallocation — returns a STRING loc from which
`nfcd_to_string` reads back a string byte-equal to `s`. -/
theorem nfcd_add_string_to_string_roundtrip :
    ∀ (fuel : Nat) (cd : Arena) (s : List Nat) (cd' : Arena) (loc : Nat),
      WF cd.st → (0 : Nat) ∉ s →
      nfcdAddString s fuel cd = some (cd', loc) →
      locType loc = 4 ∧ nfcdToString cd' loc = s := by
  intro fuel
  induction fuel with
  | zero =>
    intro cd s cd' loc _ _ h
    exact absurd h (by simp [nfcdAddString])
  | succ fuel ih =>
    intro cd s cd' loc hwf h0 h
    unfold nfcdAddString at h
    split at h
    · exact absurd h (by simp)
    · -- successful intern
      rename_i st' sym hts
      injection h with h'
      injection h' with ha hb
      subst hb
      refine ⟨locType_makeLoc 4 sym (by omega), ?_⟩
      rw [← ha]
      show nfstToString st' (locOff (makeLoc 4 sym)) = s
      rw [locOff_makeLoc 4 sym (by omega)]
      exact nfstToSymbol_toString hwf h0 hts
    · -- FULL: grow the string table and retry
      rename_i stu hts
      split at h
      · exact absurd h (by simp)
      · rename_i stg hg
        have hwf3 := (nfstGrow_WF hwf hg).1
        exact ih _ s cd' loc hwf3 h0 h

/-- The result of the concrete `nfcd_add_string` run used as the witness
for `nfcd_add_string_to_string_roundtrip`. -/
def c1run : Arena × Nat :=
  (nfcdAddString [104, 105] 1 (nfcdMake 0 0)).getD (nfcdMake 0 0, 0)

theorem nfcd_add_string_to_string_roundtrip_witness :
    nfcdAddString [104, 105] 1 (nfcdMake 0 0) = some c1run ∧
    locType c1run.2 = 4 ∧ nfcdToString c1run.1 c1run.2 = [104, 105] := by
  have h : nfcdAddString [104, 105] 1 (nfcdMake 0 0) = some c1run := rfl
  have hwf : WF (nfcdMake 0 0).st := by
    refine ⟨by decide, by decide, rfl, rfl, ?_⟩
    intro i _ hnz
    exact absurd rfl hnz
  have hm := nfcd_add_string_to_string_roundtrip 1 (nfcdMake 0 0) [104, 105]
    c1run.1 c1run.2 hwf (by decide) h
  exact ⟨h, hm.1, hm.2⟩

/-! ## Claims C2 and C4: the 16-bit 64 KiB boundary bug -/

/-- **C4** (code bug).  At `stBoundary` — a 16-bit table whose string
block holds exactly 65536 used bytes — inserting a new one-byte string
must fail with `NFST_STRING_TABLE_FULL` according to the spec, because
the new string's offset 65536 does not fit in a 16-bit slot
(`¬ 65536 < 2^16`).  The code's check `symbol > 64*1024` is off by one:
the call instead inserts the string, returns symbol 65536, and the
`uint16_t` slot store truncates 65536 to 0, the empty-slot marker, so
the hash table loses the entry. -/
theorem nfst_to_symbol_16bit_boundary_check_off_by_one :
    (nfstToSymbol stBoundary [120]).map Prod.snd = some (SymRes.sym 65536) ∧
    ((nfstToSymbol stBoundary [120]).map fun p => p.1.slots 8) = some 0 ∧
    stBoundary.uses16 = true ∧ stBoundary.string_bytes = 65536 ∧
    ¬ (65536 < 2 ^ 16) := by
  refine ⟨by decide, by decide, rfl, rfl, by decide⟩

/-! ## Arena write lemmas -/

theorem dataGrow_spec :
    ∀ (fuel : Nat) (cd : Arena) (total : Nat), 1 ≤ cd.allocated_bytes →
      cd.used_bytes + total ≤ fuel + cd.allocated_bytes →
      ∃ cd', dataGrow fuel cd total = some cd' ∧
        cd'.used_bytes = cd.used_bytes ∧ cd'.mem = cd.mem ∧ cd'.st = cd.st ∧
        cd'.root = cd.root ∧ cd.used_bytes + total ≤ cd'.allocated_bytes ∧
        1 ≤ cd'.allocated_bytes := by
  intro fuel
  induction fuel with
  | zero =>
    intro cd total h1 h2
    refine ⟨cd, ?_, rfl, rfl, rfl, rfl, by omega, h1⟩
    unfold dataGrow
    rw [if_neg (by omega)]
  | succ fuel ih =>
    intro cd total h1 h2
    by_cases hgt : cd.used_bytes + total > cd.allocated_bytes
    · have hrec := ih
        { cd with
          allocated_bytes := cd.allocated_bytes * 2
          total_bytes := cd.allocated_bytes * 2 + (cd.total_bytes - cd.allocated_bytes) }
        total (by simp; omega) (by simp; omega)
      obtain ⟨cd', hg, hu, hm, hst, hr, hle, h1'⟩ := hrec
      refine ⟨cd', ?_, hu, hm, hst, hr, by simp at hu hle; omega, h1'⟩
      unfold dataGrow
      rw [if_pos hgt]
      exact hg
    · refine ⟨cd, ?_, rfl, rfl, rfl, rfl, by omega, h1⟩
      unfold dataGrow
      rw [if_neg hgt]

theorem nfcdWrite_spec (cd : Arena) (ty : Nat) (payload : List Nat) (zeroes : Nat)
    (h1 : 1 ≤ cd.allocated_bytes) :
    ∃ cd', nfcdWrite cd ty payload zeroes = some (cd', makeLoc ty cd.used_bytes) ∧
      cd'.used_bytes = cd.used_bytes + (payload.length + zeroes) ∧
      cd'.mem = writeBytes cd.mem cd.used_bytes (payload ++ List.replicate zeroes 0) ∧
      cd'.st = cd.st ∧ cd'.root = cd.root ∧
      cd.used_bytes + (payload.length + zeroes) ≤ cd'.allocated_bytes ∧
      1 ≤ cd'.allocated_bytes := by
  obtain ⟨cdg, hg, hu, hm, hst, hr, hle, h1'⟩ :=
    dataGrow_spec (cd.used_bytes + (payload.length + zeroes) + 1) cd
      (payload.length + zeroes) h1 (by omega)
  refine ⟨{ cdg with
      mem := writeBytes cdg.mem cdg.used_bytes (payload ++ List.replicate zeroes 0)
      used_bytes := cdg.used_bytes + (payload.length + zeroes) }, ?_, ?_, ?_, ?_, ?_, ?_, ?_⟩
  · unfold nfcdWrite
    rw [hg, Option.map_some', hu]
  · simp [hu]
  · rw [hm, hu]
  · exact hst
  · exact hr
  · exact hle
  · exact h1'

/-! ## Block-header read lemmas

A fresh array/object block is written as
`(encodeU32 alloc ++ encodeU32 size ++ encodeU32 next) ++ replicate z 0`;
the following lemmas read the three header fields and the zeroed slots
back out. -/

theorem readU32_hdr_alloc (m : Nat → Nat) (a x y z : Nat) (rest : List Nat) :
    readU32 (writeBytes m a (((encodeU32 x ++ encodeU32 y) ++ encodeU32 z) ++ rest)) a =
      x % 4294967296 := by
  rw [writeBytes_append, writeBytes_append, writeBytes_append]
  simp only [encodeU32, List.length_cons, List.length_append, List.length_nil]
  rw [readU32_writeBytes_of_disjoint _ _ _ _ (by omega)]
  rw [readU32_writeBytes_of_disjoint _ _ _ _ (by omega)]
  rw [readU32_writeBytes_of_disjoint _ _ _ _ (by omega)]
  exact readU32_writeU32_same m a x

theorem readU32_hdr_size (m : Nat → Nat) (a x y z : Nat) (rest : List Nat) :
    readU32 (writeBytes m a (((encodeU32 x ++ encodeU32 y) ++ encodeU32 z) ++ rest))
      (a + 4) = y % 4294967296 := by
  rw [writeBytes_append, writeBytes_append, writeBytes_append]
  simp only [encodeU32, List.length_cons, List.length_append, List.length_nil]
  rw [readU32_writeBytes_of_disjoint _ _ _ _ (by omega)]
  rw [readU32_writeBytes_of_disjoint _ _ _ _ (by omega)]
  exact readU32_writeU32_same _ (a + 4) y

theorem readU32_hdr_next (m : Nat → Nat) (a x y z : Nat) (rest : List Nat) :
    readU32 (writeBytes m a (((encodeU32 x ++ encodeU32 y) ++ encodeU32 z) ++ rest))
      (a + 8) = z % 4294967296 := by
  rw [writeBytes_append, writeBytes_append, writeBytes_append]
  simp only [encodeU32, List.length_cons, List.length_append, List.length_nil]
  rw [readU32_writeBytes_of_disjoint _ _ _ _ (by omega)]
  have he : a + 4 + 4 = a + 8 := by omega
  rw [he]
  exact readU32_writeU32_same _ (a + 8) z

theorem readU32_hdr_slots (m : Nat → Nat) (a x y z k zn : Nat)
    (h : k + 4 ≤ zn) :
    readU32 (writeBytes m a (((encodeU32 x ++ encodeU32 y) ++ encodeU32 z) ++
      List.replicate zn 0)) (a + 12 + k) = 0 := by
  rw [writeBytes_append]
  simp only [encodeU32, List.length_cons, List.length_append, List.length_nil]
  have he : a + (3 + 1 + (3 + 1) + (3 + 1)) = a + 12 := by omega
  rw [he]
  have hr := readU32_writeBytes_zeros
    (writeBytes m a ((encodeU32 x ++ encodeU32 y) ++ encodeU32 z)) (a + 12) zn k h
  have he2 : a + 12 + k = a + 12 + k := rfl
  simpa [encodeU32] using hr

theorem readU32_hdr_before (m : Nat → Nat) (a x y z b : Nat) (rest : List Nat)
    (h : b + 4 ≤ a) :
    readU32 (writeBytes m a (((encodeU32 x ++ encodeU32 y) ++ encodeU32 z) ++ rest)) b =
      readU32 m b :=
  readU32_writeBytes_of_disjoint _ _ _ _ (Or.inl h)

/-! ## Claim C10: `nfcd_push` termination -/

/-- If a block is empty with zero capacity and no successor and lies
inside the used data section, the `nfcd_push` walk never terminates:
every new tail block is allocated with capacity `2 * 0 = 0` and the walk
moves to it. -/
theorem nfcdPushGo_diverges (item : Nat) :
    ∀ (fuel : Nat) (cd : Arena) (off : Nat),
      blockAlloc cd off = 0 → blockSize cd off = 0 → blockNext cd off = 0 →
      off + 12 ≤ cd.used_bytes → 1 ≤ cd.allocated_bytes →
      nfcdPushGo item fuel cd off = none := by
  intro fuel
  induction fuel with
  | zero => intro cd off _ _ _ _ _; rfl
  | succ fuel ih =>
    intro cd off ha hs hn hu h1
    obtain ⟨cd1, hw, hu1, hm1, hst1, hr1, hle1, h11⟩ :=
      nfcdWrite_spec cd 5
        ((encodeU32 (blockAlloc cd off * 2) ++ encodeU32 0) ++ encodeU32 0)
        (blockAlloc cd off * 2 * 4) h1
    unfold nfcdPushGo
    rw [if_pos (by rw [hs, ha]), if_pos hn]
    rw [show nfcdAddArray cd (blockAlloc cd off * 2) =
      some (cd1, makeLoc 5 cd.used_bytes) from hw]
    have hoff' : locOff (makeLoc 5 cd.used_bytes) = cd.used_bytes :=
      locOff_makeLoc 5 _ (by omega)
    set cd2 : Arena :=
      { cd1 with mem := writeU32 cd1.mem (off + 8) (makeLoc 5 cd.used_bytes) } with hcd2
    show nfcdPushGo item fuel cd2 (locOff (makeLoc 5 cd.used_bytes)) = none
    rw [hoff']
    have hdisj : ∀ b, off + 12 ≤ b →
        readU32 cd2.mem b = readU32 cd1.mem b := by
      intro b hb
      exact readU32_writeU32_of_disjoint _ _ _ _ (by omega)
    have hpay : ((encodeU32 (blockAlloc cd off * 2) ++ encodeU32 0) ++ encodeU32 0).length
        = 12 := by simp [encodeU32]
    apply ih cd2 cd.used_bytes
    · show readU32 cd2.mem cd.used_bytes = 0
      rw [hdisj _ hu, hm1]
      have := readU32_hdr_alloc cd.mem cd.used_bytes (blockAlloc cd off * 2) 0 0
        (List.replicate (blockAlloc cd off * 2 * 4) 0)
      rw [this, ha]
    · show readU32 cd2.mem (cd.used_bytes + 4) = 0
      rw [hdisj _ (by omega), hm1]
      have := readU32_hdr_size cd.mem cd.used_bytes (blockAlloc cd off * 2) 0 0
        (List.replicate (blockAlloc cd off * 2 * 4) 0)
      rw [this]
    · show readU32 cd2.mem (cd.used_bytes + 8) = 0
      rw [hdisj _ (by omega), hm1]
      have := readU32_hdr_next cd.mem cd.used_bytes (blockAlloc cd off * 2) 0 0
        (List.replicate (blockAlloc cd off * 2 * 4) 0)
      rw [this]
    · show cd.used_bytes + 12 ≤ cd2.used_bytes
      have : cd2.used_bytes = cd1.used_bytes := rfl
      rw [this, hu1, hpay]
      omega
    · show 1 ≤ cd2.allocated_bytes
      exact h11


theorem readU32_lt (m : Nat → Nat) (a : Nat) : readU32 m a < 4294967296 := by
  unfold readU32
  omega

theorem chainSizeGo_ge (cd : Arena) :
    ∀ (fuel off acc m : Nat), chainSizeGo cd fuel off acc = some m →
      acc ≤ m := by
  intro fuel
  induction fuel with
  | zero => intro off acc m h; simp [chainSizeGo] at h
  | succ fuel ih =>
    intro off acc m h
    unfold chainSizeGo at h
    by_cases hn : blockNext cd off = 0
    · rw [if_pos hn] at h
      have := Option.some.inj h
      omega
    · rw [if_neg hn] at h
      have := ih _ _ _ h
      omega

/-- `nfcd_push` on a valid chain whose terminal block has positive
capacity terminates, leaves every 32-bit field below the chain root
unchanged, makes the chain's summed `size` one larger, and stores the
pushed item at the old size's index. -/
theorem nfcdPushGo_spec (item : Nat) :
    ∀ (fuel : Nat) (cd : Arena) (off a : Nat),
      validChain cd 4 fuel off = true →
      termAlloc cd fuel off = some a → 1 ≤ a →
      1 ≤ cd.allocated_bytes → cd.used_bytes < 536870912 →
      ∃ cd', nfcdPushGo item (fuel + 1) cd off = some cd' ∧
        (∀ b, b + 4 ≤ off → readU32 cd'.mem b = readU32 cd.mem b) ∧
        (∀ acc, chainSizeGo cd' (fuel + 2) off acc =
          (chainSizeGo cd (fuel + 2) off acc).map (· + 1)) ∧
        (∀ acc n, chainSizeGo cd (fuel + 2) off acc = some (acc + n) →
          arrayItemGo cd' (fuel + 2) off n = some (item % 4294967296)) := by
  intro fuel
  induction fuel with
  | zero => intro cd off a hv _ _ _ _; simp [validChain] at hv
  | succ fuel ih =>
    intro cd off a hv hta ha h1 hub
    have hs_le : blockSize cd off ≤ blockAlloc cd off := by
      unfold validChain at hv
      simp only [Bool.and_eq_true, decide_eq_true_eq] at hv
      exact hv.1.1
    have hext : off + 12 + 4 * blockAlloc cd off ≤ cd.used_bytes := by
      unfold validChain at hv
      simp only [Bool.and_eq_true, decide_eq_true_eq] at hv
      exact hv.1.2
    by_cases hfull : blockSize cd off = blockAlloc cd off
    · by_cases hnx : blockNext cd off = 0
      · -- full terminal block: link a fresh block of twice the capacity
        have hAa : blockAlloc cd off = a := by
          unfold termAlloc at hta
          rw [if_pos hnx] at hta
          exact Option.some.inj hta
        obtain ⟨cd1, hw, hu1, hm1, hst1, hr1, hle1, h11⟩ :=
          nfcdWrite_spec cd 5
            ((encodeU32 (blockAlloc cd off * 2) ++ encodeU32 0) ++ encodeU32 0)
            (blockAlloc cd off * 2 * 4) h1
        have hpay : ((encodeU32 (blockAlloc cd off * 2) ++ encodeU32 0) ++
            encodeU32 0).length = 12 := by simp [encodeU32]
        set u := cd.used_bytes with hu
        set nloc := makeLoc 5 u with hnloc
        have hnlt : nloc < 4294967296 := by
          rw [hnloc]
          unfold makeLoc
          omega
        have hnpos : nloc ≠ 0 := by
          rw [hnloc]
          unfold makeLoc
          omega
        have hOffU : off + 12 ≤ u := by omega
        set cd2 : Arena := { cd1 with mem := writeU32 cd1.mem (off + 8) nloc } with hcd2
        -- fields of the fresh block at offset u, as seen through cd2
        have halloc2 : blockAlloc cd2 u = blockAlloc cd off * 2 := by
          show readU32 cd2.mem u = _
          rw [show cd2.mem = writeU32 cd1.mem (off + 8) nloc from rfl]
          rw [readU32_writeU32_of_disjoint _ _ _ _ (by omega), hm1]
          rw [readU32_hdr_alloc]
          have : blockAlloc cd off * 2 < 4294967296 := by
            have := readU32_lt cd.mem (off + 4)
            omega
          omega
        have hsize2 : blockSize cd2 u = 0 := by
          show readU32 cd2.mem (u + 4) = 0
          rw [show cd2.mem = writeU32 cd1.mem (off + 8) nloc from rfl]
          rw [readU32_writeU32_of_disjoint _ _ _ _ (by omega), hm1]
          rw [readU32_hdr_size]
        have hnext2 : blockNext cd2 u = 0 := by
          show readU32 cd2.mem (u + 8) = 0
          rw [show cd2.mem = writeU32 cd1.mem (off + 8) nloc from rfl]
          rw [readU32_writeU32_of_disjoint _ _ _ _ (by omega), hm1]
          rw [readU32_hdr_next]
        have hanz : blockAlloc cd off * 2 ≠ 0 := by omega
        -- run the walk: one step to the fresh block, then the append
        refine ⟨{ cd2 with
            mem := writeU32 (writeU32 cd2.mem (u + 12 + 4 * blockSize cd2 u) item)
              (u + 4) (blockSize cd2 u + 1) }, ?_, ?_, ?_, ?_⟩
        · show nfcdPushGo item (fuel + 1 + 1) cd off = _
          unfold nfcdPushGo
          rw [if_pos hfull, if_pos hnx]
          rw [show nfcdAddArray cd (blockAlloc cd off * 2) =
            some (cd1, nloc) from hw]
          show nfcdPushGo item (fuel + 1) cd2 (locOff nloc) = _
          rw [show locOff nloc = u from locOff_makeLoc 5 u (by omega)]
          unfold nfcdPushGo
          rw [if_neg (by rw [hsize2, halloc2]; omega)]
        · intro b hb
          show readU32 (writeU32 (writeU32 cd2.mem (u + 12 + 4 * blockSize cd2 u) item)
              (u + 4) (blockSize cd2 u + 1)) b = readU32 cd.mem b
          rw [readU32_writeU32_of_disjoint _ _ _ _ (by omega)]
          rw [readU32_writeU32_of_disjoint _ _ _ _ (by omega)]
          rw [show cd2.mem = writeU32 cd1.mem (off + 8) nloc from rfl]
          rw [readU32_writeU32_of_disjoint _ _ _ _ (by omega), hm1]
          exact readU32_hdr_before _ _ _ _ _ _ _ (by omega)
        · intro acc
          set cd3 : Arena := { cd2 with
            mem := writeU32 (writeU32 cd2.mem (u + 12 + 4 * blockSize cd2 u) item)
              (u + 4) (blockSize cd2 u + 1) } with hcd3
          have hframe3 : ∀ b, b + 4 ≤ u + 4 ∨ u + 4 + 4 ≤ b ∧ b + 4 ≤ u + 12 →
              readU32 cd3.mem b = readU32 cd2.mem b := by
            intro b hb
            show readU32 (writeU32 (writeU32 cd2.mem (u + 12 + 4 * blockSize cd2 u) item)
                (u + 4) (blockSize cd2 u + 1)) b = readU32 cd2.mem b
            rw [hsize2]
            rw [readU32_writeU32_of_disjoint _ _ _ _ (by omega)]
            rw [readU32_writeU32_of_disjoint _ _ _ _ (by omega)]
          have hsize3off : blockSize cd3 off = blockSize cd off := by
            show readU32 cd3.mem (off + 4) = _
            rw [hframe3 _ (by omega)]
            show readU32 cd2.mem (off + 4) = _
            rw [show cd2.mem = writeU32 cd1.mem (off + 8) nloc from rfl]
            rw [readU32_writeU32_of_disjoint _ _ _ _ (by omega), hm1]
            exact readU32_hdr_before _ _ _ _ _ _ _ (by omega)
          have hnext3off : blockNext cd3 off = nloc := by
            show readU32 cd3.mem (off + 8) = _
            rw [hframe3 _ (by omega)]
            show readU32 cd2.mem (off + 8) = _
            rw [show cd2.mem = writeU32 cd1.mem (off + 8) nloc from rfl]
            rw [readU32_writeU32_same]
            omega
          have hsize3u : blockSize cd3 u = 1 := by
            show readU32 cd3.mem (u + 4) = 1
            show readU32 (writeU32 (writeU32 cd2.mem (u + 12 + 4 * blockSize cd2 u) item)
              (u + 4) (blockSize cd2 u + 1)) (u + 4) = 1
            rw [readU32_writeU32_same, hsize2]
          have hnext3u : blockNext cd3 u = 0 := by
            show readU32 cd3.mem (u + 8) = 0
            rw [hframe3 _ (by omega)]
            exact hnext2
          show chainSizeGo cd3 (fuel + 1 + 2) off acc = _
          unfold chainSizeGo
          rw [if_neg (by rw [hnext3off]; exact hnpos), if_pos hnx]
          rw [hnext3off, hsize3off,
            show locOff nloc = u from locOff_makeLoc 5 u (by omega)]
          show chainSizeGo cd3 (fuel + 2) u (acc + blockSize cd off) = _
          unfold chainSizeGo
          rw [if_pos hnext3u, hsize3u]
          simp [Option.map_some']
        · intro acc n hcs
          unfold chainSizeGo at hcs
          rw [if_pos hnx] at hcs
          have hn : n = blockSize cd off := by
            have := Option.some.inj hcs
            omega
          set cd3 : Arena := { cd2 with
            mem := writeU32 (writeU32 cd2.mem (u + 12 + 4 * blockSize cd2 u) item)
              (u + 4) (blockSize cd2 u + 1) } with hcd3
          have hframe3 : ∀ b, b + 4 ≤ u + 4 ∨ u + 4 + 4 ≤ b ∧ b + 4 ≤ u + 12 →
              readU32 cd3.mem b = readU32 cd2.mem b := by
            intro b hb
            show readU32 (writeU32 (writeU32 cd2.mem (u + 12 + 4 * blockSize cd2 u) item)
                (u + 4) (blockSize cd2 u + 1)) b = readU32 cd2.mem b
            rw [hsize2]
            rw [readU32_writeU32_of_disjoint _ _ _ _ (by omega)]
            rw [readU32_writeU32_of_disjoint _ _ _ _ (by omega)]
          have hsize3off : blockSize cd3 off = blockSize cd off := by
            show readU32 cd3.mem (off + 4) = _
            rw [hframe3 _ (by omega)]
            show readU32 cd2.mem (off + 4) = _
            rw [show cd2.mem = writeU32 cd1.mem (off + 8) nloc from rfl]
            rw [readU32_writeU32_of_disjoint _ _ _ _ (by omega), hm1]
            exact readU32_hdr_before _ _ _ _ _ _ _ (by omega)
          have hnext3off : blockNext cd3 off = nloc := by
            show readU32 cd3.mem (off + 8) = _
            rw [hframe3 _ (by omega)]
            show readU32 cd2.mem (off + 8) = _
            rw [show cd2.mem = writeU32 cd1.mem (off + 8) nloc from rfl]
            rw [readU32_writeU32_same]
            omega
          have hsize3u : blockSize cd3 u = 1 := by
            show readU32 cd3.mem (u + 4) = 1
            show readU32 (writeU32 (writeU32 cd2.mem (u + 12 + 4 * blockSize cd2 u) item)
              (u + 4) (blockSize cd2 u + 1)) (u + 4) = 1
            rw [readU32_writeU32_same, hsize2]
          have hnext3u : blockNext cd3 u = 0 := by
            show readU32 cd3.mem (u + 8) = 0
            rw [hframe3 _ (by omega)]
            exact hnext2
          have hrd : readU32 cd3.mem (u + 12) = item % 4294967296 := by
            show readU32 (writeU32 (writeU32 cd2.mem (u + 12 + 4 * blockSize cd2 u) item)
              (u + 4) (blockSize cd2 u + 1)) (u + 12) = _
            rw [hsize2]
            rw [readU32_writeU32_of_disjoint _ _ _ _ (by omega)]
            rw [show u + 12 + 4 * 0 = u + 12 from by omega]
            exact readU32_writeU32_same _ _ _
          show arrayItemGo cd3 (fuel + 1 + 2) off n = _
          unfold arrayItemGo
          rw [if_pos ⟨by rw [hnext3off]; exact hnpos, by rw [hsize3off]; omega⟩]
          rw [hnext3off, hsize3off,
            show locOff nloc = u from locOff_makeLoc 5 u (by omega)]
          rw [show n - blockSize cd off = 0 from by omega]
          show arrayItemGo cd3 (fuel + 2) u 0 = _
          unfold arrayItemGo
          rw [if_neg (fun hcon => hcon.1 hnext3u)]
          rw [if_neg (by rw [hsize3u]; omega)]
          rw [show u + 12 + 4 * 0 = u + 12 from by omega, hrd]
      · -- full non-terminal block: step to the next block
        have hnfull : blockSize cd off = blockAlloc cd off := hfull
        have hv' : validChain cd 4 fuel (locOff (blockNext cd off)) = true := by
          unfold validChain at hv
          simp only [Bool.and_eq_true, decide_eq_true_eq] at hv
          rw [if_neg hnx] at hv
          simp only [Bool.and_eq_true, decide_eq_true_eq] at hv
          exact hv.2.2
        have hmono : off + 12 + 4 * blockAlloc cd off ≤ locOff (blockNext cd off) := by
          unfold validChain at hv
          simp only [Bool.and_eq_true, decide_eq_true_eq] at hv
          rw [if_neg hnx] at hv
          simp only [Bool.and_eq_true, decide_eq_true_eq] at hv
          exact hv.2.1.2
        have hta' : termAlloc cd fuel (locOff (blockNext cd off)) = some a := by
          unfold termAlloc at hta
          rw [if_neg hnx] at hta
          exact hta
        obtain ⟨cd', hpush, hframe, hsz, hitem⟩ :=
          ih cd (locOff (blockNext cd off)) a hv' hta' ha h1 hub
        refine ⟨cd', ?_, ?_, ?_, ?_⟩
        · show nfcdPushGo item (fuel + 1 + 1) cd off = some cd'
          unfold nfcdPushGo
          rw [if_pos hfull, if_neg hnx]
          exact hpush
        · intro b hb
          exact hframe b (by omega)
        · intro acc
          have hnx' : blockNext cd' off = blockNext cd off := by
            show readU32 cd'.mem (off + 8) = _
            rw [hframe _ (by omega)]
            rfl
          have hsz' : blockSize cd' off = blockSize cd off := by
            show readU32 cd'.mem (off + 4) = _
            rw [hframe _ (by omega)]
            rfl
          show chainSizeGo cd' (fuel + 1 + 2) off acc = _
          unfold chainSizeGo
          rw [if_neg (by rw [hnx']; exact hnx), if_neg hnx]
          rw [hnx', hsz']
          exact hsz (acc + blockSize cd off)
        · intro acc n hcs
          unfold chainSizeGo at hcs
          rw [if_neg hnx] at hcs
          have hge := chainSizeGo_ge cd (fuel + 2) (locOff (blockNext cd off))
            (acc + blockSize cd off) _ hcs
          have hbs_le : blockSize cd off ≤ n := by omega
          have hcs2 : chainSizeGo cd (fuel + 2) (locOff (blockNext cd off))
              (acc + blockSize cd off) =
              some ((acc + blockSize cd off) + (n - blockSize cd off)) := by
            rw [hcs]
            congr 1
            omega
          have hnx' : blockNext cd' off = blockNext cd off := by
            show readU32 cd'.mem (off + 8) = _
            rw [hframe _ (by omega)]
            rfl
          have hsz2 : blockSize cd' off = blockSize cd off := by
            show readU32 cd'.mem (off + 4) = _
            rw [hframe _ (by omega)]
            rfl
          show arrayItemGo cd' (fuel + 1 + 2) off n = _
          unfold arrayItemGo
          rw [if_pos ⟨by rw [hnx']; exact hnx, by rw [hsz2]; exact hbs_le⟩]
          rw [hnx', hsz2]
          exact hitem (acc + blockSize cd off) (n - blockSize cd off) hcs2
    · -- non-full block: under the chain invariant it is terminal; append
      have hnx : blockNext cd off = 0 := by
        unfold validChain at hv
        simp only [Bool.and_eq_true, decide_eq_true_eq] at hv
        by_contra hne
        rw [if_neg hne] at hv
        simp only [Bool.and_eq_true, decide_eq_true_eq] at hv
        exact hfull hv.2.1.1
      have hslt : blockSize cd off < blockAlloc cd off := by omega
      refine ⟨{ cd with
          mem := writeU32 (writeU32 cd.mem (off + 12 + 4 * blockSize cd off) item)
            (off + 4) (blockSize cd off + 1) }, ?_, ?_, ?_, ?_⟩
      · show nfcdPushGo item (fuel + 1 + 1) cd off = _
        unfold nfcdPushGo
        rw [if_neg hfull]
      · intro b hb
        show readU32 (writeU32 (writeU32 cd.mem (off + 12 + 4 * blockSize cd off) item)
            (off + 4) (blockSize cd off + 1)) b = readU32 cd.mem b
        rw [readU32_writeU32_of_disjoint _ _ _ _ (by omega)]
        rw [readU32_writeU32_of_disjoint _ _ _ _ (by omega)]
      · intro acc
        set cd' : Arena := { cd with
          mem := writeU32 (writeU32 cd.mem (off + 12 + 4 * blockSize cd off) item)
            (off + 4) (blockSize cd off + 1) } with hcd'
        have hsz' : blockSize cd' off = blockSize cd off + 1 := by
          show readU32 cd'.mem (off + 4) = _
          show readU32 (writeU32 (writeU32 cd.mem (off + 12 + 4 * blockSize cd off) item)
            (off + 4) (blockSize cd off + 1)) (off + 4) = _
          rw [readU32_writeU32_same]
          have := readU32_lt cd.mem (off + 4)
          have : blockSize cd off + 1 < 4294967296 := by
            unfold blockSize at hslt ⊢
            omega
          omega
        have hnx' : blockNext cd' off = 0 := by
          show readU32 cd'.mem (off + 8) = 0
          show readU32 (writeU32 (writeU32 cd.mem (off + 12 + 4 * blockSize cd off) item)
            (off + 4) (blockSize cd off + 1)) (off + 8) = 0
          rw [readU32_writeU32_of_disjoint _ _ _ _ (by omega)]
          rw [readU32_writeU32_of_disjoint _ _ _ _ (by omega)]
          exact hnx
        show chainSizeGo cd' (fuel + 1 + 2) off acc = _
        unfold chainSizeGo
        rw [if_pos hnx', if_pos hnx, hsz']
        simp [Option.map_some']
        omega
      · intro acc n hcs
        unfold chainSizeGo at hcs
        rw [if_pos hnx] at hcs
        have hn : n = blockSize cd off := by
          have := Option.some.inj hcs
          omega
        set cd' : Arena := { cd with
          mem := writeU32 (writeU32 cd.mem (off + 12 + 4 * blockSize cd off) item)
            (off + 4) (blockSize cd off + 1) } with hcd'
        have hsz' : blockSize cd' off = blockSize cd off + 1 := by
          show readU32 cd'.mem (off + 4) = _
          show readU32 (writeU32 (writeU32 cd.mem (off + 12 + 4 * blockSize cd off) item)
            (off + 4) (blockSize cd off + 1)) (off + 4) = _
          rw [readU32_writeU32_same]
          have := readU32_lt cd.mem (off + 4)
          have : blockSize cd off + 1 < 4294967296 := by
            unfold blockSize at hslt ⊢
            omega
          omega
        have hnx' : blockNext cd' off = 0 := by
          show readU32 cd'.mem (off + 8) = 0
          show readU32 (writeU32 (writeU32 cd.mem (off + 12 + 4 * blockSize cd off) item)
            (off + 4) (blockSize cd off + 1)) (off + 8) = 0
          rw [readU32_writeU32_of_disjoint _ _ _ _ (by omega)]
          rw [readU32_writeU32_of_disjoint _ _ _ _ (by omega)]
          exact hnx
        show arrayItemGo cd' (fuel + 1 + 2) off n = _
        unfold arrayItemGo
        rw [if_neg (fun hcon => hcon.1 hnx')]
        rw [if_neg (by rw [hsz', hn]; omega)]
        rw [hn]
        show some (readU32 (writeU32 (writeU32 cd.mem
          (off + 12 + 4 * blockSize cd off) item) (off + 4)
          (blockSize cd off + 1)) (off + 12 + 4 * blockSize cd off)) = _
        rw [readU32_writeU32_of_disjoint _ _ _ _ (by omega), readU32_writeU32_same]


/-- **C10** counterexample.  The claim states that `nfcd_push`
terminates for every array whose block chain *contains* a block with
positive allocated capacity.  `cdChain` holds a valid array chain — a
full block of capacity 1 linking to a terminal block of capacity 0 —
that contains a positive-capacity block, yet `nfcd_push` never
terminates on it: the walk reaches the zero-capacity terminal block and
keeps linking fresh blocks of capacity `2 * 0 = 0`. -/
theorem nfcd_push_diverges_despite_positive_capacity_block :
    validChain cdChain 4 2 (locOff arrLocChain) = true ∧
    1 ≤ blockAlloc cdChain (locOff arrLocChain) ∧
    pushDiverges cdChain arrLocChain 7 := by
  refine ⟨by decide, by decide, ?_⟩
  intro fuel
  cases fuel with
  | zero => rfl
  | succ fuel =>
    show nfcdPushGo 7 (fuel + 1) cdChain (locOff arrLocChain) = none
    rw [show locOff arrLocChain = 32 from rfl]
    unfold nfcdPushGo
    rw [if_pos (by decide), if_neg (by decide)]
    rw [show locOff (blockNext cdChain 32) = 48 from by decide]
    apply nfcdPushGo_diverges
    · decide
    · decide
    · decide
    · decide
    · decide

/-- **C10** (amended).  (a) `nfcd_push` terminates — appending the item
and increasing `nfcd_array_size` by exactly one — for every valid array
chain whose **terminal** block has positive allocated capacity; among
valid chains that is exactly what the walk needs, since only the
terminal block can be non-full and a full positive-capacity terminal
receives a fresh tail of twice its capacity.  (b) For an array created
by `nfcd_add_array` with capacity 0, `nfcd_push` never terminates: each
newly linked tail block has capacity `2 * 0 = 0` and the walk never
reaches a non-full block. -/
theorem nfcd_push_termination :
    (∀ (cd : Arena) (arr item a fuel : Nat),
      validChain cd 4 fuel (locOff arr) = true →
      termAlloc cd fuel (locOff arr) = some a → 1 ≤ a →
      1 ≤ cd.allocated_bytes → cd.used_bytes < 536870912 →
      ∃ cd', nfcdPush cd arr item (fuel + 1) = some cd' ∧
        (∀ b, b + 4 ≤ locOff arr → readU32 cd'.mem b = readU32 cd.mem b) ∧
        nfcdArraySize cd' arr (fuel + 2) =
          (nfcdArraySize cd arr (fuel + 2)).map (· + 1) ∧
        (∀ n, nfcdArraySize cd arr (fuel + 2) = some n →
          nfcdArrayItem cd' arr n (fuel + 2) = some (item % 4294967296))) ∧
    (∀ (cd cd₁ : Arena) (arr item : Nat), 1 ≤ cd.allocated_bytes →
      nfcdAddArray cd 0 = some (cd₁, arr) → pushDiverges cd₁ arr item) := by
  constructor
  · intro cd arr item a fuel hv hta ha h1 hub
    obtain ⟨cd', hp, hfr, hsz, hit⟩ :=
      nfcdPushGo_spec item fuel cd (locOff arr) a hv hta ha h1 hub
    refine ⟨cd', hp, hfr, hsz 0, ?_⟩
    intro n hn
    exact hit 0 n (by rw [Nat.zero_add]; exact hn)
  · intro cd cd₁ arr item h1 hadd
    obtain ⟨cdw, hw, hu1, hm1, _, _, _, h11⟩ :=
      nfcdWrite_spec cd 5 ((encodeU32 0 ++ encodeU32 0) ++ encodeU32 0) (0 * 4) h1
    rw [show nfcdAddArray cd 0 =
      nfcdWrite cd 5 ((encodeU32 0 ++ encodeU32 0) ++ encodeU32 0) (0 * 4) from rfl,
      hw] at hadd
    have hcd : cdw = cd₁ := congrArg Prod.fst (Option.some.inj hadd)
    have harr : makeLoc 5 cd.used_bytes = arr := congrArg Prod.snd (Option.some.inj hadd)
    intro fuel
    show nfcdPushGo item fuel cd₁ (locOff arr) = none
    rw [← harr, ← hcd]
    rw [locOff_makeLoc 5 _ (by omega)]
    apply nfcdPushGo_diverges
    · show readU32 cdw.mem cd.used_bytes = 0
      rw [hm1, readU32_hdr_alloc]
    · show readU32 cdw.mem (cd.used_bytes + 4) = 0
      rw [hm1, readU32_hdr_size]
    · show readU32 cdw.mem (cd.used_bytes + 8) = 0
      rw [hm1, readU32_hdr_next]
    · rw [hu1]
      simp [encodeU32]
    · exact h11

theorem nfcd_push_termination_witness :
    ((nfcdPush cdOne (makeLoc 5 32) 9 2).bind fun cd' =>
      nfcdArraySize cd' (makeLoc 5 32) 3) = some 1 ∧
    ((nfcdPush cdOne (makeLoc 5 32) 9 2).bind fun cd' =>
      nfcdArrayItem cd' (makeLoc 5 32) 0 3) = some 9 ∧
    nfcdArraySize cdOne (makeLoc 5 32) 3 = some 0 ∧
    nfcdAddArray cdOne 0 = some c10run ∧
    nfcdPush c10run.1 c10run.2 9 5 = none := by
  obtain ⟨cd', hp, hfr, hsz, hit⟩ := nfcd_push_termination.1 cdOne
    (makeLoc 5 32) 9 1 1
    (by decide) (by decide) (by decide) (by decide) (by decide)
  have hrun : nfcdAddArray cdOne 0 = some c10run := rfl
  refine ⟨?_, ?_, by decide, hrun, ?_⟩
  · rw [hp]
    show nfcdArraySize cd' (makeLoc 5 32) 3 = some 1
    rw [hsz]
    rw [show nfcdArraySize cdOne (makeLoc 5 32) 3 = some 0 from by decide]
    rfl
  · rw [hp]
    show nfcdArrayItem cd' (makeLoc 5 32) 0 3 = some 9
    rw [hit 0 (by decide)]
  · exact nfcd_push_termination.2 cdOne c10run.1 c10run.2 9 (by decide) hrun 5


/-! ## List-view lemmas for object chains -/

theorem length_replaceFirstKey (items : List (Nat × Nat)) (k v : Nat) :
    (replaceFirstKey items k v).length = items.length := by
  induction items with
  | nil => rfl
  | cons p rest ih =>
    unfold replaceFirstKey
    by_cases h : p.1 = k
    · rw [if_pos h]
      rfl
    · rw [if_neg h]
      simp [ih]

theorem specLookup_replaceFirstKey_same (items : List (Nat × Nat)) (k v : Nat)
    (h : hasKey items k = true) :
    specLookup (replaceFirstKey items k v) k = some v := by
  induction items with
  | nil => simp [hasKey] at h
  | cons p rest ih =>
    unfold replaceFirstKey
    by_cases hp : p.1 = k
    · rw [if_pos hp]
      simp [specLookup, List.find?]
    · rw [if_neg hp]
      have h' : hasKey rest k = true := by
        simp [hasKey] at h ⊢
        rcases h with h | h
        · exact absurd h hp
        · exact h
      have := ih h'
      simp only [specLookup, List.find?] at this ⊢
      rw [show (p.1 == k) = false from by simp [hp]]
      exact this

theorem hasKey_append (b1 b2 : List (Nat × Nat)) (k : Nat) :
    hasKey (b1 ++ b2) k = (hasKey b1 k || hasKey b2 k) := by
  simp [hasKey, List.any_append]

theorem specLookup_append_right (b1 b2 : List (Nat × Nat)) (k : Nat)
    (h : hasKey b1 k = false) :
    specLookup (b1 ++ b2) k = specLookup b2 k := by
  induction b1 with
  | nil => simp
  | cons p rest ih =>
    simp only [hasKey, List.any_cons, Bool.or_eq_false_iff] at h
    simp only [specLookup, List.cons_append, List.find?, h.1]
    exact ih (by simp [hasKey, h.2])

theorem specLookup_updateItems (items : List (Nat × Nat)) (k v : Nat) :
    specLookup (updateItems items k v) k = some v := by
  unfold updateItems
  by_cases h : hasKey items k = true
  · rw [if_pos h]
    exact specLookup_replaceFirstKey_same items k v h
  · rw [if_neg h]
    rw [specLookup_append_right _ _ _ (by simpa using h)]
    simp [specLookup, List.find?]

theorem hasKey_replaceFirstKey (items : List (Nat × Nat)) (k v : Nat)
    (h : hasKey items k = true) :
    hasKey (replaceFirstKey items k v) k = true := by
  induction items with
  | nil => simp [hasKey] at h
  | cons p rest ih =>
    unfold replaceFirstKey
    by_cases hp : p.1 = k
    · rw [if_pos hp]
      simp [hasKey]
    · rw [if_neg hp]
      have h' : hasKey rest k = true := by
        simp [hasKey] at h ⊢
        rcases h with h | h
        · exact absurd h hp
        · exact h
      have hr := ih h'
      show hasKey (p :: replaceFirstKey rest k v) k = true
      simp only [hasKey, List.any_cons, Bool.or_eq_true]
      right
      exact hr

theorem hasKey_updateItems (items : List (Nat × Nat)) (k v : Nat) :
    hasKey (updateItems items k v) k = true := by
  unfold updateItems
  by_cases h : hasKey items k = true
  · rw [if_pos h]
    exact hasKey_replaceFirstKey items k v h
  · rw [if_neg h]
    rw [hasKey_append]
    simp [hasKey]

theorem length_updateItems_of_hasKey (items : List (Nat × Nat)) (k v : Nat)
    (h : hasKey items k = true) :
    (updateItems items k v).length = items.length := by
  unfold updateItems
  rw [if_pos h]
  exact length_replaceFirstKey items k v

theorem replaceFirstKey_append_right (b1 b2 : List (Nat × Nat)) (k v : Nat)
    (h : hasKey b1 k = false) :
    replaceFirstKey (b1 ++ b2) k v = b1 ++ replaceFirstKey b2 k v := by
  induction b1 with
  | nil => simp
  | cons p rest ih =>
    simp only [hasKey, List.any_cons, Bool.or_eq_false_iff, beq_eq_false_iff_ne,
      ne_eq] at h
    simp only [List.cons_append]
    rw [show replaceFirstKey (p :: (rest ++ b2)) k v =
      if p.1 = k then (k, v) :: (rest ++ b2)
      else p :: replaceFirstKey (rest ++ b2) k v from rfl]
    rw [if_neg h.1, ih (by simp [hasKey, h.2])]

theorem updateItems_append (b1 b2 : List (Nat × Nat)) (k v : Nat)
    (h : hasKey b1 k = false) :
    updateItems (b1 ++ b2) k v = b1 ++ updateItems b2 k v := by
  unfold updateItems
  rw [hasKey_append, h, Bool.false_or]
  by_cases h2 : hasKey b2 k = true
  · rw [if_pos h2, if_pos h2]
    exact replaceFirstKey_append_right b1 b2 k v h
  · rw [if_neg h2, if_neg h2]
    simp

theorem replaceFirstKey_eq_set (items : List (Nat × Nat)) (k v : Nat) (j : Nat)
    (hj : j < items.length) (hkey : (items.getD j (0, 0)).1 = k)
    (hbefore : ∀ t < j, (items.getD t (0, 0)).1 ≠ k) :
    replaceFirstKey items k v = items.set j (k, v) := by
  induction items generalizing j with
  | nil => simp at hj
  | cons p rest ih =>
    cases j with
    | zero =>
      simp only [List.getD_cons_zero] at hkey
      unfold replaceFirstKey
      rw [if_pos hkey]
      simp
    | succ j =>
      have hp : p.1 ≠ k := by
        have := hbefore 0 (by omega)
        simpa using this
      unfold replaceFirstKey
      rw [if_neg hp]
      simp only [List.set_cons_succ]
      refine congrArg (p :: ·) ?_
      exact ih j (by simpa [Nat.succ_lt_succ_iff] using hj)
        (by simpa using hkey)
        (fun t ht => by
          have := hbefore (t + 1) (by omega)
          simpa using this)


/-! ## Chain-walk congruence and monotonicity lemmas -/

theorem replaceFirstKey_append_left (b1 b2 : List (Nat × Nat)) (k v : Nat)
    (h : hasKey b1 k = true) :
    replaceFirstKey (b1 ++ b2) k v = replaceFirstKey b1 k v ++ b2 := by
  induction b1 with
  | nil => simp [hasKey] at h
  | cons p rest ih =>
    simp only [List.cons_append]
    rw [show replaceFirstKey (p :: (rest ++ b2)) k v =
      if p.1 = k then (k, v) :: (rest ++ b2)
      else p :: replaceFirstKey (rest ++ b2) k v from rfl]
    rw [show replaceFirstKey (p :: rest) k v =
      if p.1 = k then (k, v) :: rest
      else p :: replaceFirstKey rest k v from rfl]
    by_cases hp : p.1 = k
    · rw [if_pos hp, if_pos hp]
      simp
    · rw [if_neg hp, if_neg hp]
      have h' : hasKey rest k = true := by
        simp [hasKey] at h ⊢
        rcases h with h | h
        · exact absurd h hp
        · exact h
      rw [ih h']
      simp

theorem specLookup_none_iff (items : List (Nat × Nat)) (k : Nat) :
    specLookup items k = none ↔ hasKey items k = false := by
  simp [specLookup, hasKey, Option.map_eq_none', List.find?_eq_none, List.any_eq_false]

theorem validChain_mono (cd : Arena) (k : Nat) :
    ∀ fuel off, validChain cd k fuel off = true →
      validChain cd k (fuel + 1) off = true := by
  intro fuel
  induction fuel with
  | zero => intro off h; simp [validChain] at h
  | succ fuel ih =>
    intro off h
    unfold validChain at h ⊢
    simp only [Bool.and_eq_true] at h ⊢
    refine ⟨h.1, ?_⟩
    by_cases hn : blockNext cd off = 0
    · rw [if_pos hn]
    · rw [if_neg hn]
      rw [if_neg hn] at h
      simp only [Bool.and_eq_true] at h ⊢
      exact ⟨h.2.1, ih _ h.2.2⟩

theorem termAlloc_mono (cd : Arena) :
    ∀ fuel off a, termAlloc cd fuel off = some a →
      termAlloc cd (fuel + 1) off = some a := by
  intro fuel
  induction fuel with
  | zero => intro off a h; simp [termAlloc] at h
  | succ fuel ih =>
    intro off a h
    unfold termAlloc at h ⊢
    by_cases hn : blockNext cd off = 0
    · rw [if_pos hn] at h ⊢
      exact h
    · rw [if_neg hn] at h ⊢
      exact ih _ _ h

theorem objItems_mono (cd : Arena) :
    ∀ fuel off items, objItems cd fuel off = some items →
      objItems cd (fuel + 1) off = some items := by
  intro fuel
  induction fuel with
  | zero => intro off items h; simp [objItems] at h
  | succ fuel ih =>
    intro off items h
    unfold objItems at h ⊢
    by_cases hn : blockNext cd off = 0
    · rw [if_pos hn] at h ⊢
      exact h
    · rw [if_neg hn] at h ⊢
      rw [Option.map_eq_some'] at h ⊢
      obtain ⟨t, ht, hc⟩ := h
      exact ⟨t, ih _ _ ht, hc⟩

theorem validChain_congr (cd cd' : Arena) (k lo : Nat)
    (hm : ∀ b, lo ≤ b → readU32 cd'.mem b = readU32 cd.mem b)
    (hu : cd.used_bytes ≤ cd'.used_bytes) :
    ∀ fuel off, lo ≤ off → validChain cd k fuel off = true →
      validChain cd' k fuel off = true := by
  intro fuel
  induction fuel with
  | zero => intro off _ h; simp [validChain] at h
  | succ fuel ih =>
    intro off hlo h
    unfold validChain at h ⊢
    simp only [Bool.and_eq_true, decide_eq_true_eq] at h ⊢
    have hsz : blockSize cd' off = blockSize cd off := hm (off + 4) (by omega)
    have hal : blockAlloc cd' off = blockAlloc cd off := hm off hlo
    have hnx : blockNext cd' off = blockNext cd off := hm (off + 8) (by omega)
    refine ⟨⟨by rw [hsz, hal]; exact h.1.1, by rw [hal]; omega⟩, ?_⟩
    by_cases hn : blockNext cd off = 0
    · rw [hnx, if_pos hn]
    · rw [hnx, if_neg hn]
      rw [if_neg hn] at h
      simp only [Bool.and_eq_true, decide_eq_true_eq] at h ⊢
      obtain ⟨⟨hfull, hmono⟩, hrec⟩ := h.2
      exact ⟨⟨by rw [hsz, hal]; exact hfull, by rw [hal]; exact hmono⟩,
        ih _ (by omega) hrec⟩

theorem blockItems_congr (cd cd' : Arena) (off : Nat)
    (hm : ∀ b, off ≤ b → readU32 cd'.mem b = readU32 cd.mem b) :
    blockItems cd' off = blockItems cd off := by
  unfold blockItems
  have hsz : blockSize cd' off = blockSize cd off := hm (off + 4) (by omega)
  rw [hsz]
  refine List.map_congr_left ?_
  intro j hj
  rw [hm (off + 12 + 8 * j) (by omega), hm (off + 12 + 8 * j + 4) (by omega)]

theorem objItems_congr (cd cd' : Arena) (lo : Nat)
    (hm : ∀ b, lo ≤ b → readU32 cd'.mem b = readU32 cd.mem b) :
    ∀ fuel off, lo ≤ off → validChain cd 8 fuel off = true →
      objItems cd' fuel off = objItems cd fuel off := by
  intro fuel
  induction fuel with
  | zero => intro off _ h; simp [validChain] at h
  | succ fuel ih =>
    intro off hlo h
    unfold validChain at h
    simp only [Bool.and_eq_true, decide_eq_true_eq] at h
    have hnx : blockNext cd' off = blockNext cd off := hm (off + 8) (by omega)
    have hbi : blockItems cd' off = blockItems cd off :=
      blockItems_congr cd cd' off (fun b hb => hm b (by omega))
    unfold objItems
    by_cases hn : blockNext cd off = 0
    · rw [hnx, if_pos hn, if_pos hn, hbi]
    · rw [hnx, if_neg hn, if_neg hn, hbi]
      rw [if_neg hn] at h
      simp only [Bool.and_eq_true, decide_eq_true_eq] at h
      rw [ih (locOff (blockNext cd off)) (by omega) h.2.2]

theorem termAlloc_congr (cd cd' : Arena) (k lo : Nat)
    (hm : ∀ b, lo ≤ b → readU32 cd'.mem b = readU32 cd.mem b) :
    ∀ fuel off, lo ≤ off → validChain cd k fuel off = true →
      termAlloc cd' fuel off = termAlloc cd fuel off := by
  intro fuel
  induction fuel with
  | zero => intro off _ h; simp [validChain] at h
  | succ fuel ih =>
    intro off hlo h
    unfold validChain at h
    simp only [Bool.and_eq_true, decide_eq_true_eq] at h
    have hnx : blockNext cd' off = blockNext cd off := hm (off + 8) (by omega)
    have hal : blockAlloc cd' off = blockAlloc cd off := hm off hlo
    unfold termAlloc
    by_cases hn : blockNext cd off = 0
    · rw [hnx, if_pos hn, if_pos hn, hal]
    · rw [hnx, if_neg hn, if_neg hn]
      rw [if_neg hn] at h
      simp only [Bool.and_eq_true, decide_eq_true_eq] at h
      exact ih (locOff (blockNext cd off)) (by omega) h.2.2


/-! ## Scan lemmas for object blocks -/

theorem blockItems_length (cd : Arena) (off : Nat) :
    (blockItems cd off).length = blockSize cd off := by
  simp [blockItems]

theorem blockItems_getD (cd : Arena) (off j : Nat) (hj : j < blockSize cd off) :
    (blockItems cd off).getD j (0, 0) =
      (readU32 cd.mem (off + 12 + 8 * j), readU32 cd.mem (off + 12 + 8 * j + 4)) := by
  unfold blockItems
  rw [List.getD_eq_getElem _ _ (by simpa using hj)]
  simp

theorem blockTail_zero (cd : Arena) (off : Nat) :
    blockTail cd off 0 (blockSize cd off) = blockItems cd off := by
  unfold blockTail blockItems
  refine List.map_congr_left ?_
  intro t _
  simp

theorem blockTail_succ (cd : Arena) (off j cnt : Nat) :
    blockTail cd off j (cnt + 1) =
      (readU32 cd.mem (off + 12 + 8 * j), readU32 cd.mem (off + 12 + 8 * j + 4)) ::
        blockTail cd off (j + 1) cnt := by
  unfold blockTail
  rw [List.range_succ_eq_map]
  simp only [List.map_cons, Nat.add_zero, List.map_map]
  refine congrArg _ ?_
  refine List.map_congr_left ?_
  intro t _
  have h : j + (t + 1) = j + 1 + t := by omega
  simp only [Function.comp_apply, h]

theorem setLocScan_none_spec (cd : Arena) (off kloc : Nat) :
    ∀ cnt j, setLocScan cd off kloc j cnt = none →
      ∀ t, t < cnt → readU32 cd.mem (off + 12 + 8 * (j + t)) ≠ kloc := by
  intro cnt
  induction cnt with
  | zero => intro j _ t ht; omega
  | succ cnt ih =>
    intro j h t ht
    unfold setLocScan at h
    by_cases hk : readU32 cd.mem (off + 12 + 8 * j) = kloc
    · rw [if_pos hk] at h
      exact absurd h (by simp)
    · rw [if_neg hk] at h
      cases t with
      | zero => simpa using hk
      | succ t =>
        have he : j + (t + 1) = j + 1 + t := by omega
        rw [he]
        exact ih (j + 1) h t (by omega)

theorem setLocScan_some_spec (cd : Arena) (off kloc : Nat) :
    ∀ cnt j p, setLocScan cd off kloc j cnt = some p →
      ∃ t, t < cnt ∧ p = off + 12 + 8 * (j + t) ∧
        readU32 cd.mem (off + 12 + 8 * (j + t)) = kloc ∧
        ∀ u, u < t → readU32 cd.mem (off + 12 + 8 * (j + u)) ≠ kloc := by
  intro cnt
  induction cnt with
  | zero => intro j p h; simp [setLocScan] at h
  | succ cnt ih =>
    intro j p h
    unfold setLocScan at h
    by_cases hk : readU32 cd.mem (off + 12 + 8 * j) = kloc
    · rw [if_pos hk] at h
      refine ⟨0, by omega, ?_, by simpa using hk, ?_⟩
      · rw [← Option.some.inj h]
        simp
      · intro u hu
        omega
    · rw [if_neg hk] at h
      obtain ⟨t, ht, hp, hkt, hbef⟩ := ih (j + 1) p h
      have he : j + 1 + t = j + (t + 1) := by omega
      rw [he] at hp hkt
      refine ⟨t + 1, by omega, hp, hkt, ?_⟩
      intro u hu
      cases u with
      | zero => simpa using hk
      | succ u =>
        have he2 : j + (u + 1) = j + 1 + u := by omega
        rw [he2]
        exact hbef u (by omega)

theorem hasKey_blockItems_of_scan_none (cd : Arena) (off kloc : Nat)
    (h : setLocScan cd off kloc 0 (blockSize cd off) = none) :
    hasKey (blockItems cd off) kloc = false := by
  have hn := setLocScan_none_spec cd off kloc (blockSize cd off) 0 h
  rw [hasKey, List.any_eq_false]
  intro p hp
  simp only [blockItems, List.mem_map, List.mem_range] at hp
  obtain ⟨j, hj, hpe⟩ := hp
  have := hn j hj
  rw [← hpe]
  simpa using this

theorem specLookup_append_some (b t : List (Nat × Nat)) (k v : Nat)
    (h : specLookup b k = some v) : specLookup (b ++ t) k = some v := by
  induction b with
  | nil => simp [specLookup] at h
  | cons p rest ih =>
    unfold specLookup at h ⊢
    rw [List.cons_append]
    by_cases hp : (p.1 == k) = true
    · have h1 : List.find? (fun q => q.1 == k) (p :: rest) = some p :=
        List.find?_cons_of_pos _ hp
      have h2 : List.find? (fun q => q.1 == k) (p :: (rest ++ t)) = some p :=
        List.find?_cons_of_pos _ hp
      rw [h1] at h
      rw [h2]
      exact h
    · have h1 : List.find? (fun q => q.1 == k) (p :: rest) =
          List.find? (fun q => q.1 == k) rest :=
        List.find?_cons_of_neg _ (by simp [hp])
      have h2 : List.find? (fun q => q.1 == k) (p :: (rest ++ t)) =
          List.find? (fun q => q.1 == k) (rest ++ t) :=
        List.find?_cons_of_neg _ (by simp [hp])
      rw [h1] at h
      rw [h2]
      exact ih h

theorem lookupScan_eq_specLookup (cd : Arena) (off kloc : Nat) :
    ∀ cnt j, lookupScan cd off kloc j cnt =
      specLookup (blockTail cd off j cnt) kloc := by
  intro cnt
  induction cnt with
  | zero => intro j; simp [lookupScan, blockTail, specLookup]
  | succ cnt ih =>
    intro j
    rw [blockTail_succ]
    unfold lookupScan
    by_cases hk : readU32 cd.mem (off + 12 + 8 * j) = kloc
    · rw [if_pos hk]
      unfold specLookup
      have h1 : List.find? (fun q => q.1 == kloc)
          ((readU32 cd.mem (off + 12 + 8 * j), readU32 cd.mem (off + 12 + 8 * j + 4)) ::
            blockTail cd off (j + 1) cnt) =
          some (readU32 cd.mem (off + 12 + 8 * j), readU32 cd.mem (off + 12 + 8 * j + 4)) :=
        List.find?_cons_of_pos _ (by simpa using hk)
      rw [h1]
      rfl
    · rw [if_neg hk]
      rw [ih (j + 1)]
      unfold specLookup
      have h1 : List.find? (fun q => q.1 == kloc)
          ((readU32 cd.mem (off + 12 + 8 * j), readU32 cd.mem (off + 12 + 8 * j + 4)) ::
            blockTail cd off (j + 1) cnt) =
          List.find? (fun q => q.1 == kloc) (blockTail cd off (j + 1) cnt) :=
        List.find?_cons_of_neg _ (by simpa using hk)
      rw [h1]

theorem lookupGo_spec (cd : Arena) (kloc : Nat) :
    ∀ fuel off items, objItems cd fuel off = some items →
      lookupGo cd kloc fuel off = some ((specLookup items kloc).getD nfcdNull) := by
  intro fuel
  induction fuel with
  | zero => intro off items h; simp [objItems] at h
  | succ fuel ih =>
    intro off items h
    unfold objItems at h
    unfold lookupGo
    rw [lookupScan_eq_specLookup, blockTail_zero]
    by_cases hn : blockNext cd off = 0
    · rw [if_pos hn] at h
      rw [Option.some.inj h]
      cases hv : specLookup items kloc with
      | none => rw [if_pos hn]; rfl
      | some v => rfl
    · rw [if_neg hn] at h
      rw [Option.map_eq_some'] at h
      obtain ⟨tail, htail, hc⟩ := h
      cases hv : specLookup (blockItems cd off) kloc with
      | some v =>
        have : specLookup items kloc = some v := by
          rw [← hc]
          exact specLookup_append_some _ _ _ _ hv
        rw [this]
        rfl
      | none =>
        rw [if_neg hn, ih _ _ htail, ← hc,
          specLookup_append_right _ _ _ ((specLookup_none_iff _ _).mp hv)]

theorem chainSizeGo_of_objItems (cd : Arena) :
    ∀ fuel off items acc, objItems cd fuel off = some items →
      chainSizeGo cd fuel off acc = some (acc + items.length) := by
  intro fuel
  induction fuel with
  | zero => intro off items acc h; simp [objItems] at h
  | succ fuel ih =>
    intro off items acc h
    unfold objItems at h
    unfold chainSizeGo
    by_cases hn : blockNext cd off = 0
    · rw [if_pos hn] at h ⊢
      rw [← Option.some.inj h, blockItems_length]
    · rw [if_neg hn] at h ⊢
      rw [Option.map_eq_some'] at h
      obtain ⟨tail, htail, hc⟩ := h
      rw [ih _ _ _ htail, ← hc]
      refine congrArg _ ?_
      rw [List.length_append, blockItems_length]
      omega


theorem blockItems_ext (cd cd' : Arena) (off : Nat)
    (hsz : blockSize cd' off = blockSize cd off)
    (hit : ∀ j, j < blockSize cd off →
      readU32 cd'.mem (off + 12 + 8 * j) = readU32 cd.mem (off + 12 + 8 * j) ∧
      readU32 cd'.mem (off + 12 + 8 * j + 4) = readU32 cd.mem (off + 12 + 8 * j + 4)) :
    blockItems cd' off = blockItems cd off := by
  unfold blockItems
  rw [hsz]
  refine List.map_congr_left ?_
  intro j hj
  rw [List.mem_range] at hj
  rw [(hit j hj).1, (hit j hj).2]

theorem hasKey_blockItems_of_scan_some (cd : Arena) (off kloc p : Nat)
    (h : setLocScan cd off kloc 0 (blockSize cd off) = some p) :
    hasKey (blockItems cd off) kloc = true := by
  obtain ⟨t, ht, _, hkt, _⟩ := setLocScan_some_spec cd off kloc _ 0 p h
  rw [Nat.zero_add] at hkt
  rw [hasKey, List.any_eq_true]
  refine ⟨(readU32 cd.mem (off + 12 + 8 * t), readU32 cd.mem (off + 12 + 8 * t + 4)),
    ?_, by simpa using hkt⟩
  simp only [blockItems, List.mem_map, List.mem_range]
  exact ⟨t, ht, rfl⟩

theorem blockItems_overwrite (cd : Arena) (off t v : Nat)
    (ht : t < blockSize cd off) (hv : v < 4294967296) :
    blockItems { cd with mem := writeU32 cd.mem (off + 12 + 8 * t + 4) v } off =
      (blockItems cd off).set t (readU32 cd.mem (off + 12 + 8 * t), v) := by
  have hsz : blockSize { cd with mem := writeU32 cd.mem (off + 12 + 8 * t + 4) v } off =
      blockSize cd off := readU32_writeU32_of_disjoint _ _ _ _ (by omega)
  apply List.ext_getElem
  · simp only [blockItems, List.length_set, List.length_map, List.length_range, hsz]
  · intro j h1 h2
    simp only [blockItems, hsz, List.length_map, List.length_range] at h1 h2 ⊢
    rw [List.getElem_map, List.getElem_range, List.getElem_set, List.getElem_map,
      List.getElem_range]
    by_cases hj : t = j
    · subst hj
      rw [if_pos rfl]
      rw [readU32_writeU32_of_disjoint _ _ _ _ (by omega), readU32_writeU32_same]
      rw [Nat.mod_eq_of_lt hv]
    · rw [if_neg hj]
      rw [readU32_writeU32_of_disjoint _ _ _ _ (by omega),
        readU32_writeU32_of_disjoint _ _ _ _ (by omega)]

theorem blockItems_append_slot (cd : Arena) (off kloc v : Nat)
    (hk : kloc < 4294967296) (hv : v < 4294967296)
    (hsb : blockSize cd off + 1 < 4294967296) :
    blockItems { cd with
        mem := writeU32 (writeU32 (writeU32 cd.mem
          (off + 12 + 8 * blockSize cd off) kloc)
          (off + 12 + 8 * blockSize cd off + 4) v)
          (off + 4) (blockSize cd off + 1) } off =
      blockItems cd off ++ [(kloc, v)] := by
  set s := blockSize cd off with hs
  have hsz : blockSize { cd with
      mem := writeU32 (writeU32 (writeU32 cd.mem
        (off + 12 + 8 * s) kloc) (off + 12 + 8 * s + 4) v)
        (off + 4) (s + 1) } off = s + 1 := by
    show readU32 (writeU32 _ (off + 4) (s + 1)) (off + 4) = s + 1
    rw [readU32_writeU32_same]
    omega
  show blockItems _ off = _
  unfold blockItems
  rw [hsz, List.range_succ, List.map_append, ← hs]
  refine congrArg₂ _ ?_ ?_
  · refine List.map_congr_left ?_
    intro j hj
    rw [List.mem_range] at hj
    rw [readU32_writeU32_of_disjoint _ _ _ _ (by omega),
      readU32_writeU32_of_disjoint _ _ _ _ (by omega),
      readU32_writeU32_of_disjoint _ _ _ _ (by omega),
      readU32_writeU32_of_disjoint _ _ _ _ (by omega),
      readU32_writeU32_of_disjoint _ _ _ _ (by omega),
      readU32_writeU32_of_disjoint _ _ _ _ (by omega)]
  · simp only [List.map_cons, List.map_nil]
    rw [readU32_writeU32_of_disjoint _ _ _ _ (by omega),
      readU32_writeU32_of_disjoint _ _ _ _ (by omega),
      readU32_writeU32_same,
      readU32_writeU32_of_disjoint _ _ _ _ (by omega),
      readU32_writeU32_same]
    rw [Nat.mod_eq_of_lt hk, Nat.mod_eq_of_lt hv]


/-- `nfcd_set_loc` on a valid object chain terminates and acts on the
item list as `updateItems`: it overwrites the first occurrence of the
key or appends a fresh `(key, value)` item, growing the chain by a
doubled block when the terminal block is full. -/
theorem nfcdSetLocGo_spec (kloc v : Nat) (hk : kloc < 4294967296)
    (hvb : v < 4294967296) :
    ∀ (fuel : Nat) (cd : Arena) (off a : Nat) (items : List (Nat × Nat)),
      validChain cd 8 fuel off = true →
      termAlloc cd fuel off = some a → 1 ≤ a →
      objItems cd fuel off = some items →
      1 ≤ cd.allocated_bytes → cd.used_bytes < 536870912 →
      ∃ cd', nfcdSetLocGo kloc v (fuel + 1) cd off = some cd' ∧
        (∀ b, b + 4 ≤ off → readU32 cd'.mem b = readU32 cd.mem b) ∧
        validChain cd' 8 (fuel + 1) off = true ∧
        (∃ a2, termAlloc cd' (fuel + 1) off = some a2 ∧ 1 ≤ a2) ∧
        objItems cd' (fuel + 1) off = some (updateItems items kloc v) ∧
        cd'.st = cd.st ∧ cd'.root = cd.root ∧ 1 ≤ cd'.allocated_bytes ∧
        cd.used_bytes ≤ cd'.used_bytes ∧
        cd'.used_bytes ≤ cd.used_bytes + (12 + 16 * a) := by
  intro fuel
  induction fuel with
  | zero => intro cd off a items hvc _ _ _ _ _; simp [validChain] at hvc
  | succ fuel ih =>
    intro cd off a items hvc hta ha hoi h1 hub
    have hs_le : blockSize cd off ≤ blockAlloc cd off := by
      unfold validChain at hvc
      simp only [Bool.and_eq_true, decide_eq_true_eq] at hvc
      exact hvc.1.1
    have hext : off + 12 + 8 * blockAlloc cd off ≤ cd.used_bytes := by
      unfold validChain at hvc
      simp only [Bool.and_eq_true, decide_eq_true_eq] at hvc
      exact hvc.1.2
    cases hscan : setLocScan cd off kloc 0 (blockSize cd off) with
    | some p =>
      -- the key is in this block: overwrite its value slot in place
      obtain ⟨t, ht, hp, hkt, hbef⟩ := setLocScan_some_spec cd off kloc _ 0 p hscan
      simp only [Nat.zero_add] at hp hkt hbef
      have hkb : hasKey (blockItems cd off) kloc = true :=
        hasKey_blockItems_of_scan_some cd off kloc p hscan
      have hrfk : replaceFirstKey (blockItems cd off) kloc v =
          (blockItems cd off).set t (kloc, v) := by
        refine replaceFirstKey_eq_set _ _ _ t ?_ ?_ ?_
        · rw [blockItems_length]; exact ht
        · rw [blockItems_getD _ _ _ ht]; exact hkt
        · intro u hu
          rw [blockItems_getD _ _ _ (by omega)]
          exact hbef u hu
      set cd' : Arena := { cd with mem := writeU32 cd.mem (p + 4) v } with hcd'
      have hframe : ∀ b, b + 4 ≤ p + 4 ∨ p + 8 ≤ b →
          readU32 cd'.mem b = readU32 cd.mem b := by
        intro b hb
        exact readU32_writeU32_of_disjoint _ _ _ _ (by omega)
      have hsz' : blockSize cd' off = blockSize cd off := hframe (off + 4) (by omega)
      have hal' : blockAlloc cd' off = blockAlloc cd off := hframe off (by omega)
      have hnx' : blockNext cd' off = blockNext cd off := hframe (off + 8) (by omega)
      have hbi : blockItems cd' off = (blockItems cd off).set t (kloc, v) := by
        have hce : cd' = { cd with mem := writeU32 cd.mem (off + 12 + 8 * t + 4) v } := by
          rw [hcd', hp]
        rw [hce, blockItems_overwrite cd off t v ht hvb, hkt]
      by_cases hnx : blockNext cd off = 0
      · -- terminal block
        have hitems : items = blockItems cd off := by
          unfold objItems at hoi
          rw [if_pos hnx] at hoi
          exact (Option.some.inj hoi).symm
        have hAa : blockAlloc cd off = a := by
          unfold termAlloc at hta
          rw [if_pos hnx] at hta
          exact Option.some.inj hta
        refine ⟨cd', ?_, ?_, ?_, ?_, ?_, rfl, rfl, h1, le_rfl,
          by show cd.used_bytes ≤ cd.used_bytes + (12 + 16 * a); omega⟩
        · show nfcdSetLocGo kloc v (fuel + 1 + 1) cd off = some cd'
          unfold nfcdSetLocGo
          simp only [hscan]
        · intro b hb
          exact hframe b (by omega)
        · show validChain cd' 8 (fuel + 1 + 1) off = true
          unfold validChain
          simp only [Bool.and_eq_true, decide_eq_true_eq]
          refine ⟨⟨?_, ?_⟩, ?_⟩
          · rw [hsz', hal']; exact hs_le
          · rw [hal']; exact hext
          · rw [hnx', if_pos hnx]
        · refine ⟨a, ?_, ha⟩
          show termAlloc cd' (fuel + 1 + 1) off = some a
          unfold termAlloc
          rw [hnx', if_pos hnx, hal', hAa]
        · show objItems cd' (fuel + 1 + 1) off = some (updateItems items kloc v)
          unfold objItems
          rw [hnx', if_pos hnx, hbi, hitems]
          unfold updateItems
          rw [if_pos hkb, hrfk]
      · -- the key sits in a full non-terminal block
        have hvc' := hvc
        unfold validChain at hvc'
        simp only [Bool.and_eq_true, decide_eq_true_eq] at hvc'
        rw [if_neg hnx] at hvc'
        simp only [Bool.and_eq_true, decide_eq_true_eq] at hvc'
        have hvtail : validChain cd 8 fuel (locOff (blockNext cd off)) = true := hvc'.2.2
        have hfull : blockSize cd off = blockAlloc cd off := hvc'.2.1.1
        have hmono : off + 12 + 8 * blockAlloc cd off ≤ locOff (blockNext cd off) :=
          hvc'.2.1.2
        have hoi' := hoi
        unfold objItems at hoi'
        rw [if_neg hnx, Option.map_eq_some'] at hoi'
        obtain ⟨tail, htail1, htail2⟩ := hoi'
        have hta' : termAlloc cd fuel (locOff (blockNext cd off)) = some a := by
          unfold termAlloc at hta
          rw [if_neg hnx] at hta
          exact hta
        have hagree : ∀ b, locOff (blockNext cd off) ≤ b →
            readU32 cd'.mem b = readU32 cd.mem b := by
          intro b hb
          exact hframe b (by omega)
        refine ⟨cd', ?_, ?_, ?_, ?_, ?_, rfl, rfl, h1, le_rfl,
          by show cd.used_bytes ≤ cd.used_bytes + (12 + 16 * a); omega⟩
        · show nfcdSetLocGo kloc v (fuel + 1 + 1) cd off = some cd'
          unfold nfcdSetLocGo
          simp only [hscan]
        · intro b hb
          exact hframe b (by omega)
        · show validChain cd' 8 (fuel + 1 + 1) off = true
          unfold validChain
          simp only [Bool.and_eq_true, decide_eq_true_eq]
          refine ⟨⟨by rw [hsz', hal']; exact hs_le, by rw [hal']; exact hext⟩, ?_⟩
          rw [hnx', if_neg hnx]
          simp only [Bool.and_eq_true, decide_eq_true_eq]
          refine ⟨⟨by rw [hsz', hal']; exact hfull, by rw [hal']; exact hmono⟩, ?_⟩
          exact validChain_mono cd' 8 fuel _
            (validChain_congr cd cd' 8 _ hagree le_rfl fuel _ le_rfl hvtail)
        · refine ⟨a, ?_, ha⟩
          show termAlloc cd' (fuel + 1 + 1) off = some a
          unfold termAlloc
          rw [hnx', if_neg hnx]
          refine termAlloc_mono cd' fuel _ _ ?_
          rw [termAlloc_congr cd cd' 8 _ hagree fuel _ le_rfl hvtail]
          exact hta'
        · show objItems cd' (fuel + 1 + 1) off = some (updateItems items kloc v)
          unfold objItems
          rw [hnx', if_neg hnx]
          have hot : objItems cd' (fuel + 1) (locOff (blockNext cd off)) = some tail := by
            refine objItems_mono cd' fuel _ _ ?_
            rw [objItems_congr cd cd' _ hagree fuel _ le_rfl hvtail]
            exact htail1
          rw [hot, Option.map_some', hbi, ← htail2]
          unfold updateItems
          rw [if_pos (by rw [hasKey_append, hkb, Bool.true_or])]
          rw [replaceFirstKey_append_left _ _ _ _ hkb, hrfk]
    | none =>
      have hkb : hasKey (blockItems cd off) kloc = false :=
        hasKey_blockItems_of_scan_none cd off kloc hscan
      by_cases hroom : blockSize cd off < blockAlloc cd off
      · -- room in this block: under the chain invariant it is terminal; append
        have hnx : blockNext cd off = 0 := by
          by_contra hne
          unfold validChain at hvc
          simp only [Bool.and_eq_true, decide_eq_true_eq] at hvc
          rw [if_neg hne] at hvc
          simp only [Bool.and_eq_true, decide_eq_true_eq] at hvc
          have := hvc.2.1.1
          omega
        have hitems : items = blockItems cd off := by
          unfold objItems at hoi
          rw [if_pos hnx] at hoi
          exact (Option.some.inj hoi).symm
        have hAa : blockAlloc cd off = a := by
          unfold termAlloc at hta
          rw [if_pos hnx] at hta
          exact Option.some.inj hta
        have hs1 : blockSize cd off + 1 < 4294967296 := by omega
        set cd' : Arena := { cd with
          mem := writeU32 (writeU32 (writeU32 cd.mem
            (off + 12 + 8 * blockSize cd off) kloc)
            (off + 12 + 8 * blockSize cd off + 4) v)
            (off + 4) (blockSize cd off + 1) } with hcd'
        have hframe : ∀ b, b + 4 ≤ off + 4 →
            readU32 cd'.mem b = readU32 cd.mem b := by
          intro b hb
          show readU32 (writeU32 (writeU32 (writeU32 cd.mem
            (off + 12 + 8 * blockSize cd off) kloc)
            (off + 12 + 8 * blockSize cd off + 4) v)
            (off + 4) (blockSize cd off + 1)) b = readU32 cd.mem b
          rw [readU32_writeU32_of_disjoint _ _ _ _ (by omega),
            readU32_writeU32_of_disjoint _ _ _ _ (by omega),
            readU32_writeU32_of_disjoint _ _ _ _ (by omega)]
        have hsz' : blockSize cd' off = blockSize cd off + 1 := by
          show readU32 (writeU32 (writeU32 (writeU32 cd.mem
            (off + 12 + 8 * blockSize cd off) kloc)
            (off + 12 + 8 * blockSize cd off + 4) v)
            (off + 4) (blockSize cd off + 1)) (off + 4) = blockSize cd off + 1
          rw [readU32_writeU32_same]
          exact Nat.mod_eq_of_lt hs1
        have hal' : blockAlloc cd' off = blockAlloc cd off := hframe off (by omega)
        have hnx' : blockNext cd' off = blockNext cd off := by
          show readU32 (writeU32 (writeU32 (writeU32 cd.mem
            (off + 12 + 8 * blockSize cd off) kloc)
            (off + 12 + 8 * blockSize cd off + 4) v)
            (off + 4) (blockSize cd off + 1)) (off + 8) = readU32 cd.mem (off + 8)
          rw [readU32_writeU32_of_disjoint _ _ _ _ (by omega),
            readU32_writeU32_of_disjoint _ _ _ _ (by omega),
            readU32_writeU32_of_disjoint _ _ _ _ (by omega)]
        have hbi : blockItems cd' off = blockItems cd off ++ [(kloc, v)] := by
          rw [hcd']
          exact blockItems_append_slot cd off kloc v hk hvb hs1
        refine ⟨cd', ?_, ?_, ?_, ?_, ?_, rfl, rfl, h1, le_rfl,
          by show cd.used_bytes ≤ cd.used_bytes + (12 + 16 * a); omega⟩
        · show nfcdSetLocGo kloc v (fuel + 1 + 1) cd off = some cd'
          unfold nfcdSetLocGo
          simp only [hscan]
          rw [if_pos hroom]
        · intro b hb
          exact hframe b (by omega)
        · show validChain cd' 8 (fuel + 1 + 1) off = true
          unfold validChain
          simp only [Bool.and_eq_true, decide_eq_true_eq]
          refine ⟨⟨?_, ?_⟩, ?_⟩
          · rw [hsz', hal']; omega
          · rw [hal']; exact hext
          · rw [hnx', if_pos hnx]
        · refine ⟨a, ?_, ha⟩
          show termAlloc cd' (fuel + 1 + 1) off = some a
          unfold termAlloc
          rw [hnx', if_pos hnx, hal', hAa]
        · show objItems cd' (fuel + 1 + 1) off = some (updateItems items kloc v)
          unfold objItems
          rw [hnx', if_pos hnx, hbi, hitems]
          unfold updateItems
          rw [if_neg (by simp [hkb])]
      · have hfull : blockSize cd off = blockAlloc cd off := by omega
        by_cases hnx : blockNext cd off = 0
        · -- full terminal block: link a fresh object block and append there
          have hitems : items = blockItems cd off := by
            unfold objItems at hoi
            rw [if_pos hnx] at hoi
            exact (Option.some.inj hoi).symm
          have hAa : blockAlloc cd off = a := by
            unfold termAlloc at hta
            rw [if_pos hnx] at hta
            exact Option.some.inj hta
          obtain ⟨cd1, hw, hu1, hm1, hst1, hr1, hle1, h11⟩ :=
            nfcdWrite_spec cd 6
              ((encodeU32 (blockAlloc cd off * 2) ++ encodeU32 0) ++ encodeU32 0)
              (blockAlloc cd off * 2 * 8) h1
          have hpay : ((encodeU32 (blockAlloc cd off * 2) ++ encodeU32 0) ++
              encodeU32 0).length = 12 := by simp [encodeU32]
          set u := cd.used_bytes with hu
          set nloc := makeLoc 6 u with hnloc
          have hOffU : off + 12 ≤ u := by omega
          have hnpos : nloc ≠ 0 := by rw [hnloc]; unfold makeLoc; omega
          have hloff : locOff nloc = u := by
            rw [hnloc]; exact locOff_makeLoc 6 u (by omega)
          set cd2 : Arena := { cd1 with mem := writeU32 cd1.mem (off + 8) nloc } with hcd2
          have halloc2 : blockAlloc cd2 u = blockAlloc cd off * 2 := by
            show readU32 cd2.mem u = _
            rw [show cd2.mem = writeU32 cd1.mem (off + 8) nloc from rfl]
            rw [readU32_writeU32_of_disjoint _ _ _ _ (by omega), hm1]
            rw [readU32_hdr_alloc]
            omega
          have hsize2 : blockSize cd2 u = 0 := by
            show readU32 cd2.mem (u + 4) = 0
            rw [show cd2.mem = writeU32 cd1.mem (off + 8) nloc from rfl]
            rw [readU32_writeU32_of_disjoint _ _ _ _ (by omega), hm1]
            rw [readU32_hdr_size]
          have hnext2 : blockNext cd2 u = 0 := by
            show readU32 cd2.mem (u + 8) = 0
            rw [show cd2.mem = writeU32 cd1.mem (off + 8) nloc from rfl]
            rw [readU32_writeU32_of_disjoint _ _ _ _ (by omega), hm1]
            rw [readU32_hdr_next]
          have hu2 : cd2.used_bytes = u + (12 + blockAlloc cd off * 2 * 8) := by
            show cd1.used_bytes = _
            rw [hu1, hpay]
          set cd3 : Arena := { cd2 with
            mem := writeU32 (writeU32 (writeU32 cd2.mem
              (u + 12 + 8 * blockSize cd2 u) kloc)
              (u + 12 + 8 * blockSize cd2 u + 4) v)
              (u + 4) (blockSize cd2 u + 1) } with hcd3
          have hframe3 : ∀ b, b + 4 ≤ u + 4 → readU32 cd3.mem b = readU32 cd2.mem b := by
            intro b hb
            show readU32 (writeU32 (writeU32 (writeU32 cd2.mem
              (u + 12 + 8 * blockSize cd2 u) kloc)
              (u + 12 + 8 * blockSize cd2 u + 4) v)
              (u + 4) (blockSize cd2 u + 1)) b = readU32 cd2.mem b
            rw [readU32_writeU32_of_disjoint _ _ _ _ (by omega),
              readU32_writeU32_of_disjoint _ _ _ _ (by omega),
              readU32_writeU32_of_disjoint _ _ _ _ (by omega)]
          have hsz3off : blockSize cd3 off = blockSize cd off := by
            show readU32 cd3.mem (off + 4) = readU32 cd.mem (off + 4)
            rw [hframe3 _ (by omega)]
            show readU32 (writeU32 cd1.mem (off + 8) nloc) (off + 4) = _
            rw [readU32_writeU32_of_disjoint _ _ _ _ (by omega), hm1]
            exact readU32_hdr_before _ _ _ _ _ _ _ (by omega)
          have halloc3off : blockAlloc cd3 off = blockAlloc cd off := by
            show readU32 cd3.mem off = readU32 cd.mem off
            rw [hframe3 _ (by omega)]
            show readU32 (writeU32 cd1.mem (off + 8) nloc) off = _
            rw [readU32_writeU32_of_disjoint _ _ _ _ (by omega), hm1]
            exact readU32_hdr_before _ _ _ _ _ _ _ (by omega)
          have hnext3off : blockNext cd3 off = nloc := by
            show readU32 cd3.mem (off + 8) = nloc
            rw [hframe3 _ (by omega)]
            show readU32 (writeU32 cd1.mem (off + 8) nloc) (off + 8) = nloc
            rw [readU32_writeU32_same]
            refine Nat.mod_eq_of_lt ?_
            rw [hnloc]; unfold makeLoc; omega
          have halloc3u : blockAlloc cd3 u = blockAlloc cd off * 2 := by
            show readU32 cd3.mem u = _
            rw [hframe3 _ (by omega)]
            exact halloc2
          have hsize3u : blockSize cd3 u = 1 := by
            show readU32 (writeU32 (writeU32 (writeU32 cd2.mem
              (u + 12 + 8 * blockSize cd2 u) kloc)
              (u + 12 + 8 * blockSize cd2 u + 4) v)
              (u + 4) (blockSize cd2 u + 1)) (u + 4) = 1
            rw [readU32_writeU32_same, hsize2]
          have hnext3u : blockNext cd3 u = 0 := by
            show readU32 (writeU32 (writeU32 (writeU32 cd2.mem
              (u + 12 + 8 * blockSize cd2 u) kloc)
              (u + 12 + 8 * blockSize cd2 u + 4) v)
              (u + 4) (blockSize cd2 u + 1)) (u + 8) = 0
            rw [hsize2]
            rw [readU32_writeU32_of_disjoint _ _ _ _ (by omega),
              readU32_writeU32_of_disjoint _ _ _ _ (by omega),
              readU32_writeU32_of_disjoint _ _ _ _ (by omega)]
            exact hnext2
          have hkey3 : readU32 cd3.mem (u + 12) = kloc := by
            show readU32 (writeU32 (writeU32 (writeU32 cd2.mem
              (u + 12 + 8 * blockSize cd2 u) kloc)
              (u + 12 + 8 * blockSize cd2 u + 4) v)
              (u + 4) (blockSize cd2 u + 1)) (u + 12) = kloc
            rw [hsize2]
            simp only [Nat.mul_zero, Nat.add_zero]
            rw [readU32_writeU32_of_disjoint _ _ _ _ (by omega),
              readU32_writeU32_of_disjoint _ _ _ _ (by omega),
              readU32_writeU32_same]
            exact Nat.mod_eq_of_lt hk
          have hval3 : readU32 cd3.mem (u + 12 + 4) = v := by
            show readU32 (writeU32 (writeU32 (writeU32 cd2.mem
              (u + 12 + 8 * blockSize cd2 u) kloc)
              (u + 12 + 8 * blockSize cd2 u + 4) v)
              (u + 4) (blockSize cd2 u + 1)) (u + 12 + 4) = v
            rw [hsize2]
            simp only [Nat.mul_zero, Nat.add_zero]
            rw [readU32_writeU32_of_disjoint _ _ _ _ (by omega),
              readU32_writeU32_same]
            exact Nat.mod_eq_of_lt hvb
          have hbiu : blockItems cd3 u = [(kloc, v)] := by
            unfold blockItems
            rw [hsize3u]
            simp only [show List.range 1 = [0] from rfl, List.map_cons, List.map_nil,
              Nat.mul_zero, Nat.add_zero]
            rw [hkey3, hval3]
          have hbioff : blockItems cd3 off = blockItems cd off := by
            refine blockItems_ext cd cd3 off hsz3off ?_
            intro j hj
            constructor
            · show readU32 cd3.mem (off + 12 + 8 * j) = readU32 cd.mem (off + 12 + 8 * j)
              rw [hframe3 _ (by omega)]
              show readU32 (writeU32 cd1.mem (off + 8) nloc) (off + 12 + 8 * j) = _
              rw [readU32_writeU32_of_disjoint _ _ _ _ (by omega), hm1]
              exact readU32_hdr_before _ _ _ _ _ _ _ (by omega)
            · show readU32 cd3.mem (off + 12 + 8 * j + 4) =
                readU32 cd.mem (off + 12 + 8 * j + 4)
              rw [hframe3 _ (by omega)]
              show readU32 (writeU32 cd1.mem (off + 8) nloc) (off + 12 + 8 * j + 4) = _
              rw [readU32_writeU32_of_disjoint _ _ _ _ (by omega), hm1]
              exact readU32_hdr_before _ _ _ _ _ _ _ (by omega)
          have hu3 : cd3.used_bytes = u + (12 + blockAlloc cd off * 2 * 8) := hu2
          refine ⟨cd3, ?_, ?_, ?_, ?_, ?_, ?_, ?_, h11, ?_, ?_⟩
          · show nfcdSetLocGo kloc v (fuel + 1 + 1) cd off = some cd3
            unfold nfcdSetLocGo
            simp only [hscan]
            rw [if_neg (by omega), if_pos hnx]
            rw [show nfcdAddObject cd (blockAlloc cd off * 2) = some (cd1, nloc) from hw]
            show nfcdSetLocGo kloc v (fuel + 1) cd2 (locOff nloc) = some cd3
            rw [hloff]
            unfold nfcdSetLocGo
            simp only [show setLocScan cd2 u kloc 0 (blockSize cd2 u) = none from by
              rw [hsize2]; rfl]
            rw [if_pos (by rw [hsize2, halloc2]; omega)]
          · intro b hb
            rw [hframe3 _ (by omega)]
            show readU32 (writeU32 cd1.mem (off + 8) nloc) b = readU32 cd.mem b
            rw [readU32_writeU32_of_disjoint _ _ _ _ (by omega), hm1]
            exact readU32_hdr_before _ _ _ _ _ _ _ (by omega)
          · show validChain cd3 8 (fuel + 1 + 1) off = true
            unfold validChain
            simp only [Bool.and_eq_true, decide_eq_true_eq]
            refine ⟨⟨?_, ?_⟩, ?_⟩
            · rw [hsz3off, halloc3off]; exact hs_le
            · rw [halloc3off, hu3]; omega
            · rw [hnext3off, if_neg hnpos]
              simp only [Bool.and_eq_true, decide_eq_true_eq]
              refine ⟨⟨?_, ?_⟩, ?_⟩
              · rw [hsz3off, halloc3off]; exact hfull
              · rw [halloc3off, hloff]; omega
              · rw [hloff]
                unfold validChain
                simp only [Bool.and_eq_true, decide_eq_true_eq]
                refine ⟨⟨?_, ?_⟩, ?_⟩
                · rw [hsize3u, halloc3u]; omega
                · rw [halloc3u, hu3]; omega
                · rw [if_pos hnext3u]
          · refine ⟨blockAlloc cd off * 2, ?_, by omega⟩
            show termAlloc cd3 (fuel + 1 + 1) off = some (blockAlloc cd off * 2)
            unfold termAlloc
            rw [hnext3off, if_neg hnpos, hloff]
            unfold termAlloc
            rw [if_pos hnext3u, halloc3u]
          · show objItems cd3 (fuel + 1 + 1) off = some (updateItems items kloc v)
            unfold objItems
            rw [hnext3off, if_neg hnpos, hloff]
            rw [show objItems cd3 (fuel + 1) u = some (blockItems cd3 u) from by
              unfold objItems; rw [if_pos hnext3u]]
            rw [Option.map_some', hbiu, hbioff, hitems]
            unfold updateItems
            rw [if_neg (by simp [hkb])]
          · exact hst1
          · exact hr1
          · rw [hu3]; omega
          · rw [hu3]; omega
        · -- full non-terminal block: continue in the next block
          have hvc' := hvc
          unfold validChain at hvc'
          simp only [Bool.and_eq_true, decide_eq_true_eq] at hvc'
          rw [if_neg hnx] at hvc'
          simp only [Bool.and_eq_true, decide_eq_true_eq] at hvc'
          have hvtail : validChain cd 8 fuel (locOff (blockNext cd off)) = true := hvc'.2.2
          have hmono : off + 12 + 8 * blockAlloc cd off ≤ locOff (blockNext cd off) :=
            hvc'.2.1.2
          have hoi2 := hoi
          unfold objItems at hoi2
          rw [if_neg hnx, Option.map_eq_some'] at hoi2
          obtain ⟨tail, htail1, htail2⟩ := hoi2
          have hta' : termAlloc cd fuel (locOff (blockNext cd off)) = some a := by
            unfold termAlloc at hta
            rw [if_neg hnx] at hta
            exact hta
          obtain ⟨cd', hgo, hfr, hvcr, ⟨a2, hta2, ha2⟩, hoir, hstr, hrootr, h1r, huler, hubr⟩ :=
            ih cd (locOff (blockNext cd off)) a tail hvtail hta' ha htail1 h1 hub
          have hsz' : blockSize cd' off = blockSize cd off := hfr (off + 4) (by omega)
          have hal' : blockAlloc cd' off = blockAlloc cd off := hfr off (by omega)
          have hnx' : blockNext cd' off = blockNext cd off := hfr (off + 8) (by omega)
          refine ⟨cd', ?_, ?_, ?_, ⟨a2, ?_, ha2⟩, ?_, hstr, hrootr, h1r, huler, hubr⟩
          · show nfcdSetLocGo kloc v (fuel + 1 + 1) cd off = some cd'
            unfold nfcdSetLocGo
            simp only [hscan]
            rw [if_neg (by omega), if_neg hnx]
            exact hgo
          · intro b hb
            exact hfr b (by omega)
          · show validChain cd' 8 (fuel + 1 + 1) off = true
            unfold validChain
            simp only [Bool.and_eq_true, decide_eq_true_eq]
            refine ⟨⟨by rw [hsz', hal']; exact hs_le, by rw [hal']; omega⟩, ?_⟩
            rw [hnx', if_neg hnx]
            simp only [Bool.and_eq_true, decide_eq_true_eq]
            refine ⟨⟨by rw [hsz', hal']; exact hfull, by rw [hal']; exact hmono⟩, ?_⟩
            exact hvcr
          · show termAlloc cd' (fuel + 1 + 1) off = some a2
            unfold termAlloc
            rw [hnx', if_neg hnx]
            exact hta2
          · show objItems cd' (fuel + 1 + 1) off = some (updateItems items kloc v)
            unfold objItems
            rw [hnx', if_neg hnx, hoir, Option.map_some']
            have hbi : blockItems cd' off = blockItems cd off := by
              refine blockItems_ext cd cd' off hsz' ?_
              intro j hj
              exact ⟨hfr _ (by omega), hfr _ (by omega)⟩
            rw [hbi, show items = blockItems cd off ++ tail from htail2.symm]
            rw [updateItems_append _ _ _ _ hkb]


/-! ## Interning and `nfst_to_symbol_const`: the key of `nfcd_set` is
found again by `nfcd_object_lookup` -/

theorem strcmpEq_writeBytes_self (s : List Nat) : ∀ (m : Nat → Nat) (off : Nat),
    strcmpEq (writeBytes m off (s ++ [0])) off s = true := by
  induction s with
  | nil =>
    intro m off
    show (writeBytes m off [0] off == 0) = true
    rw [writeBytes_apply]
    simp
  | cons b bs ih =>
    intro m off
    have hw : writeBytes m off ((b :: bs) ++ [0]) =
        writeBytes (updB m off b) (off + 1) (bs ++ [0]) := rfl
    show strcmpEq (writeBytes m off ((b :: bs) ++ [0])) off (b :: bs) = true
    unfold strcmpEq
    have hv : writeBytes m off ((b :: bs) ++ [0]) off = b := by
      rw [hw, writeBytes_apply, if_neg (by omega)]
      simp [updB]
    by_cases hb : b = 0
    · rw [if_pos hb, hv, hb]
      simp
    · rw [if_neg hb, hv, hw]
      simp only [Bool.and_eq_true, beq_self_eq_true, true_and]
      exact ih (updB m off b) (off + 1)

theorem strcmpEq_congr (m m2 : Nat → Nat) (sb : Nat)
    (hagree : ∀ j, j < sb → m2 j = m j) (hnul : m (sb - 1) = 0) :
    ∀ (s : List Nat) (off : Nat), off < sb → strcmpEq m2 off s = strcmpEq m off s := by
  intro s
  induction s with
  | nil =>
    intro off hoff
    show (m2 off == 0) = (m off == 0)
    rw [hagree off hoff]
  | cons b bs ih =>
    intro off hoff
    unfold strcmpEq
    by_cases hb : b = 0
    · rw [if_pos hb, if_pos hb, hagree off hoff]
    · rw [if_neg hb, if_neg hb, hagree off hoff]
      by_cases hm : m off = b
      · have hoff1 : off + 1 < sb := by
          rcases Nat.lt_or_ge (off + 1) sb with h | h
          · exact h
          · have he : off = sb - 1 := by omega
            rw [he, hnul] at hm
            exact absurd hm.symm hb
        rw [ih (off + 1) hoff1]
      · have h1 : (m off == b) = false := by simp [hm]
        rw [h1, Bool.false_and, Bool.false_and]

theorem probeLoop_after_insert (slots : Nat → Nat) (n : Nat) (strs strs2 : Nat → Nat)
    (s : List Nat) (e sv : Nat) (hsv : sv ≠ 0)
    (hmatch : strcmpEq strs2 sv s = true)
    (hkeep : ∀ i', i' < n → slots i' ≠ 0 →
      strcmpEq strs2 (slots i') s = strcmpEq strs (slots i') s) :
    ∀ fuel i, i < n → probeLoop slots n strs s i fuel = some (Sum.inr e) →
      probeLoop (updB slots e sv) n strs2 s i fuel = some (Sum.inl sv) := by
  intro fuel
  induction fuel with
  | zero => intro i _ h; simp [probeLoop] at h
  | succ fuel ih =>
    intro i hi h
    have he0 : slots e = 0 := (probeLoop_inr h hi).2
    unfold probeLoop at h ⊢
    by_cases h0 : slots i = 0
    · rw [if_pos h0] at h
      have he : e = i := by
        have := Option.some.inj h
        exact (Sum.inr.inj this).symm
      subst he
      rw [if_neg (by simp [updB, hsv]), if_pos (by simp [updB]; exact hmatch)]
      simp [updB]
    · rw [if_neg h0] at h
      have hne : e ≠ i := fun hei => h0 (hei ▸ he0)
      have hslot : updB slots e sv i = slots i := by simp [updB, hne.symm]
      by_cases hc : strcmpEq strs (slots i) s = true
      · rw [if_pos hc] at h
        exact absurd (Option.some.inj h) (by simp)
      · rw [if_neg hc] at h
        rw [if_neg (by rw [hslot]; exact h0)]
        rw [if_neg (by rw [hslot, hkeep i hi h0]; exact hc)]
        exact ih ((i + 1) % n) (Nat.mod_lt _ (by omega)) h

/-- After a successful `nfst_to_symbol` (on a table whose string block
is not at the one truncating value, exactly 65536 used bytes, and whose
offsets fit the `loc << 3` packing), `nfst_to_symbol_const` finds the
returned symbol again.  A 16-bit table with more than 65536 used bytes
is rejected by the `symbol > 64*1024` check, and below 65536 the
`uint16_t` store is exact, so only the single boundary value is
excluded; 32-bit tables of any size are covered. -/
theorem toSymbolConst_after (st st' : StrTab) (s : List Nat) (sym : Nat)
    (hwf : WF st) (hne : st.string_bytes ≠ 65536)
    (hb : st.string_bytes + (s.length + 1) ≤ 536870912)
    (h : nfstToSymbol st s = some (st', .sym sym)) :
    nfstToSymbolConst st' s = some (some sym) ∧ sym < 536870912 := by
  have hn : 0 < st.num_hash_slots := hwf.nslots_pos
  have hsb := hwf.sb_pos
  have hi0 : strHash s % st.num_hash_slots < st.num_hash_slots := Nat.mod_lt _ hn
  unfold nfstToSymbol at h
  by_cases hh : s.headD 0 = 0
  · rw [if_pos hh] at h
    have hpair := Option.some.inj h
    have hst : st = st' := congrArg Prod.fst hpair
    have hsym : sym = 0 := (SymRes.sym.inj (congrArg Prod.snd hpair)).symm
    unfold nfstToSymbolConst
    rw [if_pos hh, hsym]
    exact ⟨rfl, by omega⟩
  · rw [if_neg hh] at h
    cases hpl : probeLoop st.slots st.num_hash_slots st.strs s
        (strHash s % st.num_hash_slots) st.num_hash_slots with
    | none => rw [hpl] at h; exact absurd h (by simp)
    | some r =>
      cases r with
      | inl v =>
        simp only [hpl] at h
        have hpair := Option.some.inj h
        have hst : st = st' := congrArg Prod.fst hpair
        have hsym : sym = v := (SymRes.sym.inj (congrArg Prod.snd hpair)).symm
        constructor
        · unfold nfstToSymbolConst
          rw [if_neg hh, ← hst]
          simp only [hpl]
          rw [hsym]
        · obtain ⟨j, hj, hjv, hjne, _⟩ := probeLoop_inl hpl hi0
          have := hwf.slotsLt j hj hjne
          omega
      | inr i =>
        simp only [hpl] at h
        by_cases hc1 : st.count + 1 ≥ st.num_hash_slots
        · rw [if_pos hc1] at h; exact absurd h (by simp)
        · rw [if_neg hc1] at h
          by_cases hc2 : st.num_hash_slots < 2 * (st.count + 1)
          · rw [if_pos hc2] at h; exact absurd h (by simp)
          · rw [if_neg hc2] at h
            by_cases hc3 : (st.string_bytes : Int) + s.length + 1 > availStringBytes st
            · rw [if_pos hc3] at h; exact absurd h (by simp)
            · rw [if_neg hc3] at h
              have hmod32 : st.string_bytes % 4294967296 = st.string_bytes :=
                Nat.mod_eq_of_lt (by omega)
              have hkey : st' = insertStr st i st.string_bytes s ∧
                  sym = st.string_bytes := by
                by_cases hc4 : st.uses16 = true
                · by_cases hb16 : st.string_bytes > 65536
                  · rw [if_pos hc4, if_pos hb16] at h
                    exact absurd h (by simp)
                  · have hmod16 : st.string_bytes % 65536 = st.string_bytes :=
                      Nat.mod_eq_of_lt (by omega)
                    rw [if_pos hc4, if_neg hb16] at h
                    have hpair := Option.some.inj h
                    have h1 : insertStr st i (st.string_bytes % 65536) s = st' :=
                      congrArg Prod.fst hpair
                    have h2 : SymRes.sym st.string_bytes = SymRes.sym sym :=
                      congrArg Prod.snd hpair
                    exact ⟨by rw [← h1, hmod16], (SymRes.sym.inj h2).symm⟩
                · rw [if_neg hc4] at h
                  have hpair := Option.some.inj h
                  have h1 : insertStr st i (st.string_bytes % 4294967296) s = st' :=
                    congrArg Prod.fst hpair
                  have h2 : SymRes.sym st.string_bytes = SymRes.sym sym :=
                    congrArg Prod.snd hpair
                  exact ⟨by rw [← h1, hmod32], (SymRes.sym.inj h2).symm⟩
              obtain ⟨hst', hsym⟩ := hkey
              subst hst'
              subst hsym
              refine ⟨?_, by omega⟩
              unfold nfstToSymbolConst
              rw [if_neg hh]
              have hmatch : strcmpEq (writeBytes st.strs st.string_bytes (s ++ [0]))
                  st.string_bytes s = true :=
                strcmpEq_writeBytes_self s st.strs st.string_bytes
              have hkeep : ∀ i', i' < st.num_hash_slots → st.slots i' ≠ 0 →
                  strcmpEq (writeBytes st.strs st.string_bytes (s ++ [0]))
                      (st.slots i') s =
                    strcmpEq st.strs (st.slots i') s := by
                intro i' hi' hne
                refine strcmpEq_congr st.strs _ st.string_bytes ?_ hwf.lastNul s _
                  (hwf.slotsLt i' hi' hne)
                intro j hj
                rw [writeBytes_apply, if_neg (by omega)]
              have hprobe2 := probeLoop_after_insert st.slots st.num_hash_slots st.strs
                (writeBytes st.strs st.string_bytes (s ++ [0])) s i st.string_bytes
                (by omega) hmatch hkeep st.num_hash_slots
                (strHash s % st.num_hash_slots) hi0 hpl
              simp only [insertStr, hprobe2]

/-- A key that `nfst_to_symbol_const` finds is returned unchanged (and
without touching the table) by `nfst_to_symbol`. -/
theorem toSymbol_of_const_found (st : StrTab) (s : List Nat) (sym : Nat)
    (h : nfstToSymbolConst st s = some (some sym)) :
    nfstToSymbol st s = some (st, .sym sym) := by
  unfold nfstToSymbolConst at h
  unfold nfstToSymbol
  by_cases hh : s.headD 0 = 0
  · rw [if_pos hh] at h ⊢
    have h0 : (0 : Nat) = sym := Option.some.inj (Option.some.inj h)
    rw [← h0]
  · rw [if_neg hh] at h ⊢
    cases hpl : probeLoop st.slots st.num_hash_slots st.strs s
        (strHash s % st.num_hash_slots) st.num_hash_slots with
    | none => rw [hpl] at h; exact absurd h (by simp)
    | some r =>
      cases r with
      | inl v =>
        simp only [hpl] at h ⊢
        have hv : v = sym := Option.some.inj (Option.some.inj h)
        rw [hv]
      | inr i =>
        simp only [hpl] at h
        exact absurd h (by simp)

/-- `nfcd_add_string` (with its grow-and-retry loop) only changes the
string table: the returned loc is a STRING loc whose symbol
`nfst_to_symbol_const` finds in the new table, and the data section is
untouched. -/
theorem nfcdAddString_spec (s : List Nat) :
    ∀ (gf : Nat) (cd cd1 : Arena) (kloc : Nat),
      nfcdAddString s gf cd = some (cd1, kloc) → WF cd.st →
      cd.st.string_bytes ≠ 65536 →
      cd.st.string_bytes + (s.length + 1) ≤ 536870912 →
      ∃ sym, sym < 536870912 ∧ kloc = makeLoc 4 sym ∧
        nfstToSymbolConst cd1.st s = some (some sym) ∧
        cd1.mem = cd.mem ∧ cd1.used_bytes = cd.used_bytes ∧
        cd1.allocated_bytes = cd.allocated_bytes ∧ cd1.root = cd.root := by
  intro gf
  induction gf with
  | zero => intro cd cd1 kloc h _ _ _; simp [nfcdAddString] at h
  | succ gf ih =>
    intro cd cd1 kloc h hwf hne hb
    unfold nfcdAddString at h
    cases hts : nfstToSymbol cd.st s with
    | none => rw [hts] at h; exact absurd h (by simp)
    | some pr =>
      obtain ⟨st', r⟩ := pr
      cases r with
      | sym v =>
        simp only [hts] at h
        have hpair := Option.some.inj h
        have hcd1 : { cd with st := st' } = cd1 := congrArg Prod.fst hpair
        have hkl : makeLoc 4 v = kloc := congrArg Prod.snd hpair
        obtain ⟨hc, hv16⟩ := toSymbolConst_after cd.st st' s v hwf hne hb hts
        refine ⟨v, hv16, hkl.symm, ?_, ?_, ?_, ?_, ?_⟩
        · rw [← hcd1]; exact hc
        · rw [← hcd1]
        · rw [← hcd1]
        · rw [← hcd1]
        · rw [← hcd1]
      | full =>
        simp only [hts] at h
        cases hg : nfstGrow cd.st ((cd.total_bytes - cd.allocated_bytes) * 2) with
        | none => rw [hg] at h; exact absurd h (by simp)
        | some stg =>
          simp only [hg] at h
          obtain ⟨hwfg, hstrs, hsbg⟩ := nfstGrow_WF hwf hg
          obtain ⟨sym, h1s, h2s, h3s, hm, hu, hab, hr⟩ :=
            ih _ cd1 kloc h hwfg (by rw [hsbg]; exact hne)
              (by rw [hsbg]; exact hb)
          exact ⟨sym, h1s, h2s, h3s, hm, hu, hab, hr⟩

/-- A second `nfcd_add_string` of an already-interned string returns the
same loc and leaves the arena unchanged. -/
theorem nfcdAddString_found (s : List Nat) (cd : Arena) (sym : Nat) (gf : Nat)
    (hc : nfstToSymbolConst cd.st s = some (some sym)) :
    nfcdAddString s (gf + 1) cd = some (cd, makeLoc 4 sym) := by
  unfold nfcdAddString
  rw [toSymbol_of_const_found cd.st s sym hc]


/-- `nfst_init` establishes the string-table invariant. -/
theorem nfstInit_WF (bytes avg : Nat) : WF (nfstInit bytes avg) := by
  constructor
  · exact Nat.le_max_right _ 1
  · exact le_rfl
  · rfl
  · rfl
  · intro i _ hne
    exact absurd rfl hne


/-- C5: for an object chain with positive terminal capacity, on any
string table whose used string bytes are not exactly 65536 (the one
value at which a 16-bit slot store truncates to the empty marker; 16-bit
tables beyond it are rejected as FULL, 32-bit tables of any size are
fine) and whose offsets fit the `loc << 3` packing,
`nfcd_set(o, k, v)` makes `nfcd_object_lookup(o, k)` return `v`, and a
second `nfcd_set(o, k, v2)` leaves `nfcd_object_size(o)` unchanged while
making the lookup return `v2` (the overwrite never appends a new
entry). -/
theorem nfcd_set_object_lookup_overwrite
    (cd cd1 : Arena) (obj kloc : Nat) (key : List Nat) (v v2 : Nat)
    (fuel a : Nat) (items : List (Nat × Nat)) (gf gf2 : Nat)
    (hwf : WF cd.st)
    (hne : cd.st.string_bytes ≠ 65536)
    (hb : cd.st.string_bytes + (key.length + 1) ≤ 536870912)
    (hadd : nfcdAddString key gf cd = some (cd1, kloc))
    (hvc : validChain cd 8 fuel (locOff obj) = true)
    (hta : termAlloc cd fuel (locOff obj) = some a) (ha : 1 ≤ a)
    (hoi : objItems cd fuel (locOff obj) = some items)
    (h1 : 1 ≤ cd.allocated_bytes)
    (hub : cd.used_bytes + (12 + 16 * a) < 536870912)
    (hv : v < 4294967296) (hv2 : v2 < 4294967296) :
    ∃ cd2 cd3,
      nfcdSet cd obj key v gf (fuel + 1) = some cd2 ∧
      nfcdObjectLookup cd2 obj key (fuel + 1) = some v ∧
      nfcdSet cd2 obj key v2 (gf2 + 1) (fuel + 1 + 1) = some cd3 ∧
      nfcdObjectLookup cd3 obj key (fuel + 1 + 1) = some v2 ∧
      nfcdObjectSize cd3 obj (fuel + 1 + 1) = nfcdObjectSize cd2 obj (fuel + 1 + 1) := by
  obtain ⟨sym, hsym16, hklv, hconst, hm1, hu1, hab1, hr1⟩ :=
    nfcdAddString_spec key gf cd cd1 kloc hadd hwf hne hb
  have hk32 : kloc < 4294967296 := by rw [hklv]; unfold makeLoc; omega
  have hvc1 : validChain cd1 8 fuel (locOff obj) = true :=
    validChain_congr cd cd1 8 0 (fun b _ => by rw [hm1]) (le_of_eq hu1.symm) fuel
      (locOff obj) (Nat.zero_le _) hvc
  have hta1 : termAlloc cd1 fuel (locOff obj) = some a := by
    rw [termAlloc_congr cd cd1 8 0 (fun b _ => by rw [hm1]) fuel (locOff obj)
      (Nat.zero_le _) hvc]
    exact hta
  have hoi1 : objItems cd1 fuel (locOff obj) = some items := by
    rw [objItems_congr cd cd1 0 (fun b _ => by rw [hm1]) fuel (locOff obj)
      (Nat.zero_le _) hvc]
    exact hoi
  obtain ⟨cd2, hgo2, hfr2, hvc2, ⟨a2, hta2, ha2⟩, hoi2, hst2, hroot2, h12, hule2, hub2u⟩ :=
    nfcdSetLocGo_spec kloc v hk32 hv fuel cd1 (locOff obj) a items hvc1 hta1 ha hoi1
      (by rw [hab1]; exact h1) (by rw [hu1]; omega)
  have hconst2 : nfstToSymbolConst cd2.st key = some (some sym) := by
    rw [hst2]; exact hconst
  have hadd2 : nfcdAddString key (gf2 + 1) cd2 = some (cd2, makeLoc 4 sym) :=
    nfcdAddString_found key cd2 sym gf2 hconst2
  obtain ⟨cd3, hgo3, hfr3, hvc3, ⟨a3, hta3, ha3⟩, hoi3, hst3, hroot3, h13, hule3, hub3u⟩ :=
    nfcdSetLocGo_spec kloc v2 hk32 hv2 (fuel + 1) cd2 (locOff obj) a2
      (updateItems items kloc v) hvc2 hta2 ha2 hoi2 h12 (by omega)
  have hconst3 : nfstToSymbolConst cd3.st key = some (some sym) := by
    rw [hst3]; exact hconst2
  refine ⟨cd2, cd3, ?_, ?_, ?_, ?_, ?_⟩
  · unfold nfcdSet
    simp only [hadd]
    exact hgo2
  · unfold nfcdObjectLookup
    simp only [hconst2]
    rw [show makeLoc 4 sym = kloc from hklv.symm]
    rw [lookupGo_spec cd2 kloc (fuel + 1) (locOff obj) (updateItems items kloc v) hoi2,
      specLookup_updateItems]
    rfl
  · unfold nfcdSet
    simp only [hadd2]
    rw [show makeLoc 4 sym = kloc from hklv.symm]
    exact hgo3
  · unfold nfcdObjectLookup
    simp only [hconst3]
    rw [show makeLoc 4 sym = kloc from hklv.symm]
    rw [lookupGo_spec cd3 kloc (fuel + 1 + 1) (locOff obj)
      (updateItems (updateItems items kloc v) kloc v2) hoi3,
      specLookup_updateItems]
    rfl
  · show chainSizeGo cd3 (fuel + 1 + 1) (locOff obj) 0 =
      chainSizeGo cd2 (fuel + 1 + 1) (locOff obj) 0
    rw [chainSizeGo_of_objItems cd3 (fuel + 1 + 1) (locOff obj) _ 0 hoi3,
      chainSizeGo_of_objItems cd2 (fuel + 1 + 1) (locOff obj) _ 0
        (objItems_mono cd2 (fuel + 1) (locOff obj) _ hoi2)]
    refine congrArg _ ?_
    refine congrArg _ ?_
    exact length_updateItems_of_hasKey _ _ _ (hasKey_updateItems items kloc v)

/-- C5 witness: on a concrete empty 1-slot object, set `"k" := 7`, look
it up, overwrite with `9`, and observe the unchanged size. -/
theorem nfcd_set_object_lookup_overwrite_witness :
    ∃ cd2 cd3,
      nfcdSet cdObj (makeLoc 6 32) [107] 7 5 (1 + 1) = some cd2 ∧
      nfcdObjectLookup cd2 (makeLoc 6 32) [107] (1 + 1) = some 7 ∧
      nfcdSet cd2 (makeLoc 6 32) [107] 9 (0 + 1) (1 + 1 + 1) = some cd3 ∧
      nfcdObjectLookup cd3 (makeLoc 6 32) [107] (1 + 1 + 1) = some 9 ∧
      nfcdObjectSize cd3 (makeLoc 6 32) (1 + 1 + 1) =
        nfcdObjectSize cd2 (makeLoc 6 32) (1 + 1 + 1) :=
  nfcd_set_object_lookup_overwrite cdObj c5run.1 (makeLoc 6 32) c5run.2 [107] 7 9
    1 1 [] 5 0 (nfstInit_WF 8192 15) (by decide) (by decide) rfl (by decide)
    (by decide) (by decide) (by decide) (by decide) (by decide) (by decide)
    (by decide)

/-- At the 16-bit 64 KiB boundary the `nfcd_set`/`nfcd_object_lookup`
contract breaks: interning the key truncates its hash slot to the empty
marker, so the lookup right after the set answers `nfcd_null`, not the
stored value. -/
theorem nfcd_set_lookup_fails_at_16bit_boundary :
    nfcdSet cdBoundary (makeLoc 6 32) [120] 7 1 2 = some c5bad ∧
    nfcdObjectLookup c5bad (makeLoc 6 32) [120] 2 = some nfcdNull ∧
    nfcdNull ≠ 7 := by
  refine ⟨rfl, ?_, by decide⟩
  decide


/-! ## Claim C3: reads after copying the whole buffer -/

theorem readU32_congr_lt (m m2 : Nat → Nat) (t b : Nat)
    (hm : ∀ i, i < t → m2 i = m i) (hb : b + 4 ≤ t) :
    readU32 m2 b = readU32 m b := by
  unfold readU32
  rw [hm b (by omega), hm (b + 1) (by omega), hm (b + 2) (by omega),
    hm (b + 3) (by omega)]

theorem readBytes_congr (m m2 : Nat → Nat) (t a n : Nat)
    (hm : ∀ i, i < t → m2 i = m i) (hb : a + n ≤ t) :
    readBytes m2 a n = readBytes m a n := by
  unfold readBytes
  refine List.map_congr_left ?_
  intro j hj
  rw [List.mem_range] at hj
  rw [hm (a + j) (by omega)]

theorem chainSizeGo_congr_hi (cd cd' : Arena) (k : Nat)
    (hm : ∀ b, b + 4 ≤ cd.used_bytes → readU32 cd'.mem b = readU32 cd.mem b) :
    ∀ fuel off acc, validChain cd k fuel off = true →
      chainSizeGo cd' fuel off acc = chainSizeGo cd fuel off acc := by
  intro fuel
  induction fuel with
  | zero => intro off acc h; rfl
  | succ fuel ih =>
    intro off acc h
    unfold validChain at h
    simp only [Bool.and_eq_true, decide_eq_true_eq] at h
    have hext := h.1.2
    have hn' : blockNext cd' off = blockNext cd off := hm (off + 8) (by omega)
    have hs' : blockSize cd' off = blockSize cd off := hm (off + 4) (by omega)
    unfold chainSizeGo
    rw [hn', hs']
    by_cases hn : blockNext cd off = 0
    · rw [if_pos hn, if_pos hn]
    · rw [if_neg hn, if_neg hn]
      rw [if_neg hn] at h
      simp only [Bool.and_eq_true, decide_eq_true_eq] at h
      exact ih _ _ h.2.2

theorem arrayItemGo_congr_hi (cd cd' : Arena)
    (hm : ∀ b, b + 4 ≤ cd.used_bytes → readU32 cd'.mem b = readU32 cd.mem b) :
    ∀ fuel off i, validChain cd 4 fuel off = true →
      arrayItemGo cd' fuel off i = arrayItemGo cd fuel off i := by
  intro fuel
  induction fuel with
  | zero => intro off i h; rfl
  | succ fuel ih =>
    intro off i h
    unfold validChain at h
    simp only [Bool.and_eq_true, decide_eq_true_eq] at h
    have hs_le := h.1.1
    have hext := h.1.2
    have hn' : blockNext cd' off = blockNext cd off := hm (off + 8) (by omega)
    have hs' : blockSize cd' off = blockSize cd off := hm (off + 4) (by omega)
    unfold arrayItemGo
    rw [hn', hs']
    by_cases hc : blockNext cd off ≠ 0 ∧ blockSize cd off ≤ i
    · rw [if_pos hc, if_pos hc]
      rw [if_neg hc.1] at h
      simp only [Bool.and_eq_true, decide_eq_true_eq] at h
      exact ih _ _ h.2.2
    · rw [if_neg hc, if_neg hc]
      by_cases hc2 : blockSize cd off ≤ i
      · rw [if_pos hc2, if_pos hc2]
      · rw [if_neg hc2, if_neg hc2]
        rw [hm (off + 12 + 4 * i) (by omega)]

theorem objectItemGo_congr_hi (cd cd' : Arena)
    (hm : ∀ b, b + 4 ≤ cd.used_bytes → readU32 cd'.mem b = readU32 cd.mem b) :
    ∀ fuel off i, validChain cd 8 fuel off = true →
      objectItemGo cd' fuel off i = objectItemGo cd fuel off i := by
  intro fuel
  induction fuel with
  | zero => intro off i h; rfl
  | succ fuel ih =>
    intro off i h
    unfold validChain at h
    simp only [Bool.and_eq_true, decide_eq_true_eq] at h
    have hext := h.1.2
    have hn' : blockNext cd' off = blockNext cd off := hm (off + 8) (by omega)
    have hs' : blockSize cd' off = blockSize cd off := hm (off + 4) (by omega)
    unfold objectItemGo
    rw [hn', hs']
    by_cases hc : blockNext cd off ≠ 0 ∧ blockSize cd off ≤ i
    · rw [if_pos hc, if_pos hc]
      rw [if_neg hc.1] at h
      simp only [Bool.and_eq_true, decide_eq_true_eq] at h
      exact ih _ _ h.2.2
    · rw [if_neg hc, if_neg hc]

theorem objectItemGo_bound (cd : Arena) :
    ∀ fuel off i p, validChain cd 8 fuel off = true →
      objectItemGo cd fuel off i = some (some p) → p + 8 ≤ cd.used_bytes := by
  intro fuel
  induction fuel with
  | zero => intro off i p _ h; simp [objectItemGo] at h
  | succ fuel ih =>
    intro off i p h hg
    unfold validChain at h
    simp only [Bool.and_eq_true, decide_eq_true_eq] at h
    have hs_le := h.1.1
    have hext := h.1.2
    unfold objectItemGo at hg
    by_cases hc : blockNext cd off ≠ 0 ∧ blockSize cd off ≤ i
    · rw [if_pos hc] at hg
      rw [if_neg hc.1] at h
      simp only [Bool.and_eq_true, decide_eq_true_eq] at h
      exact ih _ _ _ h.2.2 hg
    · rw [if_neg hc] at hg
      by_cases hc2 : blockSize cd off ≤ i
      · rw [if_pos hc2] at hg
        exact absurd (Option.some.inj hg) (by simp)
      · rw [if_neg hc2] at hg
        have hp : off + 12 + 8 * i = p := Option.some.inj (Option.some.inj hg)
        omega

theorem lookupScan_congr_hi (cd cd' : Arena) (off kloc : Nat)
    (hm : ∀ b, b + 4 ≤ cd.used_bytes → readU32 cd'.mem b = readU32 cd.mem b) :
    ∀ cnt j, off + 12 + 8 * (j + cnt) ≤ cd.used_bytes →
      lookupScan cd' off kloc j cnt = lookupScan cd off kloc j cnt := by
  intro cnt
  induction cnt with
  | zero => intro j _; rfl
  | succ cnt ih =>
    intro j hb
    unfold lookupScan
    rw [hm (off + 12 + 8 * j) (by omega)]
    by_cases hk : readU32 cd.mem (off + 12 + 8 * j) = kloc
    · rw [if_pos hk, if_pos hk]
      rw [hm (off + 12 + 8 * j + 4) (by omega)]
    · rw [if_neg hk, if_neg hk]
      exact ih (j + 1) (by omega)

theorem lookupGo_congr_hi (cd cd' : Arena) (kloc : Nat)
    (hm : ∀ b, b + 4 ≤ cd.used_bytes → readU32 cd'.mem b = readU32 cd.mem b) :
    ∀ fuel off, validChain cd 8 fuel off = true →
      lookupGo cd' kloc fuel off = lookupGo cd kloc fuel off := by
  intro fuel
  induction fuel with
  | zero => intro off h; rfl
  | succ fuel ih =>
    intro off h
    have hvc := h
    unfold validChain at h
    simp only [Bool.and_eq_true, decide_eq_true_eq] at h
    have hs_le := h.1.1
    have hext := h.1.2
    have hn' : blockNext cd' off = blockNext cd off := hm (off + 8) (by omega)
    have hs' : blockSize cd' off = blockSize cd off := hm (off + 4) (by omega)
    have hscan : lookupScan cd' off kloc 0 (blockSize cd' off) =
        lookupScan cd off kloc 0 (blockSize cd off) := by
      rw [hs']
      exact lookupScan_congr_hi cd cd' off kloc hm (blockSize cd off) 0 (by omega)
    unfold lookupGo
    rw [hscan]
    cases hsv : lookupScan cd off kloc 0 (blockSize cd off) with
    | some v => rfl
    | none =>
      simp only
      rw [hn']
      by_cases hn : blockNext cd off = 0
      · rw [if_pos hn, if_pos hn]
      · rw [if_neg hn, if_neg hn]
        rw [if_neg hn] at h
        simp only [Bool.and_eq_true, decide_eq_true_eq] at h
        exact ih _ h.2.2


/-- C3: an arena whose header fields, string table and buffer bytes
below `total_bytes` equal the original's (the state `memcpy` produces)
answers every read operation identically: `nfcd_type`, `nfcd_root`,
`nfcd_to_string`, `nfcd_to_number`, `nfcd_array_size`,
`nfcd_array_item`, `nfcd_object_size`, `nfcd_object_keyloc`,
`nfcd_object_value`, `nfcd_object_key` and `nfcd_object_lookup`. -/
theorem nfcd_memcpy_read_equivalence (cd cd' : Arena)
    (hal : cd'.allocated_bytes = cd.allocated_bytes)
    (hus : cd'.used_bytes = cd.used_bytes)
    (hroot : cd'.root = cd.root)
    (hst : cd'.st = cd.st)
    (hmem : ∀ i, i < cd.total_bytes → cd'.mem i = cd.mem i)
    (hut : cd.used_bytes ≤ cd.total_bytes) :
    (∀ loc, nfcdType cd' loc = nfcdType cd loc) ∧
    nfcdRoot cd' = nfcdRoot cd ∧
    (∀ loc, nfcdToString cd' loc = nfcdToString cd loc) ∧
    (∀ loc, locOff loc + 8 ≤ cd.total_bytes →
      nfcdToNumber cd' loc = nfcdToNumber cd loc) ∧
    (∀ arr fuel, validChain cd 4 fuel (locOff arr) = true →
      nfcdArraySize cd' arr fuel = nfcdArraySize cd arr fuel) ∧
    (∀ arr i fuel, validChain cd 4 fuel (locOff arr) = true →
      nfcdArrayItem cd' arr i fuel = nfcdArrayItem cd arr i fuel) ∧
    (∀ obj fuel, validChain cd 8 fuel (locOff obj) = true →
      nfcdObjectSize cd' obj fuel = nfcdObjectSize cd obj fuel) ∧
    (∀ obj i fuel, validChain cd 8 fuel (locOff obj) = true →
      nfcdObjectKeyloc cd' obj i fuel = nfcdObjectKeyloc cd obj i fuel ∧
      nfcdObjectValue cd' obj i fuel = nfcdObjectValue cd obj i fuel ∧
      nfcdObjectKey cd' obj i fuel = nfcdObjectKey cd obj i fuel) ∧
    (∀ obj key fuel, validChain cd 8 fuel (locOff obj) = true →
      nfcdObjectLookup cd' obj key fuel = nfcdObjectLookup cd obj key fuel) := by
  have hm : ∀ b, b + 4 ≤ cd.used_bytes → readU32 cd'.mem b = readU32 cd.mem b :=
    fun b hb => readU32_congr_lt cd.mem cd'.mem cd.total_bytes b hmem (by omega)
  refine ⟨fun loc => rfl, hroot, ?_, ?_, ?_, ?_, ?_, ?_, ?_⟩
  · intro loc
    unfold nfcdToString
    rw [hst]
  · intro loc hb
    unfold nfcdToNumber
    exact readBytes_congr cd.mem cd'.mem cd.total_bytes (locOff loc) 8 hmem hb
  · intro arr fuel hv
    unfold nfcdArraySize
    exact chainSizeGo_congr_hi cd cd' 4 hm fuel (locOff arr) 0 hv
  · intro arr i fuel hv
    unfold nfcdArrayItem
    exact arrayItemGo_congr_hi cd cd' hm fuel (locOff arr) i hv
  · intro obj fuel hv
    unfold nfcdObjectSize
    exact chainSizeGo_congr_hi cd cd' 8 hm fuel (locOff obj) 0 hv
  · intro obj i fuel hv
    have hgo : objectItemGo cd' fuel (locOff obj) i = objectItemGo cd fuel (locOff obj) i :=
      objectItemGo_congr_hi cd cd' hm fuel (locOff obj) i hv
    refine ⟨?_, ?_, ?_⟩
    · unfold nfcdObjectKeyloc
      rw [hgo]
      cases hit : objectItemGo cd fuel (locOff obj) i with
      | none => rfl
      | some it =>
        cases it with
        | none => rfl
        | some p =>
          have hp := objectItemGo_bound cd fuel (locOff obj) i p hv hit
          simp only [Option.map_some']
          rw [hm p (by omega)]
    · unfold nfcdObjectValue
      rw [hgo]
      cases hit : objectItemGo cd fuel (locOff obj) i with
      | none => rfl
      | some it =>
        cases it with
        | none => rfl
        | some p =>
          have hp := objectItemGo_bound cd fuel (locOff obj) i p hv hit
          simp only [Option.map_some']
          rw [hm (p + 4) (by omega)]
    · unfold nfcdObjectKey
      rw [hgo]
      cases hit : objectItemGo cd fuel (locOff obj) i with
      | none => rfl
      | some it =>
        cases it with
        | none => rfl
        | some p =>
          have hp := objectItemGo_bound cd fuel (locOff obj) i p hv hit
          simp only [Option.map_some']
          rw [hm p (by omega)]
          unfold nfcdToString
          rw [hst]
  · intro obj key fuel hv
    unfold nfcdObjectLookup
    rw [hst]
    cases nfstToSymbolConst cd.st key with
    | none => rfl
    | some r =>
      cases r with
      | none => rfl
      | some sym =>
        simp only
        exact lookupGo_congr_hi cd cd' (makeLoc 4 sym) hm fuel (locOff obj) hv

/-- C3 witness: `cdObjCopy` copies `cdObj`'s buffer (its memory function
differs beyond the buffer end) and answers all reads identically. -/
theorem nfcd_memcpy_read_equivalence_witness :
    (∀ loc, nfcdType cdObjCopy loc = nfcdType cdObj loc) ∧
    nfcdRoot cdObjCopy = nfcdRoot cdObj ∧
    (∀ loc, nfcdToString cdObjCopy loc = nfcdToString cdObj loc) ∧
    (∀ loc, locOff loc + 8 ≤ cdObj.total_bytes →
      nfcdToNumber cdObjCopy loc = nfcdToNumber cdObj loc) ∧
    (∀ arr fuel, validChain cdObj 4 fuel (locOff arr) = true →
      nfcdArraySize cdObjCopy arr fuel = nfcdArraySize cdObj arr fuel) ∧
    (∀ arr i fuel, validChain cdObj 4 fuel (locOff arr) = true →
      nfcdArrayItem cdObjCopy arr i fuel = nfcdArrayItem cdObj arr i fuel) ∧
    (∀ obj fuel, validChain cdObj 8 fuel (locOff obj) = true →
      nfcdObjectSize cdObjCopy obj fuel = nfcdObjectSize cdObj obj fuel) ∧
    (∀ obj i fuel, validChain cdObj 8 fuel (locOff obj) = true →
      nfcdObjectKeyloc cdObjCopy obj i fuel = nfcdObjectKeyloc cdObj obj i fuel ∧
      nfcdObjectValue cdObjCopy obj i fuel = nfcdObjectValue cdObj obj i fuel ∧
      nfcdObjectKey cdObjCopy obj i fuel = nfcdObjectKey cdObj obj i fuel) ∧
    (∀ obj key fuel, validChain cdObj 8 fuel (locOff obj) = true →
      nfcdObjectLookup cdObjCopy obj key fuel = nfcdObjectLookup cdObj obj key fuel) :=
  nfcd_memcpy_read_equivalence cdObj cdObjCopy rfl rfl rfl rfl
    (fun i hi => by
      have hi' : i < 16384 := hi
      show updB cdObj.mem 20000 99 i = cdObj.mem i
      unfold updB
      rw [if_neg (by omega)])
    (by decide)


/-! ## Claim C6: every parse failure reports a line-numbered message and
resets the root to an empty object -/

theorem mkErr_shape (line : Nat) (msg : List Nat) (h : 1 ≤ line) :
    errShape (mkErr line msg) := by
  refine ⟨line, msg.take (80 - (natDigits line ++ [58, 32]).length - 1), h, ?_⟩
  unfold mkErr
  simp [List.append_assoc]

theorem skipCharE_err (line c : Nat) (s : List Nat) (e : List Nat)
    (h : skipCharE line c s = .inl e) (hl : 1 ≤ line) : errShape e := by
  unfold skipCharE at h
  dsimp only at h
  split at h
  · exact absurd h (by simp)
  · split at h
    · exact (Sum.inl.inj h) ▸ mkErr_shape _ _ hl
    · exact (Sum.inl.inj h) ▸ mkErr_shape _ _ hl

theorem skipChars_err (line : Nat) :
    ∀ (cs s e : List Nat), skipChars line cs s = .inl e → 1 ≤ line → errShape e := by
  intro cs
  induction cs with
  | nil => intro s e h _; simp [skipChars] at h
  | cons c cs ih =>
    intro s e h hl
    unfold skipChars at h
    cases hc : skipCharE line c s with
    | inl e2 =>
      rw [hc] at h
      exact (Sum.inl.inj h) ▸ skipCharE_err line c s e2 hc hl
    | inr r =>
      rw [hc] at h
      exact ih r e h hl

theorem parseCodepoint_err (line : Nat) (s e : List Nat)
    (h : parseCodepoint line s = .inl e) (hl : 1 ≤ line) : errShape e := by
  unfold parseCodepoint at h
  cases h1 : hexVal (s.headD 0) with
  | none => rw [h1] at h; exact (Sum.inl.inj h) ▸ mkErr_shape _ _ hl
  | some v1 =>
    rw [h1] at h
    cases h2 : hexVal (s.tail.headD 0) with
    | none => rw [h2] at h; exact (Sum.inl.inj h) ▸ mkErr_shape _ _ hl
    | some v2 =>
      rw [h2] at h
      cases h3 : hexVal (s.tail.tail.headD 0) with
      | none => rw [h3] at h; exact (Sum.inl.inj h) ▸ mkErr_shape _ _ hl
      | some v3 =>
        rw [h3] at h
        cases h4 : hexVal (s.tail.tail.tail.headD 0) with
        | none => rw [h4] at h; exact (Sum.inl.inj h) ▸ mkErr_shape _ _ hl
        | some v4 => rw [h4] at h; exact absurd h (by simp)

theorem numFracScan_err (line : Nat) (s e : List Nat)
    (h : numFracScan line s = .inl e) (hl : 1 ≤ line) : errShape e := by
  unfold numFracScan at h
  repeat' split at h
  all_goals first
    | (rw [← Sum.inl.inj h]; exact mkErr_shape _ _ hl)
    | simp at h

theorem numExpScan_err (line : Nat) (s e : List Nat)
    (h : numExpScan line s = .inl e) (hl : 1 ≤ line) : errShape e := by
  unfold numExpScan at h
  dsimp only at h
  repeat' split at h
  all_goals first
    | (rw [← Sum.inl.inj h]; exact mkErr_shape _ _ hl)
    | simp at h

theorem parseNumE_err (line : Nat) (s e : List Nat)
    (h : parseNumE line s = .inl e) (hl : 1 ≤ line) : errShape e := by
  unfold parseNumE at h
  dsimp only at h
  split at h
  · rename_i e1 heq
    rw [← Sum.inl.inj h]
    repeat' split at heq
    all_goals first
      | (rw [← Sum.inl.inj heq]; exact mkErr_shape _ _ hl)
      | simp at heq
  · rename_i pr heq
    split at h
    · rename_i e1 heq2
      rw [← Sum.inl.inj h]
      exact numFracScan_err _ _ _ heq2 hl
    · rename_i fr heq2
      split at h
      · rename_i e1 heq3
        rw [← Sum.inl.inj h]
        exact numExpScan_err _ _ _ heq3 hl
      · rename_i er heq3
        simp at h

theorem cComScan_line_ge : ∀ (s : List Nat) (line : Nat),
    line ≤ (cComScan s line).2 := by
  intro s
  induction s with
  | nil => intro line; exact le_rfl
  | cons c rest ih =>
    intro line
    unfold cComScan
    split
    · exact le_rfl
    · split
      · exact le_trans (by omega) (ih (line + 1))
      · exact ih line

theorem cComScan_line_ge2 (s : List Nat) (line : Nat) (hl : 1 ≤ line) :
    1 ≤ (cComScan s line).2 :=
  le_trans hl (cComScan_line_ge s line)

theorem skipWs_spec (stg : JSettings) :
    ∀ fuel (s : List Nat) (line : Nat),
      (∀ e, skipWs stg fuel s line = some (.inl e) → 1 ≤ line → errShape e) ∧
      (∀ s2 l2, skipWs stg fuel s line = some (.inr (s2, l2)) → line ≤ l2) := by
  intro fuel
  induction fuel with
  | zero => intro s line; exact ⟨fun e h => by simp [skipWs] at h,
      fun s2 l2 h => by simp [skipWs] at h⟩
  | succ fuel ih =>
    intro s line
    constructor
    · intro e h hl
      unfold skipWs at h
      dsimp only at h
      split at h
      · split at h
        · exact (ih _ _).1 e h (by omega)
        · split at h
          · exact (ih _ _).1 e h hl
          · split at h
            · split at h
              · exact (ih _ _).1 e h (by omega)
              · split at h
                · split at h
                  · rename_i hsc
                    exact (Sum.inl.inj (Option.some.inj h)) ▸
                      skipChars_err _ _ _ _ hsc
                        (cComScan_line_ge2 s.tail.tail line hl)
                  · exact (ih _ _).1 e h (cComScan_line_ge2 s.tail.tail line hl)
                · exact absurd (Option.some.inj h) (by simp)
            · split at h
              · exact (ih _ _).1 e h hl
              · exact absurd (Option.some.inj h) (by simp)
      · exact absurd (Option.some.inj h) (by simp)
    · intro s2 l2 h
      unfold skipWs at h
      dsimp only at h
      split at h
      · split at h
        · exact le_trans (by omega) ((ih _ _).2 s2 l2 h)
        · split at h
          · exact (ih _ _).2 s2 l2 h
          · split at h
            · split at h
              · exact le_trans (by omega) ((ih _ _).2 s2 l2 h)
              · split at h
                · split at h
                  · exact absurd (Option.some.inj h) (by simp)
                  · exact le_trans (cComScan_line_ge s.tail.tail line)
                      ((ih _ _).2 s2 l2 h)
                · have he := Sum.inr.inj (Option.some.inj h)
                  have h2 : line = l2 := congrArg Prod.snd he
                  omega
            · split at h
              · exact (ih _ _).2 s2 l2 h
              · have he := Sum.inr.inj (Option.some.inj h)
                have h2 : line = l2 := congrArg Prod.snd he
                omega
      · have he := Sum.inr.inj (Option.some.inj h)
        have h2 : line = l2 := congrArg Prod.snd he
        omega

set_option maxHeartbeats 2000000 in
theorem strScan_err (stg : JSettings) :
    ∀ fuel (line : Nat) (s cb e : List Nat),
      strScan stg fuel line s cb = some (.inl e) → 1 ≤ line → errShape e := by
  intro fuel
  induction fuel with
  | zero => intro line s cb e h; simp [strScan] at h
  | succ fuel ih =>
    intro line s cb e h hl
    unfold strScan at h
    dsimp only at h
    split at h
    · exact absurd (Option.some.inj h) (by simp)
    · split at h
      · exact (Sum.inl.inj (Option.some.inj h)) ▸ mkErr_shape _ _ hl
      · split at h
        · split at h
          · exact ih _ _ _ _ h hl
          · split at h
            · exact ih _ _ _ _ h hl
            · split at h
              · exact ih _ _ _ _ h hl
              · split at h
                · exact ih _ _ _ _ h hl
                · split at h
                  · exact ih _ _ _ _ h hl
                  · split at h
                    · exact ih _ _ _ _ h hl
                    · split at h
                      · split at h
                        · rename_i hcp
                          exact (Sum.inl.inj (Option.some.inj h)) ▸
                            parseCodepoint_err _ _ _ hcp hl
                        · exact ih _ _ _ _ h hl
                      · exact (Sum.inl.inj (Option.some.inj h)) ▸ mkErr_shape _ _ hl
        · exact ih _ _ _ _ h hl


theorem resOK_out : resOK .out := by
  constructor
  · intro v st2 h
    cases h
  · intro e cd2 h
    cases h

theorem resOK_ok (v : Nat) (st2 : PSt) (h1 : 1 ≤ st2.line)
    (h2 : 1 ≤ st2.cd.allocated_bytes) : resOK (.ok v st2) := by
  constructor
  · intro v2 st3 h
    cases h
    exact ⟨h1, h2⟩
  · intro e cd2 h
    cases h

theorem resOK_perr (e : List Nat) (cd2 : Arena) (h1 : errShape e)
    (h2 : 1 ≤ cd2.allocated_bytes) : resOK (.perr e cd2) := by
  constructor
  · intro v st3 h
    cases h
  · intro e2 cd3 h
    cases h
    exact ⟨h1, h2⟩

theorem nfcdWrite_alloc (cd : Arena) (ty : Nat) (p : List Nat) (z : Nat)
    (cd1 : Arena) (l : Nat) (h : nfcdWrite cd ty p z = some (cd1, l))
    (h1 : 1 ≤ cd.allocated_bytes) : 1 ≤ cd1.allocated_bytes := by
  obtain ⟨cd2, hw, _, _, _, _, _, h1'⟩ := nfcdWrite_spec cd ty p z h1
  have he : cd2 = cd1 := congrArg Prod.fst (Option.some.inj (hw.symm.trans h))
  exact he ▸ h1'

theorem nfcdAddString_alloc (s : List Nat) :
    ∀ gf (cd cd1 : Arena) (l : Nat), nfcdAddString s gf cd = some (cd1, l) →
      cd1.allocated_bytes = cd.allocated_bytes := by
  intro gf
  induction gf with
  | zero => intro cd cd1 l h; simp [nfcdAddString] at h
  | succ gf ih =>
    intro cd cd1 l h
    unfold nfcdAddString at h
    cases hts : nfstToSymbol cd.st s with
    | none => rw [hts] at h; exact absurd h (by simp)
    | some pr =>
      obtain ⟨st2, r⟩ := pr
      cases r with
      | sym v =>
        simp only [hts] at h
        have he : { cd with st := st2 } = cd1 :=
          congrArg Prod.fst (Option.some.inj h)
        rw [← he]
      | full =>
        simp only [hts] at h
        cases hg : nfstGrow cd.st ((cd.total_bytes - cd.allocated_bytes) * 2) with
        | none => rw [hg] at h; exact absurd h (by simp)
        | some stg2 =>
          simp only [hg] at h
          exact ih { cd with
            total_bytes := cd.allocated_bytes + (cd.total_bytes - cd.allocated_bytes) * 2
            st := stg2 } cd1 l h

theorem nfcdSetLocGo_alloc (k v : Nat) :
    ∀ fuel (cd : Arena) (off : Nat) (cd2 : Arena),
      nfcdSetLocGo k v fuel cd off = some cd2 →
      1 ≤ cd.allocated_bytes → 1 ≤ cd2.allocated_bytes := by
  intro fuel
  induction fuel with
  | zero => intro cd off cd2 h; simp [nfcdSetLocGo] at h
  | succ fuel ih =>
    intro cd off cd2 h h1
    unfold nfcdSetLocGo at h
    split at h
    · have he := Option.some.inj h
      rw [← he]
      exact h1
    · split at h
      · have he := Option.some.inj h
        rw [← he]
        exact h1
      · split at h
        · split at h
          · exact absurd h (by simp)
          · rename_i cd1 nloc hw
            have hw2 : nfcdWrite cd 6 (encodeU32 (blockAlloc cd off * 2) ++
                encodeU32 0 ++ encodeU32 0) (blockAlloc cd off * 2 * 8) =
                some (cd1, nloc) := hw
            have ha1 : 1 ≤ cd1.allocated_bytes :=
              nfcdWrite_alloc _ _ _ _ _ _ hw2 h1
            exact ih _ _ _ h ha1
        · exact ih _ _ _ h h1

theorem nfcdPushGo_alloc (item : Nat) :
    ∀ fuel (cd : Arena) (off : Nat) (cd2 : Arena),
      nfcdPushGo item fuel cd off = some cd2 →
      1 ≤ cd.allocated_bytes → 1 ≤ cd2.allocated_bytes := by
  intro fuel
  induction fuel with
  | zero => intro cd off cd2 h; simp [nfcdPushGo] at h
  | succ fuel ih =>
    intro cd off cd2 h h1
    unfold nfcdPushGo at h
    split at h
    · split at h
      · split at h
        · exact absurd h (by simp)
        · rename_i cd1 nloc hw
          have hw2 : nfcdWrite cd 5 (encodeU32 (blockAlloc cd off * 2) ++
              encodeU32 0 ++ encodeU32 0) (blockAlloc cd off * 2 * 4) =
              some (cd1, nloc) := hw
          have ha1 : 1 ≤ cd1.allocated_bytes :=
            nfcdWrite_alloc _ _ _ _ _ _ hw2 h1
          exact ih _ _ _ h ha1
      · exact ih _ _ _ h h1
    · have he := Option.some.inj h
      rw [← he]
      exact h1

theorem setAllLocs_alloc (fuel : Nat) :
    ∀ (kvs : List (Nat × Nat)) (cd : Arena) (obj : Nat) (cd2 : Arena),
      setAllLocs fuel cd obj kvs = some cd2 →
      1 ≤ cd.allocated_bytes → 1 ≤ cd2.allocated_bytes := by
  intro kvs
  induction kvs with
  | nil =>
    intro cd obj cd2 h h1
    have he := Option.some.inj h
    rw [← he]
    exact h1
  | cons kv rest ih =>
    intro cd obj cd2 h h1
    unfold setAllLocs at h
    cases hs : nfcdSetLoc cd obj kv.1 kv.2 fuel with
    | none => rw [hs] at h; exact absurd h (by simp)
    | some cd3 =>
      rw [hs] at h
      exact ih _ _ _ h (nfcdSetLocGo_alloc _ _ _ _ _ _ hs h1)

theorem pushAll_alloc (fuel : Nat) :
    ∀ (ls : List Nat) (cd : Arena) (arr : Nat) (cd2 : Arena),
      pushAll fuel cd arr ls = some cd2 →
      1 ≤ cd.allocated_bytes → 1 ≤ cd2.allocated_bytes := by
  intro ls
  induction ls with
  | nil =>
    intro cd arr cd2 h h1
    have he := Option.some.inj h
    rw [← he]
    exact h1
  | cons l rest ih =>
    intro cd arr cd2 h h1
    unfold pushAll at h
    cases hs : nfcdPush cd arr l fuel with
    | none => rw [hs] at h; exact absurd h (by simp)
    | some cd3 =>
      rw [hs] at h
      exact ih _ _ _ h (nfcdPushGo_alloc _ _ _ _ _ hs h1)


set_option maxHeartbeats 4000000 in
/-- Every result of every parse function keeps the parser sane: `ok`
states have a positive line number and a nonempty data section, and
every error message is `"<n>: "` for the (positive) current line
followed by the formatted message. -/
theorem pfn_inv (stg : JSettings) (enc : ℚ → List Nat) :
    ∀ fuel k st, 1 ≤ st.line → 1 ≤ st.cd.allocated_bytes →
      resOK (pfn stg enc fuel k st) := by
  intro fuel
  induction fuel with
  | zero => intro k st _ _; exact resOK_out
  | succ fuel ih =>
    intro k st hl h1
    cases k with
    | value =>
      unfold pfn
      dsimp only
      split
      · exact ih .string st hl h1
      · split
        · split
          · rename_i e hpn
            exact resOK_perr _ _ (parseNumE_err _ _ _ hpn hl) h1
          · rename_i parts rest hpn
            split
            · exact resOK_out
            · rename_i cd2 loc hw
              have hw2 : nfcdWrite st.cd 3
                  ((enc (ratVal parts) ++ List.replicate 8 0).take 8) 0 =
                  some (cd2, loc) := hw
              exact resOK_ok _ _ hl (nfcdWrite_alloc _ _ _ _ _ _ hw2 h1)
        · split
          · exact ih .object st hl h1
          · split
            · exact ih .array st hl h1
            · split
              · split
                · rename_i e hsc
                  exact resOK_perr _ _ (skipChars_err _ _ _ _ hsc hl) h1
                · exact resOK_ok _ _ hl h1
              · split
                · split
                  · rename_i e hsc
                    exact resOK_perr _ _ (skipChars_err _ _ _ _ hsc hl) h1
                  · exact resOK_ok _ _ hl h1
                · split
                  · split
                    · rename_i e hsc
                      exact resOK_perr _ _ (skipChars_err _ _ _ _ hsc hl) h1
                    · exact resOK_ok _ _ hl h1
                  · exact resOK_perr _ _ (mkErr_shape _ _ hl) h1
    | string =>
      unfold pfn
      dsimp only
      split
      · rename_i e hsk
        exact resOK_perr _ _ (skipCharE_err _ _ _ _ hsk hl) h1
      · rename_i s1 hsk
        split
        · split
          · rename_i e hsc
            exact resOK_perr _ _ (skipChars_err _ _ _ _ hsc hl) h1
          · rename_i r3 hsc
            split
            · exact resOK_out
            · rename_i cd2 loc hadd
              refine resOK_ok _ _ hl ?_
              have ha := nfcdAddString_alloc _ _ _ _ _ hadd
              show 1 ≤ cd2.allocated_bytes
              omega
        · split
          · exact resOK_out
          · rename_i e hss
            exact resOK_perr _ _ (strScan_err stg _ _ _ _ _ hss hl) h1
          · rename_i cb r hss
            split
            · rename_i e hsk2
              exact resOK_perr _ _ (skipCharE_err _ _ _ _ hsk2 hl) h1
            · rename_i r2 hsk2
              split
              · exact resOK_out
              · rename_i cd2 loc hadd
                refine resOK_ok _ _ hl ?_
                have ha := nfcdAddString_alloc _ _ _ _ _ hadd
                show 1 ≤ cd2.allocated_bytes
                omega
    | object =>
      unfold pfn
      dsimp only
      split
      · rename_i e hsk
        exact resOK_perr _ _ (skipCharE_err _ _ _ _ hsk hl) h1
      · rename_i s1 hsk
        split
        · exact resOK_out
        · rename_i e hws
          exact resOK_perr _ _ ((skipWs_spec stg _ _ _).1 e hws hl) h1
        · rename_i s2 l2 hws
          have hl2 : 1 ≤ l2 := le_trans hl ((skipWs_spec stg _ _ _).2 _ _ hws)
          split
          · split
            · exact resOK_out
            · rename_i cd2 obj hw
              have hw2 : nfcdWrite st.cd 6 (encodeU32 0 ++ encodeU32 0 ++
                  encodeU32 0) (0 * 8) = some (cd2, obj) := hw
              have ha2 := nfcdWrite_alloc _ _ _ _ _ _ hw2 h1
              split
              · rename_i e hsk2
                exact resOK_perr _ _ (skipCharE_err _ _ _ _ hsk2 hl2) ha2
              · exact resOK_ok _ _ hl2 ha2
          · split
            · exact resOK_out
            · rename_i e cd2 hrec
              obtain ⟨hsh, hal⟩ := (ih (.members [] []) ⟨s2, l2, st.cd⟩ hl2 h1).2 e cd2 hrec
              exact resOK_perr _ _ hsh hal
            · rename_i obj st2 hrec
              obtain ⟨hl3, ha3⟩ := (ih (.members [] []) ⟨s2, l2, st.cd⟩ hl2 h1).1 obj st2 hrec
              split
              · rename_i e hsk2
                exact resOK_perr _ _ (skipCharE_err _ _ _ _ hsk2 hl3) ha3
              · exact resOK_ok _ _ hl3 ha3
    | key =>
      unfold pfn
      dsimp only
      split
      · exact resOK_out
      · rename_i e hws
        exact resOK_perr _ _ ((skipWs_spec stg _ _ _).1 e hws hl) h1
      · rename_i s1 l1 hws
        have hl1 : 1 ≤ l1 := le_trans hl ((skipWs_spec stg _ _ _).2 _ _ hws)
        split
        · split
          · exact resOK_out
          · rename_i cd2 loc hadd
            refine resOK_ok _ _ hl1 ?_
            have ha := nfcdAddString_alloc _ _ _ _ _ hadd
            show 1 ≤ cd2.allocated_bytes
            omega
        · exact ih .string ⟨s1, l1, st.cd⟩ hl1 h1
    | array =>
      unfold pfn
      dsimp only
      split
      · rename_i e hsk
        exact resOK_perr _ _ (skipCharE_err _ _ _ _ hsk hl) h1
      · rename_i s1 hsk
        split
        · exact resOK_out
        · rename_i e hws
          exact resOK_perr _ _ ((skipWs_spec stg _ _ _).1 e hws hl) h1
        · rename_i s2 l2 hws
          have hl2 : 1 ≤ l2 := le_trans hl ((skipWs_spec stg _ _ _).2 _ _ hws)
          split
          · split
            · rename_i e hsk2
              exact resOK_perr _ _ (skipCharE_err _ _ _ _ hsk2 hl2) h1
            · rename_i s3 hsk2
              split
              · exact resOK_out
              · rename_i cd2 arr hw
                have hw2 : nfcdWrite st.cd 5 (encodeU32 0 ++ encodeU32 0 ++
                    encodeU32 0) (0 * 4) = some (cd2, arr) := hw
                exact resOK_ok _ _ hl2 (nfcdWrite_alloc _ _ _ _ _ _ hw2 h1)
          · exact ih (.elements []) ⟨s2, l2, st.cd⟩ hl2 h1
    | members keys vals =>
      unfold pfn
      dsimp only
      split
      · exact resOK_out
      · rename_i e cd2 hrec
        obtain ⟨hsh, hal⟩ := (ih .key st hl h1).2 e cd2 hrec
        exact resOK_perr _ _ hsh hal
      · rename_i key st1 hrec
        obtain ⟨hl1, ha1⟩ := (ih .key st hl h1).1 key st1 hrec
        split
        · exact resOK_out
        · rename_i e hws
          exact resOK_perr _ _ ((skipWs_spec stg _ _ _).1 e hws hl1) ha1
        · rename_i s2 l2 hws
          have hl2 : 1 ≤ l2 := le_trans hl1 ((skipWs_spec stg _ _ _).2 _ _ hws)
          have hcol_err : ∀ e2, (if stg.equals_for_colon ∧ s2.headD 0 = 61 then
              skipCharE l2 61 s2 else skipCharE l2 58 s2) = .inl e2 → errShape e2 := by
            intro e2 he2
            split at he2
            · exact skipCharE_err _ _ _ _ he2 hl2
            · exact skipCharE_err _ _ _ _ he2 hl2
          generalize hcol : (if stg.equals_for_colon ∧ s2.headD 0 = 61 then
            skipCharE l2 61 s2 else skipCharE l2 58 s2) = colRes
          cases colRes with
          | inl e => exact resOK_perr _ _ (hcol_err e hcol) ha1
          | inr s3 =>
            dsimp only
            split
            · exact resOK_out
            · rename_i e hws2
              exact resOK_perr _ _ ((skipWs_spec stg _ _ _).1 e hws2 hl2) ha1
            · rename_i s4 l4 hws2
              have hl4 : 1 ≤ l4 := le_trans hl2 ((skipWs_spec stg _ _ _).2 _ _ hws2)
              split
              · exact resOK_out
              · rename_i e cd2 hrec2
                obtain ⟨hsh, hal⟩ := (ih .value ⟨s4, l4, st1.cd⟩ hl4 ha1).2 e cd2 hrec2
                exact resOK_perr _ _ hsh hal
              · rename_i v st2 hrec2
                obtain ⟨hlv, hav⟩ := (ih .value ⟨s4, l4, st1.cd⟩ hl4 ha1).1 v st2 hrec2
                split
                · exact resOK_out
                · rename_i e hws3
                  exact resOK_perr _ _ ((skipWs_spec stg _ _ _).1 e hws3 hlv) hav
                · rename_i s5 l5 hws3
                  have hl5 : 1 ≤ l5 := le_trans hlv ((skipWs_spec stg _ _ _).2 _ _ hws3)
                  split
                  · split
                    · exact resOK_out
                    · rename_i cd1 obj hw
                      have hw2 : nfcdWrite st2.cd 6 (encodeU32 (keys ++ [key]).length ++
                          encodeU32 0 ++ encodeU32 0) ((keys ++ [key]).length * 8) =
                          some (cd1, obj) := hw
                      have hao := nfcdWrite_alloc _ _ _ _ _ _ hw2 hav
                      split
                      · exact resOK_out
                      · rename_i cd2 hset
                        exact resOK_ok _ _ hl5 (setAllLocs_alloc _ _ _ _ _ hset hao)
                  · have hcm_err : ∀ e2, (if stg.optional_commas then Sum.inr s5
                        else skipCharE l5 44 s5) = .inl e2 → errShape e2 := by
                      intro e2 he2
                      split at he2
                      · exact absurd he2 (by simp)
                      · exact skipCharE_err _ _ _ _ he2 hl5
                    generalize hcm : (if stg.optional_commas then Sum.inr s5
                      else skipCharE l5 44 s5) = cmRes
                    cases cmRes with
                    | inl e => exact resOK_perr _ _ (hcm_err e hcm) hav
                    | inr s6 =>
                      dsimp only
                      split
                      · exact resOK_out
                      · rename_i e hws4
                        exact resOK_perr _ _ ((skipWs_spec stg _ _ _).1 e hws4 hl5) hav
                      · rename_i s7 l7 hws4
                        have hl7 : 1 ≤ l7 := le_trans hl5 ((skipWs_spec stg _ _ _).2 _ _ hws4)
                        exact ih (.members (keys ++ [key]) (vals ++ [v]))
                          ⟨s7, l7, st2.cd⟩ hl7 hav
    | elements els =>
      unfold pfn
      dsimp only
      split
      · exact resOK_out
      · rename_i e hws
        exact resOK_perr _ _ ((skipWs_spec stg _ _ _).1 e hws hl) h1
      · rename_i s1 l1 hws
        have hl1 : 1 ≤ l1 := le_trans hl ((skipWs_spec stg _ _ _).2 _ _ hws)
        split
        · exact resOK_out
        · rename_i e cd2 hrec
          obtain ⟨hsh, hal⟩ := (ih .value ⟨s1, l1, st.cd⟩ hl1 h1).2 e cd2 hrec
          exact resOK_perr _ _ hsh hal
        · rename_i v st1 hrec
          obtain ⟨hlv, hav⟩ := (ih .value ⟨s1, l1, st.cd⟩ hl1 h1).1 v st1 hrec
          split
          · exact resOK_out
          · rename_i e hws2
            exact resOK_perr _ _ ((skipWs_spec stg _ _ _).1 e hws2 hlv) hav
          · rename_i s2 l2 hws2
            have hl2 : 1 ≤ l2 := le_trans hlv ((skipWs_spec stg _ _ _).2 _ _ hws2)
            split
            · split
              · rename_i e hsk2
                exact resOK_perr _ _ (skipCharE_err _ _ _ _ hsk2 hl2) hav
              · rename_i s3 hsk2
                split
                · exact resOK_out
                · rename_i cd1 arr hw
                  have hw2 : nfcdWrite st1.cd 5 (encodeU32 (els ++ [v]).length ++
                      encodeU32 0 ++ encodeU32 0) ((els ++ [v]).length * 4) =
                      some (cd1, arr) := hw
                  have hao := nfcdWrite_alloc _ _ _ _ _ _ hw2 hav
                  split
                  · exact resOK_out
                  · rename_i cd2 hp
                    exact resOK_ok _ _ hl2 (pushAll_alloc _ _ _ _ _ hp hao)
            · have hcm_err : ∀ e2, (if stg.optional_commas then Sum.inr s2
                  else skipCharE l2 44 s2) = .inl e2 → errShape e2 := by
                intro e2 he2
                split at he2
                · exact absurd he2 (by simp)
                · exact skipCharE_err _ _ _ _ he2 hl2
              generalize hcm : (if stg.optional_commas then Sum.inr s2
                else skipCharE l2 44 s2) = cmRes
              cases cmRes with
              | inl e => exact resOK_perr _ _ (hcm_err e hcm) hav
              | inr s4 => exact ih (.elements (els ++ [v])) ⟨s4, l2, st1.cd⟩ hl2 hav


/-! ## Claim C6: parse failure shape -/

theorem errOut_spec (e : List Nat) (cdE : Arena) (h1 : 1 ≤ cdE.allocated_bytes)
    (hsh : errShape e) :
    (∀ e2 cd2, errOut e cdE = some (some e2, cd2) →
      errShape e2 ∧ nfcdType cd2 (nfcdRoot cd2) = 6 ∧
      nfcdObjectSize cd2 (nfcdRoot cd2) 1 = some 0) ∧
    (∀ cd2, errOut e cdE = some (none, cd2) → False) := by
  obtain ⟨cd1, hw, hu, hm, hst, hr, hle, h1a⟩ :=
    nfcdWrite_spec cdE 6 (encodeU32 0 ++ encodeU32 0 ++ encodeU32 0) (0 * 8) h1
  have hout : errOut e cdE =
      some (some e, nfcdSetRoot cd1 (makeLoc 6 cdE.used_bytes)) := by
    unfold errOut nfcdAddObject
    rw [hw]
  have hnext : readU32 cd1.mem (cdE.used_bytes + 8) = 0 := by
    rw [hm]
    simpa using readU32_hdr_next cdE.mem cdE.used_bytes 0 0 0
      (List.replicate (0 * 8) 0)
  have hsize : readU32 cd1.mem (cdE.used_bytes + 4) = 0 := by
    rw [hm]
    simpa using readU32_hdr_size cdE.mem cdE.used_bytes 0 0 0
      (List.replicate (0 * 8) 0)
  have hty : nfcdType (nfcdSetRoot cd1 (makeLoc 6 cdE.used_bytes))
      (nfcdRoot (nfcdSetRoot cd1 (makeLoc 6 cdE.used_bytes))) = 6 := by
    show locType (makeLoc 6 cdE.used_bytes) = 6
    unfold locType makeLoc
    omega
  have hsz : nfcdObjectSize (nfcdSetRoot cd1 (makeLoc 6 cdE.used_bytes))
      (nfcdRoot (nfcdSetRoot cd1 (makeLoc 6 cdE.used_bytes))) 1 = some 0 := by
    have hoff : locOff (makeLoc 6 cdE.used_bytes) = cdE.used_bytes := by
      unfold locOff makeLoc
      omega
    have hn2 : blockNext (nfcdSetRoot cd1 (makeLoc 6 cdE.used_bytes))
        cdE.used_bytes = 0 := hnext
    have hs2 : blockSize (nfcdSetRoot cd1 (makeLoc 6 cdE.used_bytes))
        cdE.used_bytes = 0 := hsize
    unfold nfcdObjectSize
    show chainSizeGo (nfcdSetRoot cd1 (makeLoc 6 cdE.used_bytes)) 1
      (locOff (makeLoc 6 cdE.used_bytes)) 0 = some 0
    rw [hoff]
    show (if blockNext (nfcdSetRoot cd1 (makeLoc 6 cdE.used_bytes))
          cdE.used_bytes = 0 then
        some (0 + blockSize (nfcdSetRoot cd1 (makeLoc 6 cdE.used_bytes))
          cdE.used_bytes)
      else chainSizeGo (nfcdSetRoot cd1 (makeLoc 6 cdE.used_bytes)) 0
        (locOff (blockNext (nfcdSetRoot cd1 (makeLoc 6 cdE.used_bytes))
          cdE.used_bytes))
        (0 + blockSize (nfcdSetRoot cd1 (makeLoc 6 cdE.used_bytes))
          cdE.used_bytes)) = some 0
    rw [if_pos hn2, hs2]
  constructor
  · intro e2 cd2 h
    rw [hout] at h
    have hp := Option.some.inj h
    have he2 : some e = some e2 := congrArg Prod.fst hp
    have hcd : nfcdSetRoot cd1 (makeLoc 6 cdE.used_bytes) = cd2 :=
      congrArg Prod.snd hp
    exact ⟨Option.some.inj he2 ▸ hsh, hcd ▸ hty, hcd ▸ hsz⟩
  · intro cd2 h
    rw [hout] at h
    have hp := Option.some.inj h
    have hc : some e = (none : Option (List Nat)) := congrArg Prod.fst hp
    exact Option.noConfusion hc

theorem runRoot_ok (stg : JSettings) (enc : ℚ → List Nat) (fuel : Nat)
    (s1 : List Nat) (l1 : Nat) (cd : Arena) (hl : 1 ≤ l1)
    (h1 : 1 ≤ cd.allocated_bytes) : resOK (runRoot stg enc fuel s1 l1 cd) := by
  unfold runRoot
  split
  · split
    · split
      · exact resOK_out
      · rename_i cd1 root hw
        have hw2 : nfcdWrite cd 6 (encodeU32 0 ++ encodeU32 0 ++ encodeU32 0)
            (0 * 8) = some (cd1, root) := hw
        exact resOK_ok _ _ hl (nfcdWrite_alloc _ _ _ _ _ _ hw2 h1)
    · exact pfn_inv stg enc fuel (.members [] []) ⟨s1, l1, cd⟩ hl h1
  · exact pfn_inv stg enc fuel .value ⟨s1, l1, cd⟩ hl h1

theorem wrapTail_spec (stg : JSettings) (fuel : Nat) (r : PRes) (hr : resOK r) :
    (∀ e cd2, wrapTail stg fuel r = some (some e, cd2) →
      errShape e ∧ nfcdType cd2 (nfcdRoot cd2) = 6 ∧
      nfcdObjectSize cd2 (nfcdRoot cd2) 1 = some 0) ∧
    (∀ cd2, wrapTail stg fuel r = some (none, cd2) →
      ∃ doc st2, r = .ok doc st2 ∧ cd2 = nfcdSetRoot st2.cd doc) := by
  cases r with
  | out =>
    exact ⟨fun e cd2 h => by simp [wrapTail] at h,
      fun cd2 h => by simp [wrapTail] at h⟩
  | perr e0 cdE =>
    obtain ⟨hsh, hal⟩ := hr.2 e0 cdE rfl
    obtain ⟨hmain, hnone⟩ := errOut_spec e0 cdE hal hsh
    exact ⟨fun e cd2 h => hmain e cd2 h, fun cd2 h => absurd h fun hx => hnone cd2 hx⟩
  | ok root st2 =>
    obtain ⟨hl2, ha2⟩ := hr.1 root st2 rfl
    constructor
    · intro e cd2 h
      unfold wrapTail at h
      dsimp only at h
      split at h
      · exact absurd h (by simp)
      · rename_i e1 hws
        have hsh := (skipWs_spec stg _ _ _).1 e1 hws hl2
        exact (errOut_spec e1 st2.cd ha2 hsh).1 e cd2 h
      · rename_i s2 l2 hws
        have hl3 : 1 ≤ l2 := le_trans hl2 ((skipWs_spec stg _ _ _).2 _ _ hws)
        split at h
        · have hc : (none : Option (List Nat)) = some e :=
            congrArg Prod.fst (Option.some.inj h)
          exact Option.noConfusion hc
        · exact (errOut_spec _ st2.cd ha2 (mkErr_shape _ _ hl3)).1 e cd2 h
    · intro cd2 h
      unfold wrapTail at h
      dsimp only at h
      split at h
      · exact absurd h (by simp)
      · rename_i e1 hws
        have hsh := (skipWs_spec stg _ _ _).1 e1 hws hl2
        exact absurd h fun hx => (errOut_spec e1 st2.cd ha2 hsh).2 cd2 hx
      · rename_i s2 l2 hws
        have hl3 : 1 ≤ l2 := le_trans hl2 ((skipWs_spec stg _ _ _).2 _ _ hws)
        split at h
        · have hc : nfcdSetRoot st2.cd root = cd2 :=
            congrArg Prod.snd (Option.some.inj h)
          exact ⟨root, st2, rfl, hc.symm⟩
        · exact absurd h fun hx =>
            (errOut_spec _ st2.cd ha2 (mkErr_shape _ _ hl3)).2 cd2 hx

/-- **C6.**  On every parse failure of `nfjp_parse_with_settings` (and so
of `nfjp_parse`), the returned arena's root is set to an empty object --
its type is `NFCD_TYPE_OBJECT` and `nfcd_object_size(root)` is `0` --
and the returned error message starts with `"<n>: "` for some positive
integer `n`; on success the parser returns the `NULL` sentinel (modelled
as `none`) and the arena's root is set to the loc of the parsed
document. -/
theorem nfjp_parse_failure_root_and_message (stg : JSettings)
    (enc : ℚ → List Nat) (inp : List Nat) (cd : Arena) (fuel : Nat)
    (h1 : 1 ≤ cd.allocated_bytes) :
    (∀ e cd2, nfjpParseWithSettings stg enc inp cd fuel = some (some e, cd2) →
      errShape e ∧ nfcdType cd2 (nfcdRoot cd2) = 6 ∧
      nfcdObjectSize cd2 (nfcdRoot cd2) 1 = some 0) ∧
    (∀ cd2, nfjpParseWithSettings stg enc inp cd fuel = some (none, cd2) →
      ∃ s1 l1 doc st2, skipWs stg (fuel + 1) inp 1 = some (.inr (s1, l1)) ∧
        runRoot stg enc fuel s1 l1 cd = .ok doc st2 ∧
        cd2 = nfcdSetRoot st2.cd doc ∧ nfcdRoot cd2 = doc) := by
  constructor
  · intro e cd2 h
    unfold nfjpParseWithSettings at h
    split at h
    · exact absurd h (by simp)
    · rename_i e1 hws
      have hsh := (skipWs_spec stg _ _ _).1 e1 hws le_rfl
      exact (errOut_spec e1 cd h1 hsh).1 e cd2 h
    · rename_i s1 l1 hws
      have hl1 : 1 ≤ l1 := (skipWs_spec stg _ _ _).2 _ _ hws
      exact (wrapTail_spec stg fuel _ (runRoot_ok stg enc fuel s1 l1 cd hl1 h1)).1
        e cd2 h
  · intro cd2 h
    unfold nfjpParseWithSettings at h
    split at h
    · exact absurd h (by simp)
    · rename_i e1 hws
      have hsh := (skipWs_spec stg _ _ _).1 e1 hws le_rfl
      exact absurd h fun hx => (errOut_spec e1 cd h1 hsh).2 cd2 hx
    · rename_i s1 l1 hws
      have hl1 : 1 ≤ l1 := (skipWs_spec stg _ _ _).2 _ _ hws
      obtain ⟨doc, st2, hrok, hc⟩ :=
        (wrapTail_spec stg fuel _
          (runRoot_ok stg enc fuel s1 l1 cd hl1 h1)).2 cd2 h
      exact ⟨s1, l1, doc, st2, hws, hrok, hc, by rw [hc]; rfl⟩

theorem nfjp_parse_failure_root_and_message_witness :
    1 ≤ cdObj.allocated_bytes ∧
    (errShape c6msg ∧ nfcdType c6cd (nfcdRoot c6cd) = 6 ∧
      nfcdObjectSize c6cd (nfcdRoot c6cd) 1 = some 0) :=
  ⟨by decide,
    (nfjp_parse_failure_root_and_message jsDefault encZ c6inp cdObj 10
      (by decide)).1 c6msg c6cd (by rfl)⟩


/-! ## Claim C7: concrete error messages and line numbers -/

/-- **C7** (counterexample).  A strict parse of `"fulse"` does not
return the string the claim quotes: the code's `skip_char` wraps the
expected and seen characters in backticks (`Expected \x60a\x60, saw
\x60u\x60`), not in apostrophes. -/
theorem nfjp_parse_error_message_quoting_differs :
    (nfjpParse encZ c6inp cdObj 10).map Prod.fst ≠ some (some specQuoteMsg) := by
  decide

/-- **C7** (amended).  A strict parse of `"fulse"` returns exactly
`"1: Expected \x60a\x60, saw \x60u\x60"` and a strict parse of
`"\n\nfulse"` returns the same message prefixed `"3: "`: the `n` in a
parse error is the 1-based line of the offending byte, but the
characters in the message are quoted with backticks, not apostrophes. -/
theorem nfjp_parse_error_line_numbers :
    (nfjpParse encZ c6inp cdObj 10).map Prod.fst =
      some (some ([49, 58, 32] ++ msgExpected 97 117)) ∧
    (nfjpParse encZ ([10, 10] ++ c6inp) cdObj 10).map Prod.fst =
      some (some ([51, 58, 32] ++ msgExpected 97 117)) :=
  ⟨rfl, rfl⟩

/-! ## Claim C8: the number grammar -/

theorem readBytes_writeBytes (m : Nat → Nat) (a : Nat) (bs : List Nat) :
    readBytes (writeBytes m a bs) a bs.length = bs := by
  unfold readBytes
  refine List.ext_getElem (by simp) ?_
  intro i h1 h2
  simp only [List.getElem_map, List.getElem_range]
  rw [writeBytes_getD m a bs i (by simpa using h2)]
  simp only [List.length_map, List.length_range] at h1
  exact List.getD_eq_getElem bs 0 h1

theorem takeDigits_spec (ds : List Nat) :
    ∀ rest, (∀ c ∈ ds, isDigitB c = true) → isDigitB (rest.headD 0) = false →
      takeDigits (ds ++ rest) = (ds, rest) := by
  induction ds with
  | nil =>
    intro rest _ hr
    cases rest with
    | nil => rfl
    | cons c r =>
      simp only [List.nil_append, takeDigits]
      rw [List.headD_cons] at hr
      rw [hr]
      simp
  | cons c ds ih =>
    intro rest hds hr
    simp only [List.cons_append, takeDigits]
    rw [hds c (by simp)]
    simp only [if_true]
    have he : ds.append rest = ds ++ rest := rfl
    rw [he, ih rest (fun d hd => hds d (by simp [hd])) hr]

theorem skipWs_imm (stg : JSettings) (fuel : Nat) (s : List Nat) (line : Nat)
    (h : (isspaceB (s.headD 0) || s.headD 0 = 47 || s.headD 0 = 44) = false) :
    skipWs stg (fuel + 1) s line = some (.inr (s, line)) := by
  unfold skipWs
  dsimp only
  rw [h]
  simp

theorem numFracScan_none (line : Nat) (s2 : List Nat) (h : s2.headD 0 ≠ 46) :
    numFracScan line s2 = .inr (0, 1, s2) := by
  unfold numFracScan
  rw [if_neg h]

theorem numFracScan_digits (line : Nat) (f : Nat) (fs r : List Nat)
    (hf : ∀ c ∈ f :: fs, isDigitB c = true)
    (hr : isDigitB (r.headD 0) = false) :
    numFracScan line ((46 :: (f :: fs)) ++ r) =
      .inr (digitsVal (f :: fs), fracDivW (f :: fs).length, r) := by
  have htd2 : takeDigits (f :: (fs ++ r)) = (f :: fs, r) := by
    simpa using takeDigits_spec (f :: fs) r hf hr
  unfold numFracScan
  simp only [List.cons_append, List.headD_cons, List.tail_cons]
  rw [if_pos trivial, if_pos (hf f (by simp)), htd2]

theorem numExpScan_none (line : Nat) (s4 : List Nat) (h1 : s4.headD 0 ≠ 101)
    (h2 : s4.headD 0 ≠ 69) :
    numExpScan line s4 = .inr (false, 0, s4) := by
  unfold numExpScan
  rw [if_neg (by push_neg; exact ⟨h1, h2⟩)]

theorem numExpScan_digits (line : Nat) (eneg : Bool) (e0 : Nat)
    (ech sgn es r : List Nat) (hech : ech = [101] ∨ ech = [69])
    (hsgn : (eneg = false ∧ (sgn = [] ∨ sgn = [43])) ∨
      (eneg = true ∧ sgn = [45]))
    (he : ∀ c ∈ e0 :: es, isDigitB c = true)
    (hr : isDigitB (r.headD 0) = false) :
    numExpScan line ((ech ++ sgn ++ (e0 :: es)) ++ r) =
      .inr (eneg, digitsVal (e0 :: es), r) := by
  have he0 : isDigitB e0 = true := he e0 (by simp)
  have he0b : 48 ≤ e0 ∧ e0 ≤ 57 := by simpa [isDigitB] using he0
  have htd2 : takeDigits (e0 :: (es ++ r)) = (e0 :: es, r) := by
    simpa using takeDigits_spec (e0 :: es) r he hr
  have h43 : e0 ≠ 43 := by omega
  have h45 : e0 ≠ 45 := by omega
  rcases hech with hech | hech <;> subst hech <;>
    rcases hsgn with ⟨hne, hs | hs⟩ | ⟨hne, hs⟩ <;> subst hne <;> subst hs <;>
    simp [numExpScan, h43, h45, he0, htd2, List.append_assoc]

set_option maxHeartbeats 1000000 in
theorem parseNumE_token (line : Nat) (neg eneg : Bool)
    (intTok fds ech sgn eds rest : List Nat)
    (hint : intTok = [48] ∨ ∃ d ds, intTok = d :: ds ∧ 49 ≤ d ∧ d ≤ 57 ∧
      ∀ c ∈ ds, isDigitB c = true)
    (hfds : ∀ c ∈ fds, isDigitB c = true)
    (heds : ∀ c ∈ eds, isDigitB c = true)
    (hech : ech = [101] ∨ ech = [69])
    (hsgn : (eneg = false ∧ (sgn = [] ∨ sgn = [43])) ∨
      (eneg = true ∧ sgn = [45]))
    (hnoe : eds = [] → eneg = false ∧ sgn = [])
    (hr1 : isDigitB (rest.headD 0) = false) (hr2 : rest.headD 0 ≠ 46)
    (hr3 : rest.headD 0 ≠ 101) (hr4 : rest.headD 0 ≠ 69) :
    parseNumE line (((if neg then [45] else []) ++ intTok ++
        (if fds = [] then [] else 46 :: fds) ++
        (if eds = [] then [] else ech ++ sgn ++ eds)) ++ rest) =
      .inr ((neg, digitsVal intTok, digitsVal fds, fracDivW fds.length, eneg,
        digitsVal eds), rest) := by
  have hexp : numExpScan line ((if eds = [] then []
      else ech ++ (sgn ++ eds)) ++ rest) =
      .inr (eneg, digitsVal eds, rest) := by
    cases eds with
    | nil =>
      obtain ⟨hne2, hs⟩ := hnoe rfl
      subst hne2
      show numExpScan line ([] ++ rest) = _
      rw [List.nil_append, numExpScan_none line rest hr3 hr4]
      rfl
    | cons e0 es =>
      show numExpScan line ((ech ++ (sgn ++ (e0 :: es))) ++ rest) = _
      rw [← List.append_assoc ech sgn (e0 :: es)]
      exact numExpScan_digits line eneg e0 ech sgn es rest hech hsgn heds hr1
  have hb3 : isDigitB (((if eds = [] then [] else ech ++ (sgn ++ eds)) ++
      rest).headD 0) = false := by
    cases eds with
    | nil =>
      show isDigitB (([] ++ rest).headD 0) = false
      rw [List.nil_append]
      exact hr1
    | cons e0 es =>
      rcases hech with hech | hech <;> subst hech
      · show isDigitB 101 = false
        decide
      · show isDigitB 69 = false
        decide
  have hfrac : numFracScan line ((if fds = [] then [] else 46 :: fds) ++
      ((if eds = [] then [] else ech ++ (sgn ++ eds)) ++ rest)) =
      .inr (digitsVal fds, fracDivW fds.length,
        (if eds = [] then [] else ech ++ (sgn ++ eds)) ++ rest) := by
    cases fds with
    | nil =>
      have hne : (((if eds = [] then [] else ech ++ (sgn ++ eds)) ++
          rest).headD 0) ≠ 46 := by
        cases eds with
        | nil =>
          show (([] ++ rest).headD 0) ≠ 46
          rw [List.nil_append]
          exact hr2
        | cons e0 es =>
          rcases hech with hech | hech <;> subst hech
          · show (101 : Nat) ≠ 46
            decide
          · show (69 : Nat) ≠ 46
            decide
      show numFracScan line ([] ++ ((if eds = [] then []
        else ech ++ (sgn ++ eds)) ++ rest)) = _
      rw [List.nil_append, numFracScan_none line _ hne]
      rfl
    | cons f fs =>
      show numFracScan line ((46 :: (f :: fs)) ++ ((if eds = [] then []
        else ech ++ (sgn ++ eds)) ++ rest)) = _
      exact numFracScan_digits line f fs _ hfds hb3
  have hb2 : isDigitB ((((if fds = [] then [] else 46 :: fds) ++
      ((if eds = [] then [] else ech ++ (sgn ++ eds)) ++
        rest))).headD 0) = false := by
    cases fds with
    | nil =>
      show isDigitB (([] ++ ((if eds = [] then []
        else ech ++ (sgn ++ eds)) ++ rest)).headD 0) = false
      rw [List.nil_append]
      exact hb3
    | cons f fs =>
      show isDigitB 46 = false
      decide
  rcases hint with hI | ⟨d, ds, hI, hd1, hd2, hds⟩ <;> subst hI
  · cases neg <;>
      simp [parseNumE, List.append_assoc, hfrac, hexp, digitsVal]
  · have hd45 : d ≠ 45 := by omega
    have hd48 : d ≠ 48 := by omega
    have hdig : isDigitB d = true := by simp [isDigitB]; omega
    have htdI : takeDigits (d :: (ds ++ ((if fds = [] then []
        else 46 :: fds) ++ ((if eds = [] then []
        else ech ++ (sgn ++ eds)) ++ rest)))) =
        (d :: ds, (if fds = [] then [] else 46 :: fds) ++
          ((if eds = [] then [] else ech ++ (sgn ++ eds)) ++ rest)) := by
      simpa using takeDigits_spec (d :: ds) _
        (by intro c hc
            rcases List.mem_cons.1 hc with hc | hc
            · subst hc; exact hdig
            · exact hds c hc) hb2
    cases neg <;>
      simp [parseNumE, List.append_assoc, hd45, hd48, hdig, htdI, hfrac, hexp]

theorem numFracScan_baredot (line : Nat) (rest : List Nat)
    (hr : isDigitB (rest.headD 0) = false) :
    numFracScan line (46 :: rest) = .inl (mkErr line msgBadNumber) := by
  unfold numFracScan
  simp only [List.headD_cons, List.tail_cons]
  rw [if_pos trivial, if_neg (by simpa using hr)]

theorem numExpScan_nodigits (line : Nat) (ech sgn rest : List Nat)
    (hech : ech = [101] ∨ ech = [69])
    (hsgn : sgn = [] ∨ sgn = [43] ∨ sgn = [45])
    (hr : isDigitB (rest.headD 0) = false)
    (h43 : rest.headD 0 ≠ 43) (h45 : rest.headD 0 ≠ 45) :
    numExpScan line (ech ++ (sgn ++ rest)) = .inl (mkErr line msgBadNumber) := by
  have hr2 : isDigitB (rest.head?.getD 0) = false := by simpa using hr
  have h43b : rest.head?.getD 0 ≠ 43 := by simpa using h43
  have h45b : rest.head?.getD 0 ≠ 45 := by simpa using h45
  rcases hech with hech | hech <;> subst hech <;>
    rcases hsgn with hs | hs | hs <;> subst hs <;>
    simp [numExpScan, hr, h43, h45, hr2, h43b, h45b]

theorem pfn_number (stg : JSettings) (enc : ℚ → List Nat) (fuel line : Nat)
    (cd : Arena) (s : List Nat)
    (parts : Bool × Nat × Nat × Nat × Bool × Nat) (rest : List Nat)
    (hc : (48 ≤ s.headD 0 ∧ s.headD 0 ≤ 57) ∨ s.headD 0 = 45)
    (hpn : parseNumE line s = .inr (parts, rest))
    (h1 : 1 ≤ cd.allocated_bytes) :
    ∃ cd2, pfn stg enc (fuel + 1) .value ⟨s, line, cd⟩ =
        .ok (makeLoc 3 cd.used_bytes) ⟨rest, line, cd2⟩ ∧
      nfcdType cd2 (makeLoc 3 cd.used_bytes) = 3 ∧
      nfcdToNumber cd2 (makeLoc 3 cd.used_bytes) =
        (enc (ratVal parts) ++ List.replicate 8 0).take 8 ∧
      1 ≤ cd2.allocated_bytes ∧ cd2.st = cd.st := by
  obtain ⟨cd2, hw, hu, hm, hst, hr, hle, h1b⟩ :=
    nfcdWrite_spec cd 3 ((enc (ratVal parts) ++ List.replicate 8 0).take 8) 0 h1
  have h34 : ¬(s.headD 0 = 34) := by rcases hc with ⟨a, b⟩ | a <;> omega
  have hw2 : nfcdAddNumber cd (enc (ratVal parts)) =
      some (cd2, makeLoc 3 cd.used_bytes) := hw
  refine ⟨cd2, ?_, ?_, ?_, h1b, hst⟩
  · unfold pfn
    dsimp only
    rw [if_neg h34, if_pos hc]
    simp only [hpn, hw2]
  · show locType (makeLoc 3 cd.used_bytes) = 3
    unfold locType makeLoc
    omega
  · unfold nfcdToNumber
    have hoff : locOff (makeLoc 3 cd.used_bytes) = cd.used_bytes := by
      unfold locOff makeLoc
      omega
    rw [hoff, hm]
    have hlen : ((enc (ratVal parts) ++ List.replicate 8 0).take 8 ++
        List.replicate 0 0).length = 8 := by simp
    have hrb := readBytes_writeBytes cd.mem cd.used_bytes
      ((enc (ratVal parts) ++ List.replicate 8 0).take 8 ++ List.replicate 0 0)
    rw [hlen] at hrb
    rw [hrb]
    simp

theorem digitsValGo_lt (ds : List Nat) :
    ∀ acc : Nat, (∀ c ∈ ds, isDigitB c = true) →
      (acc + 1) * 10 ^ ds.length ≤ 4294967296 →
      ds.foldl (fun a c => (10 * a + (c - 48)) % 4294967296) acc <
        (acc + 1) * 10 ^ ds.length := by
  induction ds with
  | nil =>
    intro acc _ _
    simpa using Nat.lt_succ_self acc
  | cons c ds ih =>
    intro acc hd hb
    have hc9 : c - 48 ≤ 9 := by
      have := hd c (by simp)
      simp [isDigitB] at this
      omega
    have hlen : (10 : Nat) ^ (c :: ds).length = 10 ^ ds.length * 10 := by
      simp [List.length_cons, pow_succ]
    have hstep1 : 10 * acc + (c - 48) + 1 ≤ (acc + 1) * 10 := by omega
    have hb2 : (10 * acc + (c - 48) + 1) * 10 ^ ds.length ≤ 4294967296 := by
      calc (10 * acc + (c - 48) + 1) * 10 ^ ds.length
          ≤ ((acc + 1) * 10) * 10 ^ ds.length :=
            Nat.mul_le_mul_right _ hstep1
        _ = (acc + 1) * 10 ^ (c :: ds).length := by rw [hlen]; ring
        _ ≤ 4294967296 := hb
    have hpos : 1 ≤ (10 : Nat) ^ ds.length := Nat.one_le_pow _ _ (by omega)
    have hsmall : 10 * acc + (c - 48) < 4294967296 := by
      have h2 : (10 * acc + (c - 48) + 1) * 1 ≤
          (10 * acc + (c - 48) + 1) * 10 ^ ds.length :=
        Nat.mul_le_mul_left _ hpos
      omega
    have hmod : (10 * acc + (c - 48)) % 4294967296 = 10 * acc + (c - 48) :=
      Nat.mod_eq_of_lt hsmall
    have hrec := ih (10 * acc + (c - 48)) (fun x hx => hd x (by simp [hx])) hb2
    calc (c :: ds).foldl (fun a c => (10 * a + (c - 48)) % 4294967296) acc
        = ds.foldl (fun a c => (10 * a + (c - 48)) % 4294967296)
            (10 * acc + (c - 48)) := by rw [List.foldl_cons, hmod]
      _ < (10 * acc + (c - 48) + 1) * 10 ^ ds.length := hrec
      _ ≤ ((acc + 1) * 10) * 10 ^ ds.length := Nat.mul_le_mul_right _ hstep1
      _ = (acc + 1) * 10 ^ (c :: ds).length := by rw [hlen]; ring

/-- A digit run of at most nine digits accumulates without overflow:
the folded value is the plain decimal value, below `10^9 < 2^31`. -/
theorem digitsVal_lt (ds : List Nat) (hd : ∀ c ∈ ds, isDigitB c = true)
    (hl : ds.length ≤ 9) : digitsVal ds < 10 ^ ds.length := by
  have h2 : (10 : Nat) ^ ds.length ≤ 10 ^ 9 :=
    Nat.pow_le_pow_right (by omega) hl
  have h9 : (10 : Nat) ^ 9 = 1000000000 := by norm_num
  have := digitsValGo_lt ds 0 hd (by omega)
  simpa using this

theorem fracDivW_eq : ∀ k : Nat, k ≤ 9 → fracDivW k = 10 ^ k := by
  intro k
  induction k with
  | zero => intro _; rfl
  | succ k ih =>
    intro hk
    unfold fracDivW
    rw [ih (by omega)]
    rw [show (10 : Nat) ^ k * 10 = 10 ^ (k + 1) from by rw [pow_succ]]
    apply Nat.mod_eq_of_lt
    have h2 : (10 : Nat) ^ (k + 1) ≤ 10 ^ 9 := Nat.pow_le_pow_right (by omega) hk
    have h9 : (10 : Nat) ^ 9 = 1000000000 := by norm_num
    omega

theorem toInt32_of_lt (n : Nat) (h : n < 2147483648) : toInt32 n = (n : Int) := by
  unfold toInt32
  rw [if_pos h]

set_option maxHeartbeats 1000000 in
/-- **C8** (amended).  For every token of the number grammar
`sign? int frac? exp?` (`int = 0 | [1-9][0-9]*`, `frac = .[0-9]+`,
`exp = [eE][+-]?[0-9]+`) whose digit runs each stay within the `int`
accumulators (at most nine digits, so `intp`, `fracp`, `ep` and
`fracdiv = 10^k` stay below `2^31`), `parse_value` stores a NUMBER
(type 3) whose 8 stored bytes encode
`sign * (int + frac/10^k) * 10^(esign*exp)`; an input with a leading
zero is rejected by the whole parse (the `0` is consumed as a complete
number and the next digit trips `Unexpected character`), and a bare `.`
or an exponent with no digits make `parse_number` fail with
`Bad number format`.  Ten or more digits overflow the `int`
accumulators (see the counterexample), so the original unconditional
value claim does not hold. -/
theorem parse_number_grammar_value_and_errors (enc : ℚ → List Nat) :
    (∀ (stg : JSettings) (fuel line : Nat) (cd : Arena) (neg eneg : Bool)
        (intTok fds ech sgn eds rest : List Nat),
      1 ≤ cd.allocated_bytes →
      (intTok = [48] ∨ ∃ d ds, intTok = d :: ds ∧ 49 ≤ d ∧ d ≤ 57 ∧
        ∀ c ∈ ds, isDigitB c = true) →
      (∀ c ∈ fds, isDigitB c = true) →
      (∀ c ∈ eds, isDigitB c = true) →
      (ech = [101] ∨ ech = [69]) →
      ((eneg = false ∧ (sgn = [] ∨ sgn = [43])) ∨
        (eneg = true ∧ sgn = [45])) →
      (eds = [] → eneg = false ∧ sgn = []) →
      intTok.length ≤ 9 → fds.length ≤ 9 → eds.length ≤ 9 →
      isDigitB (rest.headD 0) = false → rest.headD 0 ≠ 46 →
      rest.headD 0 ≠ 101 → rest.headD 0 ≠ 69 →
      ∃ cd2, pfn stg enc (fuel + 1) .value
          ⟨((if neg then [45] else []) ++ intTok ++
            (if fds = [] then [] else 46 :: fds) ++
            (if eds = [] then [] else ech ++ sgn ++ eds)) ++ rest,
            line, cd⟩ =
          .ok (makeLoc 3 cd.used_bytes) ⟨rest, line, cd2⟩ ∧
        nfcdType cd2 (makeLoc 3 cd.used_bytes) = 3 ∧
        nfcdToNumber cd2 (makeLoc 3 cd.used_bytes) =
          (enc ((if neg then (-1 : ℚ) else 1) *
            ((digitsVal intTok : ℚ) +
              (digitsVal fds : ℚ) / (10 : ℚ) ^ fds.length) *
            (10 : ℚ) ^ (if eneg then -(digitsVal eds : Int)
              else (digitsVal eds : Int))) ++
            List.replicate 8 0).take 8) ∧
    (∀ (fuel d : Nat) (rest : List Nat) (cd : Arena),
      1 ≤ cd.allocated_bytes → isDigitB d = true →
      ∃ cd2, nfjpParse enc (48 :: d :: rest) cd (fuel + 1) =
        some (some (mkErr 1 (msgUnexpected d)), cd2)) ∧
    (∀ (line : Nat) (neg : Bool) (intTok rest : List Nat),
      (intTok = [48] ∨ ∃ d ds, intTok = d :: ds ∧ 49 ≤ d ∧ d ≤ 57 ∧
        ∀ c ∈ ds, isDigitB c = true) →
      isDigitB (rest.headD 0) = false →
      parseNumE line (((if neg then [45] else []) ++ intTok ++ [46]) ++
        rest) = .inl (mkErr line msgBadNumber)) ∧
    (∀ (line : Nat) (neg : Bool) (intTok ech sgn rest : List Nat),
      (intTok = [48] ∨ ∃ d ds, intTok = d :: ds ∧ 49 ≤ d ∧ d ≤ 57 ∧
        ∀ c ∈ ds, isDigitB c = true) →
      (ech = [101] ∨ ech = [69]) →
      (sgn = [] ∨ sgn = [43] ∨ sgn = [45]) →
      isDigitB (rest.headD 0) = false →
      rest.headD 0 ≠ 43 → rest.headD 0 ≠ 45 →
      parseNumE line (((if neg then [45] else []) ++ intTok ++ ech ++
        sgn) ++ rest) = .inl (mkErr line msgBadNumber)) := by
  refine ⟨?_, ?_, ?_, ?_⟩
  · intro stg fuel line cd neg eneg intTok fds ech sgn eds rest h1 hint hfds
      heds hech hsgn hnoe hl1 hl2 hl3 hr1 hr2 hr3 hr4
    have htok := parseNumE_token line neg eneg intTok fds ech sgn eds rest
      hint hfds heds hech hsgn hnoe hr1 hr2 hr3 hr4
    have hc : ∀ (t : List Nat), t = ((if neg then [45] else []) ++ intTok ++
        (if fds = [] then [] else 46 :: fds) ++
        (if eds = [] then [] else ech ++ sgn ++ eds)) ++ rest →
        (48 ≤ t.headD 0 ∧ t.headD 0 ≤ 57) ∨ t.headD 0 = 45 := by
      intro t ht
      subst ht
      cases neg with
      | true => exact Or.inr rfl
      | false =>
        rcases hint with hI | ⟨d, ds, hI, hd1, hd2, hds⟩ <;> subst hI
        · refine Or.inl ⟨?_, ?_⟩
          · show (48 : Nat) ≤ 48
            omega
          · show (48 : Nat) ≤ 57
            omega
        · refine Or.inl ⟨?_, ?_⟩
          · show 48 ≤ d
            omega
          · show d ≤ 57
            omega
    obtain ⟨cd2, hok, hty, hnum, h1b, hstb⟩ :=
      pfn_number stg enc fuel line cd _ _ rest (hc _ rfl) htok h1
    refine ⟨cd2, hok, hty, ?_⟩
    rw [hnum]
    have hintAll : ∀ c ∈ intTok, isDigitB c = true := by
      rcases hint with hI | ⟨d, ds, hI, hd1, hd2, hds⟩ <;> subst hI
      · intro c hc
        simp at hc
        subst hc
        decide
      · intro c hc
        rcases List.mem_cons.1 hc with hc | hc
        · subst hc
          simp [isDigitB]
          omega
        · exact hds c hc
    have h9 : (10 : Nat) ^ 9 = 1000000000 := by norm_num
    have hi31 : digitsVal intTok < 2147483648 := by
      have ha := digitsVal_lt intTok hintAll hl1
      have hb2 : (10 : Nat) ^ intTok.length ≤ 10 ^ 9 :=
        Nat.pow_le_pow_right (by omega) hl1
      omega
    have hf31 : digitsVal fds < 2147483648 := by
      have ha := digitsVal_lt fds hfds hl2
      have hb2 : (10 : Nat) ^ fds.length ≤ 10 ^ 9 :=
        Nat.pow_le_pow_right (by omega) hl2
      omega
    have he31 : digitsVal eds < 2147483648 := by
      have ha := digitsVal_lt eds heds hl3
      have hb2 : (10 : Nat) ^ eds.length ≤ 10 ^ 9 :=
        Nat.pow_le_pow_right (by omega) hl3
      omega
    have hfdq : fracDivW fds.length = 10 ^ fds.length := fracDivW_eq fds.length hl2
    have hfd31 : fracDivW fds.length < 2147483648 := by
      rw [hfdq]
      have hb2 : (10 : Nat) ^ fds.length ≤ 10 ^ 9 :=
        Nat.pow_le_pow_right (by omega) hl2
      omega
    have hrv : ratVal (neg, digitsVal intTok, digitsVal fds,
        fracDivW fds.length, eneg, digitsVal eds) =
        (if neg then (-1 : ℚ) else 1) *
          ((digitsVal intTok : ℚ) +
            (digitsVal fds : ℚ) / (10 : ℚ) ^ fds.length) *
          (10 : ℚ) ^ (if eneg then -(digitsVal eds : Int)
            else (digitsVal eds : Int)) := by
      show (if neg then (-1 : ℚ) else 1) *
          ((toInt32 (digitsVal intTok) : ℚ) + (toInt32 (digitsVal fds) : ℚ) /
            (toInt32 (fracDivW fds.length) : ℚ)) *
          (10 : ℚ) ^ ((if eneg then (-1 : Int) else 1) *
            toInt32 (digitsVal eds)) = _
      rw [toInt32_of_lt _ hi31, toInt32_of_lt _ hf31, toInt32_of_lt _ hfd31,
        toInt32_of_lt _ he31, hfdq]
      push_cast
      cases eneg <;> norm_num
    rw [hrv]
  · intro fuel d rest cd h1 hd
    have hdb : 48 ≤ d ∧ d ≤ 57 := by simpa [isDigitB] using hd
    have h46 : d ≠ 46 := by omega
    have h101 : d ≠ 101 := by omega
    have h69 : d ≠ 69 := by omega
    have hpn : parseNumE 1 (48 :: d :: rest) =
        .inr ((false, 0, 0, 1, false, 0), d :: rest) := by
      simp [parseNumE, numFracScan, numExpScan, h46, h101, h69]
    have hcB : (48 ≤ (48 :: d :: rest).headD 0 ∧
        (48 :: d :: rest).headD 0 ≤ 57) ∨
        (48 :: d :: rest).headD 0 = 45 := by
      refine Or.inl ⟨?_, ?_⟩
      · show (48 : Nat) ≤ 48
        omega
      · show (48 : Nat) ≤ 57
        omega
    obtain ⟨cd2, hok, hty, hnum, h1b, hstb⟩ :=
      pfn_number jsDefault enc fuel 1 cd (48 :: d :: rest)
        (false, 0, 0, 1, false, 0) (d :: rest) hcB hpn h1
    obtain ⟨cd3, hw3, hu3, hm3, hst3, hrr3, hle3, h1c⟩ :=
      nfcdWrite_spec cd2 6 (encodeU32 0 ++ encodeU32 0 ++ encodeU32 0)
        (0 * 8) h1b
    refine ⟨nfcdSetRoot cd3 (makeLoc 6 cd2.used_bytes), ?_⟩
    have hws1 := skipWs_imm jsDefault (fuel + 1) (48 :: d :: rest) 1 rfl
    have hws2 := skipWs_imm jsDefault (fuel + 1) (d :: rest) 1
      (by
        rw [show (d :: rest).headD 0 = d from rfl]
        simp only [isspaceB, Bool.or_eq_false_iff, decide_eq_false_iff_not]
        omega)
    have hrun : runRoot jsDefault enc (fuel + 1) (48 :: d :: rest) 1 cd =
        .ok (makeLoc 3 cd.used_bytes) ⟨d :: rest, 1, cd2⟩ := by
      unfold runRoot
      rw [if_neg (by simp [jsDefault])]
      exact hok
    unfold nfjpParse nfjpParseWithSettings
    simp only [hws1]
    rw [hrun]
    unfold wrapTail
    dsimp only
    simp only [hws2]
    rw [if_neg (show ¬((d :: rest).headD 0 = 0) from by
      show ¬(d = 0); omega)]
    unfold errOut nfcdAddObject
    rw [hw3]
    rfl
  · intro line neg intTok rest hint hr
    have hfr : numFracScan line (46 :: rest) =
        .inl (mkErr line msgBadNumber) := numFracScan_baredot line rest hr
    rcases hint with hI | ⟨d, ds, hI, hd1, hd2, hds⟩ <;> subst hI
    · cases neg <;> simp [parseNumE, List.append_assoc, hfr]
    · have hd45 : d ≠ 45 := by omega
      have hd48 : d ≠ 48 := by omega
      have hdig : isDigitB d = true := by simp [isDigitB]; omega
      have htdI : takeDigits (d :: (ds ++ (46 :: rest))) =
          (d :: ds, 46 :: rest) := by
        simpa using takeDigits_spec (d :: ds) (46 :: rest)
          (by intro c hc
              rcases List.mem_cons.1 hc with hc | hc
              · subst hc; exact hdig
              · exact hds c hc) rfl
      cases neg <;>
        simp [parseNumE, List.append_assoc, hd45, hd48, hdig, htdI, hfr]
  · intro line neg intTok ech sgn rest hint hech hsgn hr h43 h45
    have hxe : numExpScan line (ech ++ (sgn ++ rest)) =
        .inl (mkErr line msgBadNumber) :=
      numExpScan_nodigits line ech sgn rest hech hsgn hr h43 h45
    have hne46 : ((ech ++ (sgn ++ rest)).headD 0) ≠ 46 := by
      rcases hech with h | h <;> subst h
      · show (101 : Nat) ≠ 46
        decide
      · show (69 : Nat) ≠ 46
        decide
    have hb : isDigitB ((ech ++ (sgn ++ rest)).headD 0) = false := by
      rcases hech with h | h <;> subst h
      · show isDigitB 101 = false
        decide
      · show isDigitB 69 = false
        decide
    have hfr : numFracScan line (ech ++ (sgn ++ rest)) =
        .inr (0, 1, ech ++ (sgn ++ rest)) := numFracScan_none line _ hne46
    rcases hint with hI | ⟨d, ds, hI, hd1, hd2, hds⟩ <;> subst hI
    · cases neg <;> simp [parseNumE, List.append_assoc, hfr, hxe]
    · have hd45 : d ≠ 45 := by omega
      have hd48 : d ≠ 48 := by omega
      have hdig : isDigitB d = true := by simp [isDigitB]; omega
      have htdI : takeDigits (d :: (ds ++ (ech ++ (sgn ++ rest)))) =
          (d :: ds, ech ++ (sgn ++ rest)) := by
        simpa using takeDigits_spec (d :: ds) (ech ++ (sgn ++ rest))
          (by intro c hc
              rcases List.mem_cons.1 hc with hc | hc
              · subst hc; exact hdig
              · exact hds c hc) hb
      cases neg <;>
        simp [parseNumE, List.append_assoc, hd45, hd48, hdig, htdI, hfr, hxe]

theorem parse_number_grammar_value_and_errors_witness :
    (∃ cd2, pfn jsDefault encZ (5 + 1) .value
        ⟨((if true then [45] else []) ++ [49, 50] ++
          (if ([53] : List Nat) = [] then [] else 46 :: [53]) ++
          (if ([50] : List Nat) = [] then [] else [101] ++ [45] ++ [50])) ++
          [], 1, cdObj⟩ =
        .ok (makeLoc 3 cdObj.used_bytes) ⟨[], 1, cd2⟩ ∧
      nfcdType cd2 (makeLoc 3 cdObj.used_bytes) = 3 ∧
      nfcdToNumber cd2 (makeLoc 3 cdObj.used_bytes) =
        (encZ ((if true then (-1 : ℚ) else 1) *
          ((digitsVal [49, 50] : ℚ) +
            (digitsVal [53] : ℚ) / (10 : ℚ) ^ ([53] : List Nat).length) *
          (10 : ℚ) ^ (if true then -(digitsVal [50] : Int)
            else (digitsVal [50] : Int))) ++
          List.replicate 8 0).take 8) ∧
    (∃ cd2, nfjpParse encZ (48 :: 49 :: []) cdObj (2 + 1) =
      some (some (mkErr 1 (msgUnexpected 49)), cd2)) ∧
    parseNumE 1 (((if false then [45] else []) ++ [48] ++ [46]) ++ []) =
      .inl (mkErr 1 msgBadNumber) ∧
    parseNumE 1 (((if false then [45] else []) ++ [48] ++ [101] ++ [45]) ++
      []) = .inl (mkErr 1 msgBadNumber) := by
  obtain ⟨hA, hB, hC, hD⟩ := parse_number_grammar_value_and_errors encZ
  refine ⟨hA jsDefault 5 1 cdObj true true [49, 50] [53] [101] [45] [50] []
      (by decide) (Or.inr ⟨49, [50], rfl, by decide, by decide, by decide⟩)
      (by decide) (by decide) (Or.inl rfl) (Or.inr ⟨rfl, rfl⟩)
      (fun h => List.noConfusion h) (by decide) (by decide) (by decide)
      (by decide) (by decide) (by decide) (by decide),
    hB 2 49 [] cdObj (by decide) (by decide),
    hC 1 false [48] [] (Or.inl rfl) (by decide),
    hD 1 false [48] [101] [45] [] (Or.inl rfl) (Or.inl rfl)
      (Or.inr (Or.inr rfl)) (by decide) (by decide) (by decide)⟩

/-- **C8** (counterexample).  The in-grammar token `0.1234567890` (ten
fraction digits) overflows the `int` accumulator `fracdiv`: the tenth
`fracdiv *= 10` wraps `10^10` to the 32-bit pattern `1410065408`, so the
value `parse_number` computes is `1234567890 / 1410065408`, not the
grammar value `1234567890 / 10^10` the claim asserts. -/
theorem parse_number_fracdiv_overflow :
    parseNumE 1 [48, 46, 49, 50, 51, 52, 53, 54, 55, 56, 57, 48] =
      .inr ((false, 0, 1234567890, 1410065408, false, 0), []) ∧
    (1410065408 : Nat) ≠ 10 ^ 10 ∧
    ratVal (false, 0, 1234567890, 1410065408, false, 0) ≠
      (if false then (-1 : ℚ) else 1) *
        (((0 : Nat) : ℚ) + ((1234567890 : Nat) : ℚ) / (10 : ℚ) ^ 10) *
        (10 : ℚ) ^ (if false then -((0 : Nat) : Int) else ((0 : Nat) : Int)) := by
  refine ⟨rfl, by decide, ?_⟩
  show (if false then (-1 : ℚ) else 1) *
      ((toInt32 0 : ℚ) + (toInt32 1234567890 : ℚ) / (toInt32 1410065408 : ℚ)) *
      (10 : ℚ) ^ ((if false then (-1 : Int) else 1) * toInt32 0) ≠ _
  rw [toInt32_of_lt 0 (by norm_num), toInt32_of_lt 1234567890 (by norm_num),
    toInt32_of_lt 1410065408 (by norm_num)]
  norm_num

/-! ## Claim C9: python multiline strings -/

theorem cutNul_of_not_mem (bs : List Nat) (h0 : (0 : Nat) ∉ bs) :
    cutNul bs = bs := by
  unfold cutNul
  induction bs with
  | nil => rfl
  | cons c bs ih =>
    have hc : c ≠ 0 := fun h => h0 (h ▸ List.mem_cons_self c bs)
    simp only [List.takeWhile_cons]
    rw [if_pos (by simpa using hc)]
    rw [ih (fun h => h0 (List.mem_cons_of_mem c h))]

theorem mlScan_general (bs : List Nat) :
    ∀ (acc rest : List Nat), (0 : Nat) ∉ bs →
      mlBody ([34, 34, 34] ++ rest) bs = true →
      rest.headD 0 ≠ 34 →
      mlScan acc (bs ++ ([34, 34, 34] ++ rest)) =
        (acc ++ bs, [34, 34, 34] ++ rest) := by
  induction bs with
  | nil =>
    intro acc rest _ _ hr
    have hr2 : rest.head?.getD 0 ≠ 34 := by simpa using hr
    simp [mlScan, hr, hr2]
  | cons c bs ih =>
    intro acc rest h0 hbody hr
    have h0s : (0 : Nat) ≠ c ∧ (0 : Nat) ∉ bs := by
      simpa [List.mem_cons, not_or] using h0
    have hb2 := hbody
    unfold mlBody at hb2
    rw [Bool.and_eq_true, decide_eq_true_eq] at hb2
    obtain ⟨hnt, hbody2⟩ := hb2
    have hL1 : (bs ++ ([34, 34, 34] ++ rest)).headD 0 ≠ 0 := by
      cases bs with
      | nil => simp
      | cons b bs2 =>
        have hb : b ≠ 0 := fun h =>
          h0s.2 (h ▸ List.mem_cons_self b bs2)
        simpa using hb
    have hL2 : (bs ++ ([34, 34, 34] ++ rest)).tail.headD 0 ≠ 0 := by
      cases bs with
      | nil => simp
      | cons b bs2 =>
        cases bs2 with
        | nil => simp
        | cons b2 bs3 =>
          have hb2 : b2 ≠ 0 := fun h =>
            h0s.2 (h ▸ List.mem_cons_of_mem b (List.mem_cons_self b2 bs3))
          simpa using hb2
    have h4 : c ≠ 34 ∨ (bs ++ ([34, 34, 34] ++ rest)).headD 0 ≠ 34 ∨
        (bs ++ ([34, 34, 34] ++ rest)).tail.headD 0 ≠ 34 ∨
        (bs ++ ([34, 34, 34] ++ rest)).tail.tail.headD 0 = 34 := by
      tauto
    show mlScan acc (c :: (bs ++ ([34, 34, 34] ++ rest))) = _
    unfold mlScan
    rw [if_pos ⟨fun h => h0s.1 h.symm, hL1, hL2, h4⟩]
    rw [ih (acc ++ [c]) rest h0s.2 hbody2 hr]
    simp

theorem nfcdAddString_toString :
    ∀ (fuel : Nat) (cd : Arena) (s : List Nat) (cd2 : Arena) (loc : Nat),
      WF cd.st → (0 : Nat) ∉ s →
      nfcdAddString s fuel cd = some (cd2, loc) →
      locType loc = 4 ∧ nfcdToString cd2 loc = s := by
  intro fuel
  induction fuel with
  | zero =>
    intro cd s cd2 loc _ _ h
    exact absurd h (by simp [nfcdAddString])
  | succ fuel ih =>
    intro cd s cd2 loc hwf h0 h
    unfold nfcdAddString at h
    split at h
    · exact absurd h (by simp)
    · rename_i st2 sym hts
      injection h with h2
      injection h2 with ha hb
      subst hb
      refine ⟨locType_makeLoc 4 sym (by omega), ?_⟩
      rw [← ha]
      show nfstToString st2 (locOff (makeLoc 4 sym)) = s
      rw [locOff_makeLoc 4 sym (by omega)]
      exact nfstToSymbol_toString hwf h0 hts
    · rename_i stu hts
      split at h
      · exact absurd h (by simp)
      · rename_i stg hg
        exact ih _ s cd2 loc (nfstGrow_WF hwf hg).1 h0 h

/-- **C9.**  With `python_multiline_strings`, a string opening with three
quotes is taken raw -- no escape interpretation, every byte of the
NUL-free body copied as-is, quote bytes included -- and ends at the
first run of three quote bytes that is not followed by a fourth
(`mlBody` states exactly that no unfollowed quote triple starts inside
the body); the interned STRING is the raw body.  In particular the
input of five quotes, `" x "`, five quotes parses to the STRING whose
bytes are two quotes, `" x "`, two quotes. -/
theorem parse_string_multiline_raw (enc : ℚ → List Nat) :
    (∀ (stg : JSettings) (fuel line : Nat) (cd cd2 : Arena) (loc : Nat)
        (bs rest : List Nat),
      stg.python_multiline_strings = true →
      (0 : Nat) ∉ bs →
      mlBody ([34, 34, 34] ++ rest) bs = true →
      rest.headD 0 ≠ 34 →
      WF cd.st →
      nfcdAddString bs (fuel + 1) cd = some (cd2, loc) →
      pfn stg enc (fuel + 1) .string
          ⟨34 :: 34 :: 34 :: (bs ++ ([34, 34, 34] ++ rest)), line, cd⟩ =
        .ok loc ⟨rest, line, cd2⟩ ∧
      nfcdType cd2 loc = 4 ∧ nfcdToString cd2 loc = bs) ∧
    (c9run = .ok c9loc ⟨[], 1, c9cd⟩ ∧ nfcdType c9cd c9loc = 4 ∧
      nfcdToString c9cd c9loc = [34, 34, 32, 120, 32, 34, 34]) := by
  constructor
  · intro stg fuel line cd cd2 loc bs rest hml h0 hbody hr hwf hadd
    obtain ⟨hty, hstr⟩ :=
      nfcdAddString_toString (fuel + 1) cd bs cd2 loc hwf h0 hadd
    refine ⟨?_, hty, hstr⟩
    unfold pfn
    dsimp only
    have hsk : skipCharE line 34
        (34 :: 34 :: 34 :: (bs ++ ([34, 34, 34] ++ rest))) =
        .inr (34 :: 34 :: (bs ++ ([34, 34, 34] ++ rest))) := rfl
    rw [hsk]
    dsimp only
    rw [if_pos ⟨hml, rfl, rfl⟩]
    rw [show (34 :: 34 :: (bs ++ ([34, 34, 34] ++ rest))).tail.tail =
      bs ++ ([34, 34, 34] ++ rest) from rfl]
    rw [mlScan_general bs [] rest h0 hbody hr]
    dsimp only
    simp only [List.nil_append]
    have hskc : skipChars line [34, 34, 34] ([34, 34, 34] ++ rest) =
        .inr rest := by
      simp [skipChars, skipCharE]
    rw [hskc]
    dsimp only
    rw [cutNul_of_not_mem bs h0, hadd]
  · exact ⟨rfl, rfl, by decide⟩

theorem parse_string_multiline_raw_witness :
    pfn jsMl encZ (5 + 1) .string
        ⟨34 :: 34 :: 34 :: ([34, 34, 32, 120, 32, 34, 34] ++
          ([34, 34, 34] ++ [])), 1, cdObj⟩ =
      .ok c9wloc ⟨[], 1, c9wcd⟩ ∧
    nfcdType c9wcd c9wloc = 4 ∧
    nfcdToString c9wcd c9wloc = [34, 34, 32, 120, 32, 34, 34] :=
  (parse_string_multiline_raw encZ).1 jsMl 5 1 cdObj c9wcd c9wloc
    [34, 34, 32, 120, 32, 34, 34] []
    rfl (by decide) (by decide) (by decide) (nfstInit_WF 8192 15) rfl

end NF
